import Mathlib

/-
  Verification development for the SSLC parser library (src/lib/parser.h).
  The repository ships only the public header; the engine behind it is
  reconstructed here from the design document (spec.md), as a shallow
  embedding: byte strings are lists of naturals, the interner / symbol
  tables / layout engine are pure functions, and the process-global parse
  result is explicit state.
-/

namespace SSLC

/-- Byte strings (identifier and literal text) as lists of byte values. -/
abbrev Str := List Nat

/-! ### Boundary constants, from src/lib/parser.h -/

/-- Value type tag `V_INT` (parser.h line 21). -/
def V_INT : Nat := 1

/-- Value type tag `V_FLOAT` (parser.h line 21). -/
def V_FLOAT : Nat := 2

/-- Value type tag `V_STRING` (parser.h line 21). -/
def V_STRING : Nat := 3

/-- Variable location tag `V_LOCAL` (parser.h line 24). -/
def V_LOCAL : Nat := 1

/-- Variable location tag `V_GLOBAL` (parser.h line 25). -/
def V_GLOBAL : Nat := 2

/-- Variable location tag `V_IMPORT` (parser.h line 26). -/
def V_IMPORT : Nat := 3

/-- Variable location tag `V_EXPORT` (parser.h line 27). -/
def V_EXPORT : Nat := 4

/-- Procedure flag `P_TIMED` (parser.h line 30). -/
def P_TIMED : Nat := 0x01

/-- Procedure flag `P_CONDITIONAL` (parser.h line 31). -/
def P_CONDITIONAL : Nat := 0x02

/-- Procedure flag `P_IMPORT` (parser.h line 32). -/
def P_IMPORT : Nat := 0x04

/-- Procedure flag `P_EXPORT` (parser.h line 33). -/
def P_EXPORT : Nat := 0x08

/-- Procedure flag `P_CRITICAL` (parser.h line 34). -/
def P_CRITICAL : Nat := 0x10

/-- Procedure flag `P_PURE` (parser.h line 35). -/
def P_PURE : Nat := 0x20

/-- Procedure flag `P_INLINE` (parser.h line 36). -/
def P_INLINE : Nat := 0x40

/-! ### String interner

Modelled from the spec: the interner implementation behind
`stringspaceSize` / `getStringspace` (parser.h lines 182-191) is not in
src/; spec section 4.1 describes it: `intern(text)` deduplicates by exact
byte match, returns the existing offset if `text` was already interned,
else appends `text` plus a terminator and returns the new offset; the pool
is a sequence of NUL-terminated byte strings concatenated in interning
order. We model the pool as the list of interned entries (terminators
implicit), with `poolBytes` producing the raw dump. -/

/-- Bytes an entry occupies in the pool: its text plus the NUL terminator. -/
def entrySize (s : Str) : Nat := s.length + 1

/-- Total byte size of the pool (spec 4.1: `size() -> bytes`). -/
def poolSize : List Str → Nat
  | [] => 0
  | s :: r => entrySize s + poolSize r

/-- Byte offset of `t` in the pool, if already interned (exact byte match). -/
def findOffset : List Str → Str → Option Nat
  | [], _ => none
  | s :: r, t => if s = t then some 0 else (findOffset r t).map (fun o => entrySize s + o)

/-- Modelled from the spec: `intern(text) -> offset` (spec 4.1). Returns the
existing offset when `text` was already interned, else appends it and
returns the offset of the new entry. -/
def intern (pool : List Str) (t : Str) : Nat × List Str :=
  match findOffset pool t with
  | some off => (off, pool)
  | none => (poolSize pool, pool ++ [t])

/-- The pool entry starting at byte offset `off`, when `off` is the start
of an entry. -/
def entryAt : List Str → Nat → Option Str
  | [], _ => none
  | s :: r, off =>
      if off = 0 then some s
      else if off < entrySize s then none
      else entryAt r (off - entrySize s)

/-- Raw bytes of the pool: each entry followed by its NUL terminator
(spec section 6: "a sequence of NUL-terminated byte strings concatenated in
interning order"). -/
def poolBytes : List Str → List Nat
  | [] => []
  | s :: r => s ++ 0 :: poolBytes r

/-- Split a byte sequence at NUL terminators: each chunk is the bytes since
the previous terminator; bytes after the last terminator form no chunk. -/
def splitNulAux (acc : Str) : List Nat → List Str
  | [] => []
  | b :: r => if b = 0 then acc.reverse :: splitNulAux [] r else splitNulAux (b :: acc) r

/-- Split the string-space dump on the NUL terminator. -/
def splitNul (bs : List Nat) : List Str := splitNulAux [] bs

/-- Intern a whole sequence of texts, left to right. -/
def internAll (pool : List Str) (ts : List Str) : List Str :=
  ts.foldl (fun p t => (intern p t).2) pool

/-- First-occurrence deduplication: keeps each text once, at its first
appearance, preserving order. -/
def dedupFirst : List Str → List Str
  | [] => []
  | t :: r => t :: (dedupFirst r).filter (fun x => x ≠ t)

/-! ### Interner lemmas -/

theorem findOffset_isSome_iff_mem (pool : List Str) (t : Str) :
    (findOffset pool t).isSome ↔ t ∈ pool := by
  induction pool with
  | nil => simp [findOffset]
  | cons s r ih =>
    by_cases h : s = t
    · subst h; simp [findOffset]
    · have hne : t ≠ s := fun ht => h ht.symm
      rw [findOffset, if_neg h]
      cases hf : findOffset r t with
      | none =>
        rw [hf] at ih
        simp only [Option.isSome_none, Bool.false_eq_true, false_iff] at ih
        simp [List.mem_cons, hne, ih]
      | some o =>
        rw [hf] at ih
        simp only [Option.isSome_some, true_iff] at ih
        simp [List.mem_cons, ih]

theorem intern_mem_eq (pool : List Str) (t : Str) (h : t ∈ pool) :
    (intern pool t).2 = pool := by
  rcases Option.isSome_iff_exists.1 ((findOffset_isSome_iff_mem pool t).2 h) with ⟨o, ho⟩
  simp [intern, ho]

theorem intern_not_mem_eq (pool : List Str) (t : Str) (h : t ∉ pool) :
    (intern pool t).2 = pool ++ [t] ∧ (intern pool t).1 = poolSize pool := by
  have hnone : findOffset pool t = none :=
    Option.not_isSome_iff_eq_none.1 (fun hs => h ((findOffset_isSome_iff_mem pool t).1 hs))
  simp [intern, hnone]

theorem findOffset_entryAt (pool : List Str) (t : Str) (off : Nat)
    (h : findOffset pool t = some off) : entryAt pool off = some t := by
  induction pool generalizing off with
  | nil => simp [findOffset] at h
  | cons s r ih =>
    by_cases hs : s = t
    · subst hs
      simp only [findOffset, if_pos rfl] at h
      have : off = 0 := by
        cases h; rfl
      subst this
      simp [entryAt]
    · rw [findOffset, if_neg hs] at h
      cases hf : findOffset r t with
      | none => rw [hf] at h; simp at h
      | some o =>
        rw [hf] at h
        simp only [Option.map_some'] at h
        have hoff : entrySize s + o = off := by
          injection h
        subst hoff
        have h1 : entrySize s + o ≠ 0 := by
          have : 0 < entrySize s := Nat.succ_pos _
          omega
        have h2 : ¬ entrySize s + o < entrySize s := by omega
        rw [entryAt]
        rw [if_neg h1, if_neg h2, Nat.add_sub_cancel_left]
        exact ih o hf

theorem intern_mem_spec (pool : List Str) (t : Str) (h : t ∈ pool) :
    (intern pool t).2 = pool ∧ entryAt pool (intern pool t).1 = some t := by
  rcases Option.isSome_iff_exists.1 ((findOffset_isSome_iff_mem pool t).2 h) with ⟨o, ho⟩
  refine ⟨intern_mem_eq pool t h, ?_⟩
  simp only [intern, ho]
  exact findOffset_entryAt pool t o ho

/-- Texts not already interned, as a Boolean predicate. -/
def freshOf (pool : List Str) : Str → Bool := fun t => decide (t ∉ pool)

theorem dedupFirst_filter (p : Str → Bool) (l : List Str) :
    dedupFirst (l.filter p) = (dedupFirst l).filter p := by
  induction l with
  | nil => rfl
  | cons a l ih =>
    by_cases hp : p a = true
    · rw [List.filter_cons_of_pos hp, dedupFirst, dedupFirst, ih,
        List.filter_cons_of_pos hp, List.filter_filter, List.filter_filter]
      congr 1
      apply List.filter_congr
      intro x _
      rw [Bool.and_comm]
    · have hp' : p a = false := Bool.eq_false_iff.2 hp
      rw [List.filter_cons_of_neg hp, dedupFirst, ih,
        List.filter_cons_of_neg hp, List.filter_filter]
      apply (List.filter_congr ?_).symm
      intro x _
      by_cases hx : x = a
      · subst hx; simp [hp']
      · simp [hx]

theorem internAll_eq (ts : List Str) (pool : List Str) :
    internAll pool ts = pool ++ dedupFirst (ts.filter (freshOf pool)) := by
  induction ts generalizing pool with
  | nil => simp [internAll, dedupFirst]
  | cons u r ih =>
    by_cases hu : u ∈ pool
    · have hf : freshOf pool u = false := by simp [freshOf, hu]
      rw [internAll, List.foldl_cons, intern_mem_eq pool u hu,
        List.filter_cons_of_neg (by simp [hf])]
      exact ih pool
    · have hf : freshOf pool u = true := by simp [freshOf, hu]
      rw [internAll, List.foldl_cons, (intern_not_mem_eq pool u hu).1]
      have step := ih (pool ++ [u])
      rw [internAll] at step
      rw [step, List.filter_cons_of_pos hf, dedupFirst]
      have hpred : ∀ x, freshOf (pool ++ [u]) x = (decide (x ≠ u) && freshOf pool x) := by
        intro x
        by_cases h1 : x ∈ pool <;> by_cases h2 : x = u <;>
          simp [freshOf, h1, h2, List.mem_append]
      have : r.filter (freshOf (pool ++ [u]))
          = (r.filter (freshOf pool)).filter (fun x => x ≠ u) := by
        rw [List.filter_filter]
        apply List.filter_congr
        intro x _
        rw [hpred x]
      rw [this, dedupFirst_filter]
      simp

theorem internAll_nil_eq (ts : List Str) : internAll [] ts = dedupFirst ts := by
  rw [internAll_eq]
  have : ts.filter (freshOf []) = ts := by
    apply List.filter_eq_self.2
    intro a _
    simp [freshOf]
  rw [this]
  simp

theorem dedupFirst_nodup (l : List Str) : (dedupFirst l).Nodup := by
  induction l with
  | nil => exact List.nodup_nil
  | cons a l ih =>
    rw [dedupFirst]
    refine List.nodup_cons.2 ⟨?_, List.Nodup.filter _ ih⟩
    intro hmem
    have := (List.mem_filter.1 hmem).2
    simp at this

theorem mem_dedupFirst (l : List Str) (t : Str) : t ∈ dedupFirst l ↔ t ∈ l := by
  induction l with
  | nil => simp [dedupFirst]
  | cons a l ih =>
    rw [dedupFirst]
    by_cases ht : t = a
    · subst ht; simp
    · simp only [List.mem_cons, List.mem_filter, ih, ht, false_or]
      constructor
      · exact fun h => h.1
      · intro h
        exact ⟨h, by simp [ht]⟩

theorem poolBytes_length (pool : List Str) : (poolBytes pool).length = poolSize pool := by
  induction pool with
  | nil => rfl
  | cons s r ih => simp [poolBytes, poolSize, entrySize, ih]; omega

theorem poolBytes_append_singleton (pool : List Str) (t : Str) :
    poolBytes (pool ++ [t]) = poolBytes pool ++ (t ++ [0]) := by
  induction pool with
  | nil => simp [poolBytes]
  | cons s r ih => simp [poolBytes, ih]

theorem splitNulAux_entry (s : Str) (h : (0:Nat) ∉ s) (acc : Str) (rest : List Nat) :
    splitNulAux acc (s ++ 0 :: rest) = (acc.reverse ++ s) :: splitNulAux [] rest := by
  induction s generalizing acc with
  | nil => simp [splitNulAux]
  | cons b s ih =>
    have hb : b ≠ 0 := fun hb0 => h (hb0 ▸ List.mem_cons_self b s)
    have hs : (0:Nat) ∉ s := fun hs0 => h (List.mem_cons_of_mem b hs0)
    rw [List.cons_append, splitNulAux, if_neg hb, ih hs]
    simp

theorem splitNul_poolBytes (pool : List Str) (h : ∀ s ∈ pool, (0:Nat) ∉ s) :
    splitNul (poolBytes pool) = pool := by
  induction pool with
  | nil => rfl
  | cons s r ih =>
    rw [poolBytes, splitNul, splitNulAux_entry s (h s (List.mem_cons_self s r)) [] (poolBytes r)]
    rw [List.reverse_nil, List.nil_append]
    have := ih (fun x hx => h x (List.mem_cons_of_mem s hx))
    rw [splitNul] at this
    rw [this]

/-- Size of the string space (parser.h line 185), over a pool. -/
def stringspaceSize (pool : List Str) : Nat := poolSize pool

/-- Bytes copied out by `getStringspace` (parser.h line 191), over a pool. -/
def getStringspace (pool : List Str) : List Nat := poolBytes pool

/-- C3: the string interner is idempotent on repeated text — interning a
string already in the pool returns the existing offset (which still addresses
that text) and does not grow the pool, while a new string is appended with a
NUL terminator; consequently, after any sequence of interns starting from the
empty pool (the interning trace of a parse), the `stringspaceSize()` bytes
produced by `getStringspace()`, split on the NUL terminator, contain each
distinct source string exactly once, regardless of repetition, concatenated in
interning (first-occurrence) order. -/
theorem claim_C3 (pool : List Str) (t u : Str) (ts : List Str) :
    (t ∈ pool → (intern pool t).2 = pool ∧ entryAt pool (intern pool t).1 = some t) ∧
    (u ∉ pool →
      (intern pool u).2 = pool ++ [u] ∧
      getStringspace (intern pool u).2 = getStringspace pool ++ (u ++ [0])) ∧
    ((∀ s ∈ ts, (0:Nat) ∉ s) →
      (getStringspace (internAll [] ts)).length = stringspaceSize (internAll [] ts) ∧
      splitNul (getStringspace (internAll [] ts)) = dedupFirst ts ∧
      (∀ s, s ∈ dedupFirst ts ↔ s ∈ ts) ∧
      (dedupFirst ts).Nodup) := by
  refine ⟨fun h => intern_mem_spec pool t h, fun h => ?_, fun h => ?_⟩
  · refine ⟨(intern_not_mem_eq pool u h).1, ?_⟩
    simp only [getStringspace]
    rw [(intern_not_mem_eq pool u h).1]
    exact poolBytes_append_singleton pool u
  · simp only [getStringspace, stringspaceSize]
    rw [internAll_nil_eq]
    refine ⟨poolBytes_length _, ?_, mem_dedupFirst ts, dedupFirst_nodup ts⟩
    exact splitNul_poolBytes _ (fun s hs => h s ((mem_dedupFirst ts s).1 hs))

/-- Witness for C3 at concrete inputs: pool `[[1]]`, repeated text `[1]`,
fresh text `[2]`, trace `[[1],[2],[1]]`. -/
theorem claim_C3_witness :
    ((intern [[1]] [1]).2 = [[1]] ∧ entryAt [[1]] (intern [[1]] [1]).1 = some [1]) ∧
    ((intern [[1]] [2]).2 = [[1]] ++ [[2]] ∧
      getStringspace (intern [[1]] [2]).2 = getStringspace [[1]] ++ ([2] ++ [0])) ∧
    ((getStringspace (internAll [] [[1],[2],[1]])).length
        = stringspaceSize (internAll [] [[1],[2],[1]]) ∧
      splitNul (getStringspace (internAll [] [[1],[2],[1]])) = dedupFirst [[1],[2],[1]] ∧
      (∀ s, s ∈ dedupFirst [[1],[2],[1]] ↔ s ∈ [[1],[2],[1]]) ∧
      (dedupFirst [[1],[2],[1]]).Nodup) := by
  have h := claim_C3 [[1]] [1] [2] [[1],[2],[1]]
  exact ⟨h.1 (by decide), h.2.1 (by decide), h.2.2 (by decide)⟩

/-! ### Data model, from src/lib/parser.h -/

/-- Value union (parser.h lines 45-52): the `type` tag selects the active
union member; spec section 3 calls it a tagged union, so it is a sum type
here. The float payload is kept as its raw 32-bit pattern (only its width
matters to the layout engine). -/
inductive Value
  | vInt (intData : Int)
  | vFloat (floatBits : Nat)
  | vString (stringData : Nat)
deriving Repr, DecidableEq

/-- The `type` field of a `Value` (parser.h line 46). -/
def Value.type : Value → Nat
  | .vInt _ => V_INT
  | .vFloat _ => V_FLOAT
  | .vString _ => V_STRING

/-- Source reference (parser.h lines 39-42). -/
structure Reference where
  line : Int
  file : String
deriving Repr, DecidableEq

/-- AST node (parser.h lines 69-75). -/
structure Node where
  token : Int
  file : String
  lineNum : Int
  value : Value
  column : Int
deriving Repr, DecidableEq

/-- Node sequence (parser.h lines 77-80). -/
abbrev NodeList := List Node

/-- Variable record (parser.h lines 55-66). `name` is the interned offset
into the namelist; `nameText` additionally carries the bytes that offset
addresses (the C code recovers them from the namelist), so that scope
lookups can be stated directly. `numRefs` is kept as a stored field exactly
as in the C struct, so that its agreement with `references.length` is a
provable invariant rather than a definition. -/
structure Variable where
  name : Nat
  nameText : Str
  references : List Reference
  numRefs : Nat
  value : Value
  type : Nat
  arrayLen : Nat
  declared : Int
  fdeclared : String
  uses : Nat
  initialized : Bool
deriving Repr, DecidableEq

/-- Trigger of a procedure (parser.h lines 85-89): the tagged variant behind
the `P_TIMED` / `P_CONDITIONAL` bits of `type` and the `time`/`condition`
union; spec section 3 states it is exactly one of None, Timed, Conditional. -/
inductive Trigger
  | noTrigger
  | timed (time : Int)
  | conditional (condition : NodeList)
deriving Repr, DecidableEq

/-- Independent procedure modifier bits (parser.h lines 32-36). -/
structure ProcMods where
  isImport : Bool
  isExport : Bool
  isCritical : Bool
  isPure : Bool
  isInline : Bool
deriving Repr, DecidableEq

/-- Bit mask contributed by the modifiers. -/
def ProcMods.bits (m : ProcMods) : Nat :=
  (if m.isImport then P_IMPORT else 0) + (if m.isExport then P_EXPORT else 0) +
  (if m.isCritical then P_CRITICAL else 0) + (if m.isPure then P_PURE else 0) +
  (if m.isInline then P_INLINE else 0)

/-- Bit contributed by the trigger kind. -/
def Trigger.bits : Trigger → Nat
  | .noTrigger => 0
  | .timed _ => P_TIMED
  | .conditional _ => P_CONDITIONAL

/-- Procedure record (parser.h lines 83-110). The C `end` field is `stop`
here and the nested C `variables` table is `locals` (both C names are
reserved or replaced words in Lean); `nameText` carries the bytes behind
the interned `name` offset as for `Variable`. -/
structure Procedure where
  name : Nat
  nameText : Str
  trigger : Trigger
  mods : ProcMods
  numArgs : Nat
  defined : Bool
  locals : List Variable
  references : List Reference
  numRefs : Nat
  uses : Nat
  declared : Int
  fdeclared : String
  start : Int
  fstart : String
  stop : Int
  fend : String
  nodes : NodeList
  minArgs : Nat
deriving Repr, DecidableEq

/-- The packed `type` field of a procedure (parser.h line 85): trigger bit
plus modifier bits. -/
def Procedure.typeField (p : Procedure) : Nat := p.trigger.bits ||| p.mods.bits

/-- Reading the `time` union member: meaningful only for a Timed trigger. -/
def Procedure.readTime (p : Procedure) : Option Int :=
  match p.trigger with
  | .timed t => some t
  | _ => none

/-- Reading the `condition` union member: meaningful only for a Conditional
trigger. -/
def Procedure.readCondition (p : Procedure) : Option NodeList :=
  match p.trigger with
  | .conditional c => some c
  | _ => none

/-- The finalized result of one parse invocation (spec section 3,
CompilationUnit). -/
structure CompilationUnit where
  pool : List Str
  globals : List Variable
  procs : List Procedure
  mainNodes : NodeList
deriving Repr, DecidableEq

/-! ### Namespace layout engine

Modelled from the spec: the engine behind `namespaceSize` / `getNamespace` /
`getProcNamespaceSize` / `getProcNamespace` (parser.h lines 137-180) is not
in src/; spec section 4.5 describes it: each variable gets a contiguous byte
slot in declaration order, of width 4 bytes (Int/Float/String reference)
times `max(1, arrayLen)`; total size is the sum of slot widths; a scope with
zero declared variables reports the sentinel -1; the dump returns exactly
`size` bytes, or fails on a scope with no layout. -/

/-- Slot width of one variable (spec 4.5). -/
def slotWidth (v : Variable) : Nat := 4 * max 1 v.arrayLen

/-- Layout size of one scope: sum of slot widths, or the sentinel -1 for a
scope with zero declared variables (spec 4.5). -/
def layoutSize (vars : List Variable) : Int :=
  match vars with
  | [] => -1
  | _ => ((vars.map slotWidth).sum : Nat)

/-- Four little-endian bytes of an integer, reduced mod 2^32. -/
def encodeWord (n : Int) : List Nat :=
  [(n % 2^32).toNat % 256, (n % 2^32).toNat / 256 % 256,
   (n % 2^32).toNat / 256^2 % 256, (n % 2^32).toNat / 256^3 % 256]

/-- The four payload bytes of a value (Int, Float pattern, or string-pool
reference: 4 bytes each, spec 4.5). -/
def encodeValue : Value → List Nat
  | .vInt v => encodeWord v
  | .vFloat bits => encodeWord (bits : Int)
  | .vString off => encodeWord (off : Int)

/-- The packed slot of one variable: its value bytes, padded to the slot
width (array elements beyond the initializer are zeroed storage). -/
def encodeSlot (v : Variable) : List Nat :=
  encodeValue v.value ++ List.replicate (4 * (max 1 v.arrayLen - 1)) 0

/-- Dump of one scope's layout: the slots concatenated in declaration order,
failing on a scope with no layout (spec 4.5). -/
def dumpLayout (vars : List Variable) : Option (List Nat) :=
  match vars with
  | [] => none
  | _ => some ((vars.map encodeSlot).flatten)

/-- Byte offset where variable `k` of the scope starts. -/
def slotOffset (vars : List Variable) (k : Nat) : Nat :=
  ((vars.take k).map slotWidth).sum

/-! ### Query surface over a compilation unit (parser.h lines 125-213) -/

/-- Number of procedures, excluding the implicit main (parser.h line 128). -/
def numProcs (u : CompilationUnit) : Nat := u.procs.length

/-- Number of variables (parser.h line 154). -/
def numVars (u : CompilationUnit) : Nat := u.globals.length

/-- Size of the global namespace (parser.h line 174). -/
def namespaceSize (u : CompilationUnit) : Int := layoutSize u.globals

/-- Bytes copied out by `getNamespace` (parser.h line 180). -/
def getNamespace (u : CompilationUnit) : Option (List Nat) := dumpLayout u.globals

/-- Local variables of procedure `i` (empty when `i` is out of range, when
the namespace query reports the sentinel). -/
def procVarsAt (u : CompilationUnit) (i : Nat) : List Variable :=
  ((u.procs.get? i).map (·.locals)).getD []

/-- Size of procedure `i`'s local namespace, -1 if none (parser.h line 142). -/
def getProcNamespaceSize (u : CompilationUnit) (i : Nat) : Int :=
  layoutSize (procVarsAt u i)

/-- Bytes copied out by `getProcNamespace` (parser.h line 149). -/
def getProcNamespace (u : CompilationUnit) (i : Nat) : Option (List Nat) :=
  dumpLayout (procVarsAt u i)

/-! ### Layout lemmas -/

theorem encodeValue_length (v : Value) : (encodeValue v).length = 4 := by
  cases v <;> rfl

theorem encodeSlot_length (v : Variable) : (encodeSlot v).length = slotWidth v := by
  rw [encodeSlot, List.length_append, encodeValue_length, List.length_replicate, slotWidth]
  have : 1 ≤ max 1 v.arrayLen := le_max_left _ _
  omega

theorem dumpLayout_length (vars : List Variable) (h : vars ≠ []) :
    ∃ bs, dumpLayout vars = some bs ∧ (bs.length : Int) = layoutSize vars := by
  cases vars with
  | nil => exact absurd rfl h
  | cons v rest =>
    refine ⟨((v :: rest).map encodeSlot).flatten, rfl, ?_⟩
    have hsz : layoutSize (v :: rest) = (((v :: rest).map slotWidth).sum : Nat) := rfl
    rw [hsz, List.length_flatten, List.map_map]
    norm_cast
    congr 1
    apply List.map_congr_left
    intro x _
    exact encodeSlot_length x

theorem dumpLayout_slot (vars : List Variable) (k : Nat) (hk : k < vars.length) :
    ((((vars.map encodeSlot).flatten).drop (slotOffset vars k)).take
        (slotWidth (vars.get ⟨k, hk⟩))) = encodeSlot (vars.get ⟨k, hk⟩) := by
  induction vars generalizing k with
  | nil => exact absurd hk (Nat.not_lt_zero k)
  | cons v rest ih =>
    cases k with
    | zero =>
      simp only [slotOffset, List.take_zero, List.map_nil, List.sum_nil, List.drop_zero,
        List.map_cons, List.flatten_cons, List.get]
      exact List.take_left' (encodeSlot_length v)
    | succ k =>
      have hk' : k < rest.length := Nat.lt_of_succ_lt_succ hk
      have hoff : slotOffset (v :: rest) (k + 1) = slotWidth v + slotOffset rest k := by
        simp [slotOffset, List.take_succ_cons]
      rw [hoff, List.map_cons, List.flatten_cons, ← List.drop_drop,
        List.drop_left' (encodeSlot_length v)]
      exact ih k hk'

theorem layout_scope_spec (vars : List Variable) :
    (vars ≠ [] →
      layoutSize vars = (((vars.map (fun v => 4 * max 1 v.arrayLen)).sum : Nat) : Int) ∧
      ∃ bs, dumpLayout vars = some bs ∧ (bs.length : Int) = layoutSize vars ∧
        ∀ k (hk : k < vars.length),
          (bs.drop (slotOffset vars k)).take (slotWidth (vars.get ⟨k, hk⟩))
            = encodeSlot (vars.get ⟨k, hk⟩)) ∧
    (vars = [] → layoutSize vars = -1 ∧ dumpLayout vars = none) := by
  constructor
  · intro h
    cases vars with
    | nil => exact absurd rfl h
    | cons v rest =>
      refine ⟨rfl, ((v :: rest).map encodeSlot).flatten, rfl, ?_, ?_⟩
      · have hsz : layoutSize (v :: rest) = (((v :: rest).map slotWidth).sum : Nat) := rfl
        rw [hsz, List.length_flatten, List.map_map]
        norm_cast
        congr 1
        apply List.map_congr_left
        intro x _
        exact encodeSlot_length x
      · intro k hk
        exact dumpLayout_slot (v :: rest) k hk
  · intro h
    subst h
    exact ⟨rfl, rfl⟩

/-- C1: for every scope with at least one declared variable, the reported
namespace size (`namespaceSize()` for the global scope,
`getProcNamespaceSize(i)` for procedure `i`) equals the sum over that
scope's variables of `4 * max(1, arrayLen)`, with slots assigned
contiguously in declaration order; for a scope with zero declared variables
the reported size is -1; and the corresponding dump (`getNamespace` /
`getProcNamespace`) writes exactly the reported number of bytes when the
size is non-negative (and fails on a scope with no layout). -/
theorem claim_C1 (u w : CompilationUnit) (i j : Nat) :
    (u.globals ≠ [] →
      namespaceSize u = (((u.globals.map (fun v => 4 * max 1 v.arrayLen)).sum : Nat) : Int) ∧
      ∃ bs, getNamespace u = some bs ∧ (bs.length : Int) = namespaceSize u ∧
        ∀ k (hk : k < u.globals.length),
          (bs.drop (slotOffset u.globals k)).take (slotWidth (u.globals.get ⟨k, hk⟩))
            = encodeSlot (u.globals.get ⟨k, hk⟩)) ∧
    (procVarsAt u i ≠ [] →
      getProcNamespaceSize u i
          = ((((procVarsAt u i).map (fun v => 4 * max 1 v.arrayLen)).sum : Nat) : Int) ∧
      ∃ bs, getProcNamespace u i = some bs ∧ (bs.length : Int) = getProcNamespaceSize u i ∧
        ∀ k (hk : k < (procVarsAt u i).length),
          (bs.drop (slotOffset (procVarsAt u i) k)).take
              (slotWidth ((procVarsAt u i).get ⟨k, hk⟩))
            = encodeSlot ((procVarsAt u i).get ⟨k, hk⟩)) ∧
    (w.globals = [] → namespaceSize w = -1 ∧ getNamespace w = none) ∧
    (procVarsAt w j = [] → getProcNamespaceSize w j = -1 ∧ getProcNamespace w j = none) := by
  refine ⟨fun h => (layout_scope_spec u.globals).1 h,
    fun h => (layout_scope_spec (procVarsAt u i)).1 h,
    fun h => (layout_scope_spec w.globals).2 h,
    fun h => (layout_scope_spec (procVarsAt w j)).2 h⟩

/-- Sample global variable for concrete witnesses. -/
def sampleVar : Variable :=
  { name := 0, nameText := [1], references := [⟨1, "f"⟩], numRefs := 1,
    value := .vInt 5, type := V_GLOBAL, arrayLen := 0, declared := 1,
    fdeclared := "f", uses := 0, initialized := true }

/-- Sample local array variable for concrete witnesses. -/
def sampleVar2 : Variable :=
  { name := 2, nameText := [2], references := [⟨2, "f"⟩], numRefs := 1,
    value := .vFloat 7, type := V_LOCAL, arrayLen := 3, declared := 2,
    fdeclared := "f", uses := 0, initialized := false }

/-- Sample procedure for concrete witnesses. -/
def sampleProc : Procedure :=
  { name := 4, nameText := [3], trigger := .noTrigger,
    mods := ⟨false, false, false, false, false⟩, numArgs := 0, defined := true,
    locals := [sampleVar2], references := [⟨3, "f"⟩], numRefs := 1, uses := 0,
    declared := 3, fdeclared := "f", start := 3, fstart := "f", stop := 5,
    fend := "f", nodes := [], minArgs := 0 }

/-- Sample populated compilation unit for concrete witnesses. -/
def sampleUnit : CompilationUnit :=
  { pool := [[1], [2], [3]], globals := [sampleVar, sampleVar2],
    procs := [sampleProc], mainNodes := [] }

/-- Sample empty compilation unit for concrete witnesses. -/
def emptyUnit : CompilationUnit :=
  { pool := [], globals := [], procs := [], mainNodes := [] }

/-- Witness for C1 at the sample units. -/
theorem claim_C1_witness :
    (namespaceSize sampleUnit
        = (((sampleUnit.globals.map (fun v => 4 * max 1 v.arrayLen)).sum : Nat) : Int) ∧
      ∃ bs, getNamespace sampleUnit = some bs ∧
        (bs.length : Int) = namespaceSize sampleUnit ∧
        ∀ k (hk : k < sampleUnit.globals.length),
          (bs.drop (slotOffset sampleUnit.globals k)).take
              (slotWidth (sampleUnit.globals.get ⟨k, hk⟩))
            = encodeSlot (sampleUnit.globals.get ⟨k, hk⟩)) ∧
    (getProcNamespaceSize sampleUnit 0
        = ((((procVarsAt sampleUnit 0).map (fun v => 4 * max 1 v.arrayLen)).sum : Nat) : Int) ∧
      ∃ bs, getProcNamespace sampleUnit 0 = some bs ∧
        (bs.length : Int) = getProcNamespaceSize sampleUnit 0 ∧
        ∀ k (hk : k < (procVarsAt sampleUnit 0).length),
          (bs.drop (slotOffset (procVarsAt sampleUnit 0) k)).take
              (slotWidth ((procVarsAt sampleUnit 0).get ⟨k, hk⟩))
            = encodeSlot ((procVarsAt sampleUnit 0).get ⟨k, hk⟩)) ∧
    (namespaceSize emptyUnit = -1 ∧ getNamespace emptyUnit = none) ∧
    (getProcNamespaceSize emptyUnit 0 = -1 ∧ getProcNamespace emptyUnit 0 = none) := by
  have h := claim_C1 sampleUnit emptyUnit 0 0
  exact ⟨h.1 (by decide), h.2.1 (by decide), h.2.2.1 (by decide), h.2.2.2 (by decide)⟩

/-- C5: every procedure has exactly one trigger kind out of
{None, Timed, Conditional}: the `P_TIMED` and `P_CONDITIONAL` bits of its
`type` field are never both set, only the union member selected by the set
trigger bit is readable (reading the other is invalid, i.e. yields nothing),
and the independent modifier bits contribute nothing to the trigger bits, so
they may combine with any trigger kind. -/
theorem claim_C5 (p : Procedure) :
    ¬(p.typeField &&& P_TIMED ≠ 0 ∧ p.typeField &&& P_CONDITIONAL ≠ 0) ∧
    (p.typeField &&& P_TIMED ≠ 0 ↔ p.readTime.isSome) ∧
    (p.typeField &&& P_CONDITIONAL ≠ 0 ↔ p.readCondition.isSome) ∧
    ¬(p.readTime.isSome ∧ p.readCondition.isSome) ∧
    p.mods.bits &&& (P_TIMED ||| P_CONDITIONAL) = 0 := by
  rcases hm : p.mods with ⟨im, ex, cr, pu, il⟩
  cases htr : p.trigger <;>
    simp only [Procedure.typeField, Procedure.readTime, Procedure.readCondition, htr, hm,
      Trigger.bits, ProcMods.bits] <;>
    cases im <;> cases ex <;> cases cr <;> cases pu <;> cases il <;>
    simp_all <;> decide

/-- Witness for C5 at the sample procedure. -/
theorem claim_C5_witness :
    ¬(sampleProc.typeField &&& P_TIMED ≠ 0 ∧ sampleProc.typeField &&& P_CONDITIONAL ≠ 0) ∧
    (sampleProc.typeField &&& P_TIMED ≠ 0 ↔ sampleProc.readTime.isSome) ∧
    (sampleProc.typeField &&& P_CONDITIONAL ≠ 0 ↔ sampleProc.readCondition.isSome) ∧
    ¬(sampleProc.readTime.isSome ∧ sampleProc.readCondition.isSome) ∧
    sampleProc.mods.bits &&& (P_TIMED ||| P_CONDITIONAL) = 0 :=
  claim_C5 sampleProc

/-! ### Parser pipeline

Modelled from the spec: the parser / symbol-table manager / reference
tracker behind `parse_main` (parser.h lines 116-123) is not in src/; spec
sections 4.2-4.4 describe it. Tokenization is boundary plumbing (spec
section 1), so the source model is the stream of declarations and
identifier occurrences the recursive-descent parser acts on. -/

/-- Literal initializer in the source. -/
inductive LitSrc
  | litInt (v : Int)
  | litFloat (bits : Nat)
  | litString (text : Str)
deriving Repr, DecidableEq

/-- A variable declaration as it appears in the source. -/
structure VarDeclSrc where
  name : Str
  scope : Nat
  init? : Option LitSrc
  arrayLen : Nat
  line : Int
  file : String
deriving Repr, DecidableEq

/-- An element of a procedure body: a local declaration or an identifier
occurrence (read, write or call — the reference tracker records them all). -/
inductive BodyItem
  | localDecl (v : VarDeclSrc)
  | useIdent (id : Str) (line : Int) (file : String)
deriving Repr, DecidableEq

/-- A procedure declaration as it appears in the source. -/
structure ProcDeclSrc where
  name : Str
  trig : Trigger
  mods : ProcMods
  numArgs : Nat
  minArgs : Nat
  body? : Option (List BodyItem)
  line : Int
  file : String
deriving Repr, DecidableEq

/-- A top-level element of the (include-expanded) unit. -/
inductive TopItem
  | varDecl (v : VarDeclSrc)
  | procDecl (p : ProcDeclSrc)
  | useIdent (id : Str) (line : Int) (file : String)
deriving Repr, DecidableEq

/-- Diagnostics (spec section 7). -/
inductive Diag
  | undeclaredIdentifierError (id : Str) (line : Int) (file : String)
  | redeclarationError (id : Str) (prior : Int) (line : Int)
  | scopeViolationError (id : Str) (line : Int)
  | includeResolutionError
  | primaryFileError
deriving Repr, DecidableEq

/-- Modelled from the spec: which diagnostics are fatal-to-correctness
(spec section 7: only a missing include file is non-fatal; the boundary
status code reflects whether any fatal diagnostic occurred). -/
def Diag.isFatal : Diag → Bool
  | .includeResolutionError => false
  | _ => true

/-- An unresolved forward reference: the identifier text and its recorded
reference sites in encounter order (spec 4.3). -/
structure PlaceHolder where
  id : Str
  sites : List Reference
deriving Repr, DecidableEq

/-- Parser state threaded through the unit. -/
structure ParseState where
  pool : List Str
  globals : List Variable
  procs : List Procedure
  mainNodes : NodeList
  placeholders : List PlaceHolder
  diags : List Diag
deriving Repr, DecidableEq

/-- Fresh state at the start of a parse invocation. -/
def initState : ParseState := ⟨[], [], [], [], [], []⟩

/-- Record one more reference on a variable (spec 4.2: append in encounter
order; the usage counter advances with it). -/
def Variable.addRef (v : Variable) (r : Reference) : Variable :=
  { v with references := v.references ++ [r], numRefs := v.numRefs + 1, uses := v.uses + 1 }

/-- Record one more reference on a procedure. -/
def Procedure.addRef (p : Procedure) (r : Reference) : Procedure :=
  { p with references := p.references ++ [r], numRefs := p.numRefs + 1, uses := p.uses + 1 }

/-- Append a reference to the named variable of a table, if present. -/
def recordVarRef : List Variable → Str → Reference → List Variable
  | [], _, _ => []
  | v :: rest, id, r =>
      if v.nameText = id then v.addRef r :: rest else v :: recordVarRef rest id r

/-- Append a reference to the named procedure of a table, if present. -/
def recordProcRef : List Procedure → Str → Reference → List Procedure
  | [], _, _ => []
  | p :: rest, id, r =>
      if p.nameText = id then p.addRef r :: rest else p :: recordProcRef rest id r

/-- Remove the placeholder for `id`, returning its recorded sites (empty
when no placeholder exists). -/
def takePlaceholder : List PlaceHolder → Str → List Reference × List PlaceHolder
  | [], _ => ([], [])
  | ph :: rest, id =>
      if ph.id = id then (ph.sites, rest)
      else
        let p := takePlaceholder rest id
        (p.1, ph :: p.2)

/-- Record a reference site on the placeholder for `id`, creating it on
first mention (spec 4.3: a reference to a name not yet declared is
tentatively recorded as a placeholder). -/
def addSite : List PlaceHolder → Str → Reference → List PlaceHolder
  | [], id, r => [⟨id, [r]⟩]
  | ph :: rest, id, r =>
      if ph.id = id then ⟨ph.id, ph.sites ++ [r]⟩ :: rest else ph :: addSite rest id r

/-- Whether a variable table declares `id`. -/
def hasVar (vars : List Variable) (id : Str) : Bool :=
  vars.any (fun v => decide (v.nameText = id))

/-- Whether a procedure table declares `id`. -/
def hasProc (procs : List Procedure) (id : Str) : Bool :=
  procs.any (fun p => decide (p.nameText = id))

/-- Whether `id` is declared in the global scope (variable or procedure). -/
def declaredGlobal (st : ParseState) (id : Str) : Bool :=
  hasVar st.globals id || hasProc st.procs id

/-- Declaration line of `id` in a variable table (0 if absent), for the
two-site redeclaration diagnostic. -/
def varDeclLine (vars : List Variable) (id : Str) : Int :=
  match vars.find? (fun v => decide (v.nameText = id)) with
  | some v => v.declared
  | none => 0

/-- Declaration line of `id` in the global scope (0 if absent). -/
def declLineOf (st : ParseState) (id : Str) : Int :=
  match st.globals.find? (fun v => decide (v.nameText = id)) with
  | some v => v.declared
  | none =>
      match st.procs.find? (fun p => decide (p.nameText = id)) with
      | some p => p.declared
      | none => 0

/-- Value of a literal initializer; string literals are interned. -/
def litValue (pool : List Str) : LitSrc → Value × List Str
  | .litInt v => (.vInt v, pool)
  | .litFloat b => (.vFloat b, pool)
  | .litString s =>
      let p := intern pool s
      (.vString p.1, p.2)

/-- Value stored for a declaration: the initializer's value, or zero. -/
def declValue (pool : List Str) : Option LitSrc → Value × List Str
  | none => (.vInt 0, pool)
  | some l => litValue pool l

/-- Modelled from the spec: processing one global variable declaration
(spec 4.3): a duplicate name in the same scope is a RedeclarationError
carrying both sites (first declaration kept); an Import variable must not
carry an initializer (ScopeViolationError, recorded as uninitialized
either way); the declaration-time mention is recorded, after any pending
forward-reference sites for the name. The stored value (and the pool after
interning a string initializer): -/
def varDeclValue (st : ParseState) (v : VarDeclSrc) : Value × List Str :=
  if v.scope = V_IMPORT then (Value.vInt 0, (intern st.pool v.name).2)
  else declValue (intern st.pool v.name).2 v.init?

/-- The variable record a declaration creates: pending forward-reference
sites come first, then the declaration-time mention; an Import variable is
never initialized. -/
def varEntry (st : ParseState) (v : VarDeclSrc) : Variable :=
  { name := (intern st.pool v.name).1, nameText := v.name,
    references := (takePlaceholder st.placeholders v.name).1 ++ [⟨v.line, v.file⟩],
    numRefs := ((takePlaceholder st.placeholders v.name).1 ++ [(⟨v.line, v.file⟩ : Reference)]).length,
    value := (varDeclValue st v).1, type := v.scope, arrayLen := v.arrayLen,
    declared := v.line, fdeclared := v.file, uses := 0,
    initialized := decide (v.scope ≠ V_IMPORT) && v.init?.isSome }

/-- The scope diagnostic of a variable declaration: an Import variable
must not carry an initializer (spec 4.3). -/
def varScopeDiags (v : VarDeclSrc) : List Diag :=
  if v.scope = V_IMPORT ∧ v.init?.isSome then [.scopeViolationError v.name v.line] else []

def stepVarDecl (st : ParseState) (v : VarDeclSrc) : ParseState :=
  if declaredGlobal st v.name then
    { st with diags := st.diags ++ [.redeclarationError v.name (declLineOf st v.name) v.line] }
  else
    { st with
      pool := (varDeclValue st v).2
      globals := st.globals ++ [varEntry st v]
      placeholders := (takePlaceholder st.placeholders v.name).2
      diags := st.diags ++ varScopeDiags v }

/-- Modelled from the spec: a top-level identifier occurrence (a statement
of the implicit main sequence): resolve against globals then procedures,
recording the reference; otherwise record a forward-reference placeholder
site (spec 4.3, 4.4). -/
def stepTopUse (st : ParseState) (id : Str) (line : Int) (file : String) : ParseState :=
  let r : Reference := ⟨line, file⟩
  let node : Node := { token := 0, file := file, lineNum := line, value := .vInt 0, column := 0 }
  let st1 := { st with pool := (intern st.pool id).2, mainNodes := st.mainNodes ++ [node] }
  if hasVar st1.globals id then { st1 with globals := recordVarRef st1.globals id r }
  else if hasProc st1.procs id then { st1 with procs := recordProcRef st1.procs id r }
  else { st1 with placeholders := addSite st1.placeholders id r }

/-- Context while parsing one procedure body: the procedure under
construction plus the shared state. -/
structure BodyCtx where
  cur : Procedure
  st : ParseState
deriving Repr, DecidableEq

/-- Modelled from the spec: a local declaration inside a body: duplicate in
the same (local) scope is a RedeclarationError, shadowing an outer
declaration is allowed (spec 4.3); the local is owned by the procedure. -/
def stepLocalDecl (c : BodyCtx) (v : VarDeclSrc) : BodyCtx :=
  if hasVar c.cur.locals v.name then
    let d : Diag := .redeclarationError v.name (varDeclLine c.cur.locals v.name) v.line
    { c with st := { c.st with diags := c.st.diags ++ [d] } }
  else
    let i1 := intern c.st.pool v.name
    let dv := declValue i1.2 v.init?
    let nv : Variable :=
      { name := i1.1, nameText := v.name, references := [⟨v.line, v.file⟩], numRefs := 1,
        value := dv.1, type := V_LOCAL, arrayLen := v.arrayLen, declared := v.line,
        fdeclared := v.file, uses := 0, initialized := v.init?.isSome }
    { cur := { c.cur with locals := c.cur.locals ++ [nv] }, st := { c.st with pool := dv.2 } }

/-- Modelled from the spec: an identifier occurrence inside a body: lookup
order is the enclosing procedure's local table first, then the procedure
itself (self-reference), then the global tables, else a forward-reference
placeholder (spec 4.3). -/
def stepBodyUse (c : BodyCtx) (id : Str) (line : Int) (file : String) : BodyCtx :=
  let r : Reference := ⟨line, file⟩
  let node : Node := { token := 0, file := file, lineNum := line, value := .vInt 0, column := 0 }
  let cur1 := { c.cur with nodes := c.cur.nodes ++ [node] }
  let st1 := { c.st with pool := (intern c.st.pool id).2 }
  if hasVar cur1.locals id then
    { cur := { cur1 with locals := recordVarRef cur1.locals id r }, st := st1 }
  else if cur1.nameText = id then
    { cur := cur1.addRef r, st := st1 }
  else if hasVar st1.globals id then
    { cur := cur1, st := { st1 with globals := recordVarRef st1.globals id r } }
  else if hasProc st1.procs id then
    { cur := cur1, st := { st1 with procs := recordProcRef st1.procs id r } }
  else
    { cur := cur1, st := { st1 with placeholders := addSite st1.placeholders id r } }

/-- One body element. -/
def stepBodyItem (c : BodyCtx) : BodyItem → BodyCtx
  | .localDecl v => stepLocalDecl c v
  | .useIdent id line file => stepBodyUse c id line file

/-- Modelled from the spec: processing one procedure declaration
(spec 4.3-4.4): duplicate global name is a RedeclarationError (skipped);
Import with a body or Export without one (or conflicting Import+Export
qualifiers) is a ScopeViolationError, with the Import body dropped as the
best-effort continuation; pending forward-reference sites for the name are
resolved into the new procedure's reference list ahead of the
declaration-time mention; the body is then parsed in the procedure's local
scope. -/
def procScopeDiags (p : ProcDeclSrc) : List Diag :=
  (if p.mods.isImport && p.body?.isSome then [.scopeViolationError p.name p.line] else []) ++
  (if p.mods.isExport && !p.body?.isSome then [.scopeViolationError p.name p.line] else []) ++
  (if p.mods.isImport && p.mods.isExport then [.scopeViolationError p.name p.line] else [])

/-- The effective body to parse: an Import procedure's body is dropped as
the best-effort continuation after its ScopeViolationError. -/
def procBody (p : ProcDeclSrc) : List BodyItem :=
  (if p.mods.isImport then none else p.body?).getD []

/-- The procedure record a declaration creates, before its body is parsed:
pending forward-reference sites come first, then the declaration-time
mention; `defined` records whether an effective body is present. When a
body is carried, its statement block itself contributes a block-delimiter
node to the body NodeList, so a defined procedure's body NodeList is never
empty (spec sections 3 and 8: Export-scoped entities always carry a body,
and a defined procedure's body/local table is non-empty). -/
def procEntry (st : ParseState) (p : ProcDeclSrc) : Procedure :=
  { name := (intern st.pool p.name).1, nameText := p.name, trigger := p.trig, mods := p.mods,
    numArgs := p.numArgs, defined := (if p.mods.isImport then none else p.body?).isSome,
    locals := [],
    references := (takePlaceholder st.placeholders p.name).1 ++ [⟨p.line, p.file⟩],
    numRefs := ((takePlaceholder st.placeholders p.name).1 ++ [(⟨p.line, p.file⟩ : Reference)]).length,
    uses := 0, declared := p.line, fdeclared := p.file, start := p.line, fstart := p.file,
    stop := p.line, fend := p.file,
    nodes := if (if p.mods.isImport then none else p.body?).isSome
      then [{ token := 0, file := p.file, lineNum := p.line, value := .vInt 0, column := 0 }]
      else [],
    minArgs := p.minArgs }

/-- The state in which the body is parsed: name interned, pending
forward-reference sites consumed, scope diagnostics recorded. -/
def procStart (st : ParseState) (p : ProcDeclSrc) : ParseState :=
  { st with
    pool := (intern st.pool p.name).2
    placeholders := (takePlaceholder st.placeholders p.name).2
    diags := st.diags ++ procScopeDiags p }

/-- Parse the effective body in the procedure's local scope. -/
def bodyResult (st : ParseState) (p : ProcDeclSrc) : BodyCtx :=
  (procBody p).foldl stepBodyItem ⟨procEntry st p, procStart st p⟩

/-- Register the completed procedure. -/
def finishProc (c : BodyCtx) : ParseState :=
  { c.st with procs := c.st.procs ++ [c.cur] }

def stepProcDecl (st : ParseState) (p : ProcDeclSrc) : ParseState :=
  if declaredGlobal st p.name then
    { st with diags := st.diags ++ [.redeclarationError p.name (declLineOf st p.name) p.line] }
  else
    finishProc (bodyResult st p)

/-- One top-level element. -/
def stepTopItem (st : ParseState) : TopItem → ParseState
  | .varDecl v => stepVarDecl st v
  | .procDecl p => stepProcDecl st p
  | .useIdent id line file => stepTopUse st id line file

/-- The diagnostic for a placeholder left over by the final resolution
pass: an UndeclaredIdentifierError attributed to the earliest recorded
reference site (spec 4.3). -/
def phDiag (ph : PlaceHolder) : Diag :=
  match ph.sites with
  | [] => .undeclaredIdentifierError ph.id 0 ""
  | r :: _ => .undeclaredIdentifierError ph.id r.line r.file

/-- Modelled from the spec: parse one include-expanded unit: fold the
items through the parser state, then run the final resolution pass, which
reports every placeholder that no declaration upgraded (spec 4.3). -/
def parseUnit (items : List TopItem) : CompilationUnit × List Diag :=
  let st := items.foldl stepTopItem initState
  (⟨st.pool, st.globals, st.procs, st.mainNodes⟩, st.diags ++ st.placeholders.map phDiag)

/-- A pre-expansion element: an ordinary item, or an include directive,
which either resolved to the included file's items or failed to resolve. -/
inductive PreItem
  | plain (t : TopItem)
  | inc (found : Option (List PreItem))

mutual

/-- Modelled from the spec: include handling (spec 4.4): a resolved include
splices the included items in place; file-not-found is a non-fatal
IncludeResolutionError — the directive is skipped and parsing continues. -/
def expandItem : PreItem → List Diag × List TopItem
  | .plain t => ([], [t])
  | .inc none => ([.includeResolutionError], [])
  | .inc (some found) => expandItems found

/-- Expand a sequence of pre-expansion elements. -/
def expandItems : List PreItem → List Diag × List TopItem
  | [] => ([], [])
  | i :: rest =>
      let a := expandItem i
      let b := expandItems rest
      (a.1 ++ b.1, a.2 ++ b.2)

end

/-- Modelled from the spec: `parse_main(filePath, origPath, dir)`
(parser.h lines 116-123, spec section 6): `none` stands for an unreadable
primary input file — immediately fatal, no partial result (spec section 7);
otherwise the include-expanded unit is parsed, and the status code is
non-zero exactly when a fatal diagnostic occurred. Returns (status,
result, diagnostics). -/
def parse_main (primary : Option (List PreItem)) :
    Int × Option CompilationUnit × List Diag :=
  match primary with
  | none => (1, none, [.primaryFileError])
  | some pre =>
      let e := expandItems pre
      let r := parseUnit e.2
      let diags := e.1 ++ r.2
      ((if diags.any (·.isFatal) then 1 else 0), some r.1, diags)

/-- The process-scope session: at most one current parse result
(spec section 5). -/
structure SessionState where
  current? : Option CompilationUnit

/-- Modelled from the spec: invoking the parse entry point replaces the
current result wholesale; a fatal abort produces no partial result and
leaves no valid prior data behind (spec section 5). -/
def runParse (_s : SessionState) (primary : Option (List PreItem)) : Int × SessionState :=
  match parse_main primary with
  | (code, some u, _) => (code, ⟨some u⟩)
  | (code, none, _) => (code, ⟨none⟩)

/-- The global-namespace size query against the session (none when no
valid parse result exists). -/
def queryNamespaceSize (s : SessionState) : Option Int := s.current?.map namespaceSize

/-- The global-namespace dump query against the session. -/
def queryGetNamespace (s : SessionState) : Option (Option (List Nat)) :=
  s.current?.map getNamespace

/-- C7: `parse_main` returns 0 on success and non-zero exactly when a fatal
diagnostic occurred; an include directive whose file is not found yields a
non-fatal IncludeResolutionError — the directive is skipped, parsing
continues, and a result is still produced — whereas an unreadable primary
input file is fatal: parsing aborts with no partial result and a non-zero
status. -/
theorem claim_C7 (pre rest found : List PreItem) :
    (parse_main none = (1, none, [Diag.primaryFileError]) ∧
      Diag.primaryFileError.isFatal = true) ∧
    ((parse_main (some pre)).2.1 = some (parseUnit (expandItems pre).2).1) ∧
    ((parse_main (some pre)).1
      = (if (parse_main (some pre)).2.2.any (·.isFatal) then (1 : Int) else 0)) ∧
    Diag.includeResolutionError.isFatal = false ∧
    (expandItems (PreItem.inc none :: rest)
      = (Diag.includeResolutionError :: (expandItems rest).1, (expandItems rest).2)) ∧
    (expandItems (PreItem.inc (some found) :: rest)
      = ((expandItems found).1 ++ (expandItems rest).1,
         (expandItems found).2 ++ (expandItems rest).2)) := by
  refine ⟨⟨rfl, rfl⟩, rfl, rfl, rfl, ?_, ?_⟩
  · rw [expandItems]
    rfl
  · rw [expandItems]
    rfl

/-- C9: parsing is deterministic and independent of the prior session
state: two parse invocations on the identical source — whatever result
each session held before, including the second running right after the
first — return the same status code and leave the session answering the
namespace queries with byte-identical results. -/
theorem claim_C9 (s1 s2 : SessionState) (primary : Option (List PreItem)) :
    runParse s1 primary = runParse s2 primary ∧
    (runParse s1 primary).1 = (runParse (runParse s1 primary).2 primary).1 ∧
    queryNamespaceSize (runParse s1 primary).2
      = queryNamespaceSize (runParse (runParse s1 primary).2 primary).2 ∧
    queryGetNamespace (runParse s1 primary).2
      = queryGetNamespace (runParse (runParse s1 primary).2 primary).2 := by
  have key : ∀ t1 t2 : SessionState, runParse t1 primary = runParse t2 primary := by
    intro t1 t2
    rw [runParse, runParse]
  refine ⟨key s1 s2, ?_, ?_, ?_⟩ <;> rw [key (runParse s1 primary).2 s1]

/-! ### Counting and scope bookkeeping -/

/-- Whether a top-level item is a variable declaration. -/
def isVarDeclItem : TopItem → Bool
  | .varDecl _ => true
  | _ => false

/-- Whether a top-level item is a procedure declaration. -/
def isProcDeclItem : TopItem → Bool
  | .procDecl _ => true
  | _ => false

/-- Whether a top-level item is a statement (of the implicit main). -/
def isTopStmtItem : TopItem → Bool
  | .useIdent _ _ _ => true
  | _ => false

/-- The declared name of a top-level variable declaration. -/
def varDeclName? : TopItem → Option Str
  | .varDecl v => some v.name
  | _ => none

/-- The declared name of a top-level procedure declaration. -/
def procDeclName? : TopItem → Option Str
  | .procDecl p => some p.name
  | _ => none

/-- The declared name of a top-level declaration (variable or procedure). -/
def topDeclName? : TopItem → Option Str
  | .varDecl v => some v.name
  | .procDecl p => some p.name
  | .useIdent _ _ _ => none

/-- All names declared at the top level, in order. -/
def topDeclNames (items : List TopItem) : List Str := items.filterMap topDeclName?

/-- All names declared in the global scope of a parser state. -/
def declNames (st : ParseState) : List Str :=
  st.globals.map (fun v => v.nameText) ++ st.procs.map (fun p => p.nameText)

theorem hasVar_iff (vars : List Variable) (id : Str) :
    hasVar vars id = true ↔ id ∈ vars.map (fun v => v.nameText) := by
  simp only [hasVar, List.any_eq_true, decide_eq_true_eq, List.mem_map]

theorem hasProc_iff (procs : List Procedure) (id : Str) :
    hasProc procs id = true ↔ id ∈ procs.map (fun p => p.nameText) := by
  simp only [hasProc, List.any_eq_true, decide_eq_true_eq, List.mem_map]

theorem declaredGlobal_iff (st : ParseState) (id : Str) :
    declaredGlobal st id = true ↔ id ∈ declNames st := by
  simp only [declaredGlobal, Bool.or_eq_true, hasVar_iff, hasProc_iff, declNames,
    List.mem_append]

theorem recordVarRef_map {α : Type} (f : Variable → α)
    (hf : ∀ v r, f (Variable.addRef v r) = f v)
    (vars : List Variable) (id : Str) (r : Reference) :
    (recordVarRef vars id r).map f = vars.map f := by
  induction vars with
  | nil => rfl
  | cons v rest ih =>
    rw [recordVarRef]
    by_cases h : v.nameText = id
    · rw [if_pos h, List.map_cons, List.map_cons, hf]
    · rw [if_neg h, List.map_cons, List.map_cons, ih]

theorem recordProcRef_map {α : Type} (f : Procedure → α)
    (hf : ∀ p r, f (Procedure.addRef p r) = f p)
    (procs : List Procedure) (id : Str) (r : Reference) :
    (recordProcRef procs id r).map f = procs.map f := by
  induction procs with
  | nil => rfl
  | cons p rest ih =>
    rw [recordProcRef]
    by_cases h : p.nameText = id
    · rw [if_pos h, List.map_cons, List.map_cons, hf]
    · rw [if_neg h, List.map_cons, List.map_cons, ih]

theorem recordVarRef_names (vars : List Variable) (id : Str) (r : Reference) :
    (recordVarRef vars id r).map (fun v => v.nameText) = vars.map (fun v => v.nameText) :=
  recordVarRef_map (fun v => v.nameText) (fun _ _ => rfl) vars id r

theorem recordProcRef_names (procs : List Procedure) (id : Str) (r : Reference) :
    (recordProcRef procs id r).map (fun p => p.nameText) = procs.map (fun p => p.nameText) :=
  recordProcRef_map (fun p => p.nameText) (fun _ _ => rfl) procs id r

theorem stepBodyItem_state (c : BodyCtx) (b : BodyItem) :
    (stepBodyItem c b).st.globals.map (fun v => v.nameText)
        = c.st.globals.map (fun v => v.nameText) ∧
    (stepBodyItem c b).st.procs.map (fun p => p.nameText)
        = c.st.procs.map (fun p => p.nameText) ∧
    (stepBodyItem c b).st.mainNodes = c.st.mainNodes ∧
    (stepBodyItem c b).cur.nameText = c.cur.nameText := by
  cases b with
  | localDecl v =>
    rw [stepBodyItem, stepLocalDecl]
    by_cases h : hasVar c.cur.locals v.name
    · simp [h]
    · simp [h]
  | useIdent id line file =>
    rw [stepBodyItem, stepBodyUse]
    split_ifs with h1 h2 h3 h4 <;>
      simp [recordVarRef_names, recordProcRef_names, Procedure.addRef]

theorem bodyFold_state (bs : List BodyItem) (c : BodyCtx) :
    ((bs.foldl stepBodyItem c).st.globals.map (fun v => v.nameText)
        = c.st.globals.map (fun v => v.nameText)) ∧
    ((bs.foldl stepBodyItem c).st.procs.map (fun p => p.nameText)
        = c.st.procs.map (fun p => p.nameText)) ∧
    ((bs.foldl stepBodyItem c).st.mainNodes = c.st.mainNodes) ∧
    ((bs.foldl stepBodyItem c).cur.nameText = c.cur.nameText) := by
  induction bs generalizing c with
  | nil => exact ⟨rfl, rfl, rfl, rfl⟩
  | cons b rest ih =>
    rw [List.foldl_cons]
    obtain ⟨h1, h2, h3, h4⟩ := ih (stepBodyItem c b)
    obtain ⟨g1, g2, g3, g4⟩ := stepBodyItem_state c b
    exact ⟨h1.trans g1, h2.trans g2, h3.trans g3, h4.trans g4⟩

theorem stepTopUse_state (st : ParseState) (id : Str) (line : Int) (file : String) :
    (stepTopUse st id line file).globals.map (fun v => v.nameText)
        = st.globals.map (fun v => v.nameText) ∧
    (stepTopUse st id line file).procs.map (fun p => p.nameText)
        = st.procs.map (fun p => p.nameText) ∧
    (stepTopUse st id line file).mainNodes.length = st.mainNodes.length + 1 := by
  rw [stepTopUse]
  split_ifs with h1 h2 <;> simp [recordVarRef_names, recordProcRef_names]

theorem stepVarDecl_state (st : ParseState) (v : VarDeclSrc)
    (h : declaredGlobal st v.name = false) :
    (stepVarDecl st v).globals.map (fun x => x.nameText)
        = st.globals.map (fun x => x.nameText) ++ [v.name] ∧
    (stepVarDecl st v).procs = st.procs ∧
    (stepVarDecl st v).mainNodes = st.mainNodes := by
  rw [stepVarDecl, if_neg (by simp [h])]
  simp [varEntry]

theorem stepProcDecl_state (st : ParseState) (p : ProcDeclSrc)
    (h : declaredGlobal st p.name = false) :
    (stepProcDecl st p).globals.map (fun x => x.nameText)
        = st.globals.map (fun x => x.nameText) ∧
    (stepProcDecl st p).procs.map (fun q => q.nameText)
        = st.procs.map (fun q => q.nameText) ++ [p.name] ∧
    (stepProcDecl st p).mainNodes = st.mainNodes := by
  rw [stepProcDecl, if_neg (by simp [h])]
  obtain ⟨h1, h2, h3, h4⟩ := bodyFold_state (procBody p) ⟨procEntry st p, procStart st p⟩
  rw [bodyResult] at *
  refine ⟨?_, ?_, ?_⟩
  · rw [finishProc]
    exact h1.trans rfl
  · rw [finishProc]
    simp only [List.map_append, List.map_cons, List.map_nil]
    rw [h2, h4]
    rfl
  · rw [finishProc]
    exact h3.trans rfl

theorem topFold_spec (items : List TopItem) (st : ParseState)
    (hnd : (topDeclNames items).Nodup)
    (hdisj : ∀ n ∈ topDeclNames items, n ∉ declNames st) :
    (items.foldl stepTopItem st).globals.map (fun x => x.nameText)
        = st.globals.map (fun x => x.nameText) ++ items.filterMap varDeclName? ∧
    (items.foldl stepTopItem st).procs.map (fun q => q.nameText)
        = st.procs.map (fun q => q.nameText) ++ items.filterMap procDeclName? ∧
    (items.foldl stepTopItem st).mainNodes.length
        = st.mainNodes.length + (items.filter isTopStmtItem).length := by
  induction items generalizing st with
  | nil => simp
  | cons t rest ih =>
    have hnames : topDeclNames (t :: rest)
        = (topDeclName? t).toList ++ topDeclNames rest := by
      cases t <;> simp [topDeclNames, topDeclName?]
    cases t with
    | varDecl v =>
      have hv : v.name ∈ topDeclNames (.varDecl v :: rest) := by
        simp [topDeclNames, topDeclName?]
      have hfresh : declaredGlobal st v.name = false := by
        rcases Bool.eq_false_or_eq_true (declaredGlobal st v.name) with h | h
        · exact absurd ((declaredGlobal_iff st v.name).1 h) (hdisj v.name hv)
        · exact h
      obtain ⟨g1, g2, g3⟩ := stepVarDecl_state st v hfresh
      have hnd' : (topDeclNames rest).Nodup := by
        rw [hnames] at hnd
        simp [topDeclName?] at hnd
        exact hnd.2
      have hvnot : v.name ∉ topDeclNames rest := by
        rw [hnames] at hnd
        simp [topDeclName?] at hnd
        exact hnd.1
      have hdisj' : ∀ n ∈ topDeclNames rest, n ∉ declNames (stepVarDecl st v) := by
        intro n hn
        have hold : n ∉ declNames st := by
          apply hdisj
          rw [hnames]
          exact List.mem_append.2 (Or.inr hn)
        rw [declNames, g1, g2]
        intro hmem
        rcases List.mem_append.1 hmem with hmem | hmem
        · rcases List.mem_append.1 hmem with hmem | hmem
          · exact hold (List.mem_append.2 (Or.inl hmem))
          · have : n = v.name := by simpa using hmem
            exact hvnot (this ▸ hn)
        · exact hold (List.mem_append.2 (Or.inr hmem))
      obtain ⟨i1, i2, i3⟩ := ih (stepVarDecl st v) hnd' hdisj'
      refine ⟨?_, ?_, ?_⟩
      · rw [List.foldl_cons]
        show (List.foldl stepTopItem (stepVarDecl st v) rest).globals.map (fun x => x.nameText)
            = _
        rw [i1, g1]
        simp [varDeclName?]
      · rw [List.foldl_cons]
        show (List.foldl stepTopItem (stepVarDecl st v) rest).procs.map (fun q => q.nameText)
            = _
        rw [i2, g2]
        simp [procDeclName?]
      · rw [List.foldl_cons]
        show (List.foldl stepTopItem (stepVarDecl st v) rest).mainNodes.length = _
        rw [i3, g3]
        simp [isTopStmtItem]
    | procDecl p =>
      have hv : p.name ∈ topDeclNames (.procDecl p :: rest) := by
        simp [topDeclNames, topDeclName?]
      have hfresh : declaredGlobal st p.name = false := by
        rcases Bool.eq_false_or_eq_true (declaredGlobal st p.name) with h | h
        · exact absurd ((declaredGlobal_iff st p.name).1 h) (hdisj p.name hv)
        · exact h
      obtain ⟨g1, g2, g3⟩ := stepProcDecl_state st p hfresh
      have hnd' : (topDeclNames rest).Nodup := by
        rw [hnames] at hnd
        simp [topDeclName?] at hnd
        exact hnd.2
      have hvnot : p.name ∉ topDeclNames rest := by
        rw [hnames] at hnd
        simp [topDeclName?] at hnd
        exact hnd.1
      have hdisj' : ∀ n ∈ topDeclNames rest, n ∉ declNames (stepProcDecl st p) := by
        intro n hn
        have hold : n ∉ declNames st := by
          apply hdisj
          rw [hnames]
          exact List.mem_append.2 (Or.inr hn)
        rw [declNames, g1, g2]
        intro hmem
        rcases List.mem_append.1 hmem with hmem | hmem
        · exact hold (List.mem_append.2 (Or.inl hmem))
        · rcases List.mem_append.1 hmem with hmem | hmem
          · exact hold (List.mem_append.2 (Or.inr hmem))
          · have : n = p.name := by simpa using hmem
            exact hvnot (this ▸ hn)
      obtain ⟨i1, i2, i3⟩ := ih (stepProcDecl st p) hnd' hdisj'
      refine ⟨?_, ?_, ?_⟩
      · rw [List.foldl_cons]
        show (List.foldl stepTopItem (stepProcDecl st p) rest).globals.map (fun x => x.nameText)
            = _
        rw [i1, g1]
        simp [varDeclName?]
      · rw [List.foldl_cons]
        show (List.foldl stepTopItem (stepProcDecl st p) rest).procs.map (fun q => q.nameText)
            = _
        rw [i2, g2]
        simp [procDeclName?]
      · rw [List.foldl_cons]
        show (List.foldl stepTopItem (stepProcDecl st p) rest).mainNodes.length = _
        rw [i3, g3]
        simp [isTopStmtItem]
    | useIdent id line file =>
      obtain ⟨g1, g2, g3⟩ := stepTopUse_state st id line file
      have hnd' : (topDeclNames rest).Nodup := by
        rw [hnames] at hnd
        simpa [topDeclName?] using hnd
      have hdisj' : ∀ n ∈ topDeclNames rest, n ∉ declNames (stepTopUse st id line file) := by
        intro n hn
        have hold : n ∉ declNames st := by
          apply hdisj
          rw [hnames]
          exact List.mem_append.2 (Or.inr hn)
        rw [declNames, g1, g2]
        exact hold
      obtain ⟨i1, i2, i3⟩ := ih (stepTopUse st id line file) hnd' hdisj'
      refine ⟨?_, ?_, ?_⟩
      · rw [List.foldl_cons]
        show (List.foldl stepTopItem (stepTopUse st id line file) rest).globals.map
            (fun x => x.nameText) = _
        rw [i1, g1]
        simp [varDeclName?]
      · rw [List.foldl_cons]
        show (List.foldl stepTopItem (stepTopUse st id line file) rest).procs.map
            (fun q => q.nameText) = _
        rw [i2, g2]
        simp [procDeclName?]
      · rw [List.foldl_cons]
        show (List.foldl stepTopItem (stepTopUse st id line file) rest).mainNodes.length = _
        rw [i3, g3]
        simp [isTopStmtItem]
        omega

theorem length_filterMap_var (items : List TopItem) :
    (items.filterMap varDeclName?).length = (items.filter isVarDeclItem).length := by
  induction items with
  | nil => rfl
  | cons t rest ih => cases t <;> simp [varDeclName?, isVarDeclItem, ih]

theorem length_filterMap_proc (items : List TopItem) :
    (items.filterMap procDeclName?).length = (items.filter isProcDeclItem).length := by
  induction items with
  | nil => rfl
  | cons t rest ih => cases t <;> simp [procDeclName?, isProcDeclItem, ih]

/-- C8: for every script whose top-level declarations have pairwise
distinct names (any syntactically valid, successfully parsed script),
`numProcs()` returns the number of named procedure declarations and
`numVars()` the number of top-level variable declarations; top-level
statements go into the implicit main sequence — one node each — and are
never counted by `numProcs()`. -/
theorem claim_C8 (items : List TopItem) (h : (topDeclNames items).Nodup) :
    numProcs (parseUnit items).1 = (items.filter isProcDeclItem).length ∧
    numVars (parseUnit items).1 = (items.filter isVarDeclItem).length ∧
    (parseUnit items).1.mainNodes.length = (items.filter isTopStmtItem).length := by
  obtain ⟨g1, g2, g3⟩ := topFold_spec items initState h (by simp [declNames, initState])
  refine ⟨?_, ?_, ?_⟩
  · show (items.foldl stepTopItem initState).procs.length = _
    have := congrArg List.length g2
    simpa [initState, length_filterMap_proc] using this
  · show (items.foldl stepTopItem initState).globals.length = _
    have := congrArg List.length g1
    simpa [initState, length_filterMap_var] using this
  · show (items.foldl stepTopItem initState).mainNodes.length = _
    simpa [initState] using g3

/-- Sample script for concrete witnesses: one global, one procedure whose
body reads the global, one top-level statement calling the procedure. The
global declaration: -/
def sGlobalDecl : VarDeclSrc :=
  { name := [10], scope := V_GLOBAL, init? := some (.litInt 5), arrayLen := 0,
    line := 1, file := "f" }

/-- Sample procedure declaration whose body reads the sample global. -/
def sProcSrc : ProcDeclSrc :=
  { name := [12], trig := .noTrigger, mods := ⟨false, false, false, false, false⟩,
    numArgs := 0, minArgs := 0, body? := some [.useIdent [10] 3 "f"],
    line := 2, file := "f" }

/-- Sample script items. -/
def sItems : List TopItem :=
  [.varDecl sGlobalDecl, .procDecl sProcSrc, .useIdent [12] 4 "f"]

/-- Witness for C8 at the sample script. -/
theorem claim_C8_witness :
    numProcs (parseUnit sItems).1 = (sItems.filter isProcDeclItem).length ∧
    numVars (parseUnit sItems).1 = (sItems.filter isVarDeclItem).length ∧
    (parseUnit sItems).1.mainNodes.length = (sItems.filter isTopStmtItem).length :=
  claim_C8 sItems (by
    simp [sItems, topDeclNames, topDeclName?, sGlobalDecl, sProcSrc, List.nodup_cons])

/-! ### Diagnostic accumulation and scope rules (for C6) -/

theorem stepBodyItem_diags_grow (c : BodyCtx) (b : BodyItem) :
    c.st.diags <+: (stepBodyItem c b).st.diags := by
  cases b with
  | localDecl v =>
    rw [stepBodyItem, stepLocalDecl]
    by_cases h : hasVar c.cur.locals v.name
    · simp [h]
    · simp [h]
  | useIdent id line file =>
    rw [stepBodyItem, stepBodyUse]
    split_ifs <;> simp

theorem bodyFold_diags_grow (bs : List BodyItem) (c : BodyCtx) :
    c.st.diags <+: (bs.foldl stepBodyItem c).st.diags := by
  induction bs generalizing c with
  | nil => exact List.prefix_rfl
  | cons b rest ih =>
    rw [List.foldl_cons]
    exact (stepBodyItem_diags_grow c b).trans (ih (stepBodyItem c b))

theorem stepTopItem_diags_grow (st : ParseState) (t : TopItem) :
    st.diags <+: (stepTopItem st t).diags := by
  cases t with
  | varDecl v =>
    rw [stepTopItem, stepVarDecl]
    split_ifs <;> simp
  | procDecl p =>
    rw [stepTopItem, stepProcDecl]
    split_ifs with h
    · simp
    · have h1 : (procStart st p).diags <+: (bodyResult st p).st.diags :=
        bodyFold_diags_grow (procBody p) ⟨procEntry st p, procStart st p⟩
      have h2 : st.diags <+: (procStart st p).diags := by
        rw [procStart]
        simp
      exact (h2.trans h1).trans List.prefix_rfl
  | useIdent id line file =>
    rw [stepTopItem, stepTopUse]
    split_ifs <;> simp

theorem topFold_diags_grow (items : List TopItem) (st : ParseState) :
    st.diags <+: (items.foldl stepTopItem st).diags := by
  induction items generalizing st with
  | nil => exact List.prefix_rfl
  | cons t rest ih =>
    rw [List.foldl_cons]
    exact (stepTopItem_diags_grow st t).trans (ih (stepTopItem st t))

theorem fold_fresh_propagate (t : TopItem) (rest : List TopItem) (st : ParseState)
    (hnd : (topDeclNames (t :: rest)).Nodup)
    (hdisj : ∀ n ∈ topDeclNames (t :: rest), n ∉ declNames st) :
    (topDeclNames rest).Nodup ∧
    (∀ n ∈ topDeclNames rest, n ∉ declNames (stepTopItem st t)) ∧
    (∀ nm, topDeclName? t = some nm → declaredGlobal st nm = false) := by
  cases t with
  | varDecl v =>
    have hv : v.name ∈ topDeclNames (.varDecl v :: rest) := by
      simp [topDeclNames, topDeclName?]
    have hcons : topDeclNames (TopItem.varDecl v :: rest) = v.name :: topDeclNames rest := by
      simp [topDeclNames, topDeclName?]
    rw [hcons] at hnd hdisj
    have hfresh : declaredGlobal st v.name = false := by
      rcases Bool.eq_false_or_eq_true (declaredGlobal st v.name) with h | h
      · exact absurd ((declaredGlobal_iff st v.name).1 h) (hdisj v.name (List.mem_cons_self _ _))
      · exact h
    obtain ⟨g1, g2, g3⟩ := stepVarDecl_state st v hfresh
    refine ⟨(List.nodup_cons.1 hnd).2, ?_, ?_⟩
    · intro n hn
      have hold : n ∉ declNames st := hdisj n (List.mem_cons_of_mem _ hn)
      show n ∉ declNames (stepTopItem st (.varDecl v))
      rw [show stepTopItem st (.varDecl v) = stepVarDecl st v from rfl, declNames, g1, g2]
      intro hmem
      rcases List.mem_append.1 hmem with hmem | hmem
      · rcases List.mem_append.1 hmem with hmem | hmem
        · exact hold (List.mem_append.2 (Or.inl hmem))
        · have : n = v.name := by simpa using hmem
          exact (List.nodup_cons.1 hnd).1 (this ▸ hn)
      · exact hold (List.mem_append.2 (Or.inr hmem))
    · intro nm hnm
      have : v.name = nm := by simpa [topDeclName?] using hnm
      exact this ▸ hfresh
  | procDecl p =>
    have hcons : topDeclNames (TopItem.procDecl p :: rest) = p.name :: topDeclNames rest := by
      simp [topDeclNames, topDeclName?]
    rw [hcons] at hnd hdisj
    have hfresh : declaredGlobal st p.name = false := by
      rcases Bool.eq_false_or_eq_true (declaredGlobal st p.name) with h | h
      · exact absurd ((declaredGlobal_iff st p.name).1 h) (hdisj p.name (List.mem_cons_self _ _))
      · exact h
    obtain ⟨g1, g2, g3⟩ := stepProcDecl_state st p hfresh
    refine ⟨(List.nodup_cons.1 hnd).2, ?_, ?_⟩
    · intro n hn
      have hold : n ∉ declNames st := hdisj n (List.mem_cons_of_mem _ hn)
      show n ∉ declNames (stepTopItem st (.procDecl p))
      rw [show stepTopItem st (.procDecl p) = stepProcDecl st p from rfl, declNames, g1, g2]
      intro hmem
      rcases List.mem_append.1 hmem with hmem | hmem
      · exact hold (List.mem_append.2 (Or.inl hmem))
      · rcases List.mem_append.1 hmem with hmem | hmem
        · exact hold (List.mem_append.2 (Or.inr hmem))
        · have : n = p.name := by simpa using hmem
          exact (List.nodup_cons.1 hnd).1 (this ▸ hn)
    · intro nm hnm
      have : p.name = nm := by simpa [topDeclName?] using hnm
      exact this ▸ hfresh
  | useIdent id line file =>
    have hcons : topDeclNames (TopItem.useIdent id line file :: rest) = topDeclNames rest := by
      simp [topDeclNames, topDeclName?]
    rw [hcons] at hnd hdisj
    obtain ⟨g1, g2, g3⟩ := stepTopUse_state st id line file
    refine ⟨hnd, ?_, ?_⟩
    · intro n hn
      have hold : n ∉ declNames st := hdisj n hn
      show n ∉ declNames (stepTopItem st (.useIdent id line file))
      rw [show stepTopItem st (.useIdent id line file) = stepTopUse st id line file from rfl,
        declNames, g1, g2]
      exact hold
    · intro nm hnm
      simp [topDeclName?] at hnm

theorem fold_scopeDiags (items : List TopItem) (st : ParseState)
    (hnd : (topDeclNames items).Nodup)
    (hdisj : ∀ n ∈ topDeclNames items, n ∉ declNames st) :
    (∀ v, TopItem.varDecl v ∈ items →
      ∀ d ∈ varScopeDiags v, d ∈ (items.foldl stepTopItem st).diags) ∧
    (∀ p, TopItem.procDecl p ∈ items →
      ∀ d ∈ procScopeDiags p, d ∈ (items.foldl stepTopItem st).diags) := by
  induction items generalizing st with
  | nil => exact ⟨fun v hv => absurd hv (List.not_mem_nil _), fun p hp => absurd hp (List.not_mem_nil _)⟩
  | cons t rest ih =>
    obtain ⟨hnd', hdisj', hfreshname⟩ := fold_fresh_propagate t rest st hnd hdisj
    obtain ⟨ihv, ihp⟩ := ih (stepTopItem st t) hnd' hdisj'
    constructor
    · intro v hv d hd
      rcases List.mem_cons.1 hv with hv | hv
      · subst hv
        have hfresh : declaredGlobal st v.name = false :=
          hfreshname v.name (by simp [topDeclName?])
        have hdiag : d ∈ (stepTopItem st (.varDecl v)).diags := by
          rw [show stepTopItem st (.varDecl v) = stepVarDecl st v from rfl,
            stepVarDecl, if_neg (by simp [hfresh])]
          simp only [List.mem_append]
          exact Or.inr hd
        rw [List.foldl_cons]
        exact (topFold_diags_grow rest (stepTopItem st (.varDecl v))).subset hdiag
      · rw [List.foldl_cons]
        exact ihv v hv d hd
    · intro p hp d hd
      rcases List.mem_cons.1 hp with hp | hp
      · subst hp
        have hfresh : declaredGlobal st p.name = false :=
          hfreshname p.name (by simp [topDeclName?])
        have hdiag : d ∈ (stepTopItem st (.procDecl p)).diags := by
          rw [show stepTopItem st (.procDecl p) = stepProcDecl st p from rfl,
            stepProcDecl, if_neg (by simp [hfresh])]
          have h1 : d ∈ (procStart st p).diags := by
            rw [procStart]
            simp only [List.mem_append]
            exact Or.inr hd
          have h2 : (procStart st p).diags <+: (bodyResult st p).st.diags :=
            bodyFold_diags_grow (procBody p) ⟨procEntry st p, procStart st p⟩
          exact h2.subset h1
        rw [List.foldl_cons]
        exact (topFold_diags_grow rest (stepTopItem st (.procDecl p))).subset hdiag
      · rw [List.foldl_cons]
        exact ihp p hp d hd

/-- A variable respecting the Import rule: Import-scoped implies not
initialized. -/
def GoodVar (v : Variable) : Prop := v.type = V_IMPORT → v.initialized = false

/-- A procedure respecting the Import and body rules: Import-scoped implies
not defined, and defined implies a non-empty body NodeList. -/
def GoodProc (q : Procedure) : Prop :=
  (q.mods.isImport = true → q.defined = false) ∧ (q.defined = true → q.nodes ≠ [])

/-- All symbol tables of a state respect the Import rules. -/
def GoodState (st : ParseState) : Prop :=
  (∀ v ∈ st.globals, GoodVar v) ∧
  (∀ q ∈ st.procs, GoodProc q ∧ ∀ v ∈ q.locals, GoodVar v)

theorem recordVarRef_forall (P : Variable → Prop)
    (hP : ∀ v r, P v → P (Variable.addRef v r))
    (vars : List Variable) (id : Str) (r : Reference)
    (h : ∀ v ∈ vars, P v) : ∀ v ∈ recordVarRef vars id r, P v := by
  induction vars with
  | nil => exact fun v hv => absurd hv (List.not_mem_nil _)
  | cons w rest ih =>
    intro v hv
    rw [recordVarRef] at hv
    by_cases hw : w.nameText = id
    · rw [if_pos hw] at hv
      rcases List.mem_cons.1 hv with hv | hv
      · exact hv ▸ hP w r (h w (List.mem_cons_self _ _))
      · exact h v (List.mem_cons_of_mem _ hv)
    · rw [if_neg hw] at hv
      rcases List.mem_cons.1 hv with hv | hv
      · exact hv ▸ h w (List.mem_cons_self _ _)
      · exact ih (fun x hx => h x (List.mem_cons_of_mem _ hx)) v hv

theorem recordProcRef_forall (P : Procedure → Prop)
    (hP : ∀ p r, P p → P (Procedure.addRef p r))
    (procs : List Procedure) (id : Str) (r : Reference)
    (h : ∀ p ∈ procs, P p) : ∀ p ∈ recordProcRef procs id r, P p := by
  induction procs with
  | nil => exact fun p hp => absurd hp (List.not_mem_nil _)
  | cons w rest ih =>
    intro p hp
    rw [recordProcRef] at hp
    by_cases hw : w.nameText = id
    · rw [if_pos hw] at hp
      rcases List.mem_cons.1 hp with hp | hp
      · exact hp ▸ hP w r (h w (List.mem_cons_self _ _))
      · exact h p (List.mem_cons_of_mem _ hp)
    · rw [if_neg hw] at hp
      rcases List.mem_cons.1 hp with hp | hp
      · exact hp ▸ h w (List.mem_cons_self _ _)
      · exact ih (fun x hx => h x (List.mem_cons_of_mem _ hx)) p hp

theorem goodVar_addRef (v : Variable) (r : Reference) (h : GoodVar v) :
    GoodVar (Variable.addRef v r) := h

theorem goodProc_addRef (p : Procedure) (r : Reference) (h : GoodProc p) :
    GoodProc (Procedure.addRef p r) := h

/-- A body context respecting the Import rules. -/
def GoodCtx (c : BodyCtx) : Prop :=
  GoodState c.st ∧ GoodProc c.cur ∧ ∀ v ∈ c.cur.locals, GoodVar v

theorem stepBodyItem_good (c : BodyCtx) (b : BodyItem) (h : GoodCtx c) :
    GoodCtx (stepBodyItem c b) := by
  obtain ⟨⟨hg, hp⟩, hcur, hloc⟩ := h
  cases b with
  | localDecl v =>
    rw [stepBodyItem, stepLocalDecl]
    by_cases hv : hasVar c.cur.locals v.name
    · rw [if_pos hv]
      exact ⟨⟨hg, hp⟩, hcur, hloc⟩
    · rw [if_neg hv]
      refine ⟨⟨hg, hp⟩, hcur, ?_⟩
      intro w hw
      rcases List.mem_append.1 hw with hw | hw
      · exact hloc w hw
      · have : w.type = V_LOCAL := by
          have : w = _ := List.mem_singleton.1 hw
          rw [this]
        intro ht
        rw [this] at ht
        exact absurd ht (by decide)
  | useIdent id line file =>
    rw [stepBodyItem, stepBodyUse]
    split_ifs with h1 h2 h3 h4
    · exact ⟨⟨hg, hp⟩, ⟨hcur.1, fun _ => by simp [Procedure.addRef]⟩,
        recordVarRef_forall GoodVar goodVar_addRef _ id _ hloc⟩
    · exact ⟨⟨hg, hp⟩, ⟨hcur.1, fun _ => by simp [Procedure.addRef]⟩, hloc⟩
    · exact ⟨⟨recordVarRef_forall GoodVar goodVar_addRef _ id _ hg, hp⟩,
        ⟨hcur.1, fun _ => by simp [Procedure.addRef]⟩, hloc⟩
    · refine ⟨⟨hg, ?_⟩, ⟨hcur.1, fun _ => by simp [Procedure.addRef]⟩, hloc⟩
      exact recordProcRef_forall _
        (fun q r hq => ⟨hq.1, hq.2⟩) _ id _ hp
    · exact ⟨⟨hg, hp⟩, ⟨hcur.1, fun _ => by simp [Procedure.addRef]⟩, hloc⟩

theorem bodyFold_good (bs : List BodyItem) (c : BodyCtx) (h : GoodCtx c) :
    GoodCtx (bs.foldl stepBodyItem c) := by
  induction bs generalizing c with
  | nil => exact h
  | cons b rest ih =>
    rw [List.foldl_cons]
    exact ih (stepBodyItem c b) (stepBodyItem_good c b h)

theorem stepTopItem_good (st : ParseState) (t : TopItem) (h : GoodState st) :
    GoodState (stepTopItem st t) := by
  obtain ⟨hg, hp⟩ := h
  cases t with
  | varDecl v =>
    rw [stepTopItem, stepVarDecl]
    split_ifs with hd
    · exact ⟨hg, hp⟩
    · refine ⟨?_, hp⟩
      intro w hw
      rcases List.mem_append.1 hw with hw | hw
      · exact hg w hw
      · have hwe : w = varEntry st v := List.mem_singleton.1 hw
        subst hwe
        intro ht
        have hs : v.scope = V_IMPORT := ht
        simp [varEntry, hs]
  | procDecl p =>
    rw [stepTopItem, stepProcDecl]
    split_ifs with hd
    · exact ⟨hg, hp⟩
    · have hstart : GoodState (procStart st p) := ⟨hg, hp⟩
      have hentry : GoodProc (procEntry st p) := by
        constructor
        · intro him
          have him' : p.mods.isImport = true := him
          simp [procEntry, him']
        · intro hdef
          have hdef' : (if p.mods.isImport then none else p.body?).isSome = true := hdef
          simp [procEntry, hdef']
      have hc : GoodCtx (bodyResult st p) := by
        rw [bodyResult]
        exact bodyFold_good (procBody p) ⟨procEntry st p, procStart st p⟩
          ⟨hstart, hentry, by
            intro w hw
            simp [procEntry] at hw⟩
      obtain ⟨⟨cg, cp⟩, ccur, cloc⟩ := hc
      refine ⟨cg, ?_⟩
      intro q hq
      rw [finishProc] at hq
      rcases List.mem_append.1 hq with hq | hq
      · exact cp q hq
      · have : q = (bodyResult st p).cur := List.mem_singleton.1 hq
        subst this
        exact ⟨ccur, cloc⟩
  | useIdent id line file =>
    rw [stepTopItem, stepTopUse]
    split_ifs with h1 h2
    · exact ⟨recordVarRef_forall GoodVar goodVar_addRef _ id _ hg, hp⟩
    · exact ⟨hg, recordProcRef_forall _ (fun q r hq => ⟨hq.1, hq.2⟩) _ id _ hp⟩
    · exact ⟨hg, hp⟩

theorem topFold_good (items : List TopItem) (st : ParseState) (h : GoodState st) :
    GoodState (items.foldl stepTopItem st) := by
  induction items generalizing st with
  | nil => exact h
  | cons t rest ih =>
    rw [List.foldl_cons]
    exact ih (stepTopItem st t) (stepTopItem_good st t h)

/-- The fields of a procedure that reference recording never alters. -/
def procSig (q : Procedure) : Str × Bool × ProcMods := (q.nameText, q.defined, q.mods)

theorem stepBodyItem_procSig (c : BodyCtx) (b : BodyItem) :
    (stepBodyItem c b).st.procs.map procSig = c.st.procs.map procSig ∧
    procSig (stepBodyItem c b).cur = procSig c.cur := by
  cases b with
  | localDecl v =>
    rw [stepBodyItem, stepLocalDecl]
    split_ifs <;> simp [procSig]
  | useIdent id line file =>
    rw [stepBodyItem, stepBodyUse]
    split_ifs <;>
      simp [recordProcRef_map procSig (fun _ _ => rfl), Procedure.addRef, procSig]

theorem bodyFold_procSig (bs : List BodyItem) (c : BodyCtx) :
    (bs.foldl stepBodyItem c).st.procs.map procSig = c.st.procs.map procSig ∧
    procSig (bs.foldl stepBodyItem c).cur = procSig c.cur := by
  induction bs generalizing c with
  | nil => exact ⟨rfl, rfl⟩
  | cons b rest ih =>
    rw [List.foldl_cons]
    obtain ⟨h1, h2⟩ := ih (stepBodyItem c b)
    obtain ⟨g1, g2⟩ := stepBodyItem_procSig c b
    exact ⟨h1.trans g1, h2.trans g2⟩

theorem stepTopItem_procSig (st : ParseState) (t : TopItem) :
    ∃ ext, (stepTopItem st t).procs.map procSig = st.procs.map procSig ++ ext := by
  cases t with
  | varDecl v =>
    refine ⟨[], ?_⟩
    rw [stepTopItem, stepVarDecl]
    split_ifs <;> simp
  | procDecl p =>
    rw [stepTopItem, stepProcDecl]
    split_ifs with hd
    · exact ⟨[], by simp⟩
    · refine ⟨[procSig (bodyResult st p).cur], ?_⟩
      rw [finishProc]
      obtain ⟨h1, h2⟩ := bodyFold_procSig (procBody p) ⟨procEntry st p, procStart st p⟩
      rw [List.map_append]
      rw [show (bodyResult st p).st.procs.map procSig = st.procs.map procSig from h1]
      rfl
  | useIdent id line file =>
    refine ⟨[], ?_⟩
    rw [stepTopItem, stepTopUse]
    split_ifs <;> simp [recordProcRef_map procSig (fun _ _ => rfl)]

theorem topFold_procSig (items : List TopItem) (st : ParseState) :
    ∃ ext, (items.foldl stepTopItem st).procs.map procSig = st.procs.map procSig ++ ext := by
  induction items generalizing st with
  | nil => exact ⟨[], by simp⟩
  | cons t rest ih =>
    rw [List.foldl_cons]
    obtain ⟨e1, h1⟩ := stepTopItem_procSig st t
    obtain ⟨e2, h2⟩ := ih (stepTopItem st t)
    exact ⟨e1 ++ e2, by rw [h2, h1, List.append_assoc]⟩

theorem procSig_persist (items : List TopItem) (st : ParseState) (q : Procedure)
    (hq : q ∈ st.procs) :
    ∃ q' ∈ (items.foldl stepTopItem st).procs, procSig q' = procSig q := by
  obtain ⟨ext, hext⟩ := topFold_procSig items st
  have : procSig q ∈ (items.foldl stepTopItem st).procs.map procSig := by
    rw [hext]
    exact List.mem_append.2 (Or.inl (List.mem_map_of_mem _ hq))
  rcases List.mem_map.1 this with ⟨q', hq', he⟩
  exact ⟨q', hq', he⟩

theorem fold_proc_entry (items : List TopItem) (st : ParseState)
    (hnd : (topDeclNames items).Nodup)
    (hdisj : ∀ n ∈ topDeclNames items, n ∉ declNames st) :
    ∀ p, TopItem.procDecl p ∈ items →
      ∃ q ∈ (items.foldl stepTopItem st).procs,
        q.nameText = p.name ∧
        q.defined = (if p.mods.isImport then none else p.body?).isSome ∧
        q.mods = p.mods := by
  induction items generalizing st with
  | nil => exact fun p hp => absurd hp (List.not_mem_nil _)
  | cons t rest ih =>
    obtain ⟨hnd', hdisj', hfreshname⟩ := fold_fresh_propagate t rest st hnd hdisj
    intro p hp
    rcases List.mem_cons.1 hp with hp | hp
    · subst hp
      have hfresh : declaredGlobal st p.name = false :=
        hfreshname p.name (by simp [topDeclName?])
      have hstep : stepTopItem st (.procDecl p) = finishProc (bodyResult st p) := by
        rw [show stepTopItem st (.procDecl p) = stepProcDecl st p from rfl,
          stepProcDecl, if_neg (by simp [hfresh])]
      have hmem : (bodyResult st p).cur ∈ (stepTopItem st (.procDecl p)).procs := by
        rw [hstep, finishProc]
        exact List.mem_append.2 (Or.inr (List.mem_singleton.2 rfl))
      obtain ⟨q', hq', hsig⟩ :=
        procSig_persist rest (stepTopItem st (.procDecl p)) (bodyResult st p).cur hmem
      have hcursig : procSig (bodyResult st p).cur = procSig (procEntry st p) :=
        (bodyFold_procSig (procBody p) ⟨procEntry st p, procStart st p⟩).2
      rw [List.foldl_cons]
      refine ⟨q', hq', ?_⟩
      have : procSig q' = procSig (procEntry st p) := hsig.trans hcursig
      have hfin : procSig q' = (p.name, (if p.mods.isImport then none else p.body?).isSome,
          p.mods) := this
      exact ⟨congrArg Prod.fst hfin,
        congrArg (fun x => x.2.1) hfin, congrArg (fun x => x.2.2) hfin⟩
    · rw [List.foldl_cons]
      exact ih (stepTopItem st t) hnd' hdisj' p hp

/-- C6: an Import-scoped variable declared with an initializer, an Import
procedure declared with a body, and an Export procedure declared without a
body each raise a ScopeViolationError; in the resulting unit every
Import-scoped variable has `initialized == false` and every Import
procedure has `defined == false`, while an Export procedure declared with
its body (the non-violating case) ends up with `defined == true` and a
non-empty body NodeList (the body/local table is non-empty). -/
theorem claim_C6 (items : List TopItem) (h : (topDeclNames items).Nodup) :
    (∀ v, TopItem.varDecl v ∈ items → v.scope = V_IMPORT → v.init?.isSome = true →
      Diag.scopeViolationError v.name v.line ∈ (parseUnit items).2) ∧
    (∀ p, TopItem.procDecl p ∈ items → p.mods.isImport = true → p.body?.isSome = true →
      Diag.scopeViolationError p.name p.line ∈ (parseUnit items).2) ∧
    (∀ p, TopItem.procDecl p ∈ items → p.mods.isExport = true → p.body? = none →
      Diag.scopeViolationError p.name p.line ∈ (parseUnit items).2) ∧
    (∀ v ∈ (parseUnit items).1.globals, v.type = V_IMPORT → v.initialized = false) ∧
    (∀ q ∈ (parseUnit items).1.procs,
      (q.mods.isImport = true → q.defined = false) ∧
      (∀ v ∈ q.locals, v.type = V_IMPORT → v.initialized = false)) ∧
    (∀ p, TopItem.procDecl p ∈ items → p.mods.isExport = true → p.mods.isImport = false →
      ∀ b, p.body? = some b →
      ∃ q ∈ (parseUnit items).1.procs,
        q.nameText = p.name ∧ q.defined = true ∧ q.mods = p.mods ∧ q.nodes ≠ []) := by
  have hdisj0 : ∀ n ∈ topDeclNames items, n ∉ declNames initState := by
    intro n _
    simp [declNames, initState]
  obtain ⟨hsv, hsp⟩ := fold_scopeDiags items initState h hdisj0
  have hgood : GoodState (items.foldl stepTopItem initState) :=
    topFold_good items initState
      ⟨fun v hv => absurd hv (List.not_mem_nil _), fun q hq => absurd hq (List.not_mem_nil _)⟩
  have hentry := fold_proc_entry items initState h hdisj0
  have hmemdiag : ∀ d, d ∈ (items.foldl stepTopItem initState).diags →
      d ∈ (parseUnit items).2 := by
    intro d hd
    show d ∈ (items.foldl stepTopItem initState).diags ++ _
    exact List.mem_append.2 (Or.inl hd)
  refine ⟨?_, ?_, ?_, ?_, ?_, ?_⟩
  · intro v hv hs hi
    apply hmemdiag
    apply hsv v hv
    rw [varScopeDiags, if_pos ⟨hs, hi⟩]
    exact List.mem_singleton.2 rfl
  · intro p hp hs hi
    apply hmemdiag
    apply hsp p hp
    rw [procScopeDiags]
    apply List.mem_append.2 (Or.inl _)
    apply List.mem_append.2 (Or.inl _)
    rw [if_pos (by rw [hs, hi]; rfl)]
    exact List.mem_singleton.2 rfl
  · intro p hp hs hb
    apply hmemdiag
    apply hsp p hp
    rw [procScopeDiags]
    apply List.mem_append.2 (Or.inl _)
    apply List.mem_append.2 (Or.inr _)
    rw [if_pos (by rw [hs, hb]; rfl)]
    exact List.mem_singleton.2 rfl
  · intro v hv
    exact hgood.1 v hv
  · intro q hq
    exact ⟨(hgood.2 q hq).1.1, (hgood.2 q hq).2⟩
  · intro p hp hs hni b hb
    obtain ⟨q, hq, hname, hdef, hmods⟩ := hentry p hp
    have hdt : q.defined = true := by
      rw [hdef, hni, hb]
      rfl
    exact ⟨q, hq, hname, hdt, hmods, (hgood.2 q hq).1.2 hdt⟩

/-- Sample import variable with an (illegal) initializer. -/
def cImportVar : VarDeclSrc :=
  { name := [20], scope := V_IMPORT, init? := some (.litInt 1), arrayLen := 0,
    line := 1, file := "g" }

/-- Sample import procedure with an (illegal) body. -/
def cImportProc : ProcDeclSrc :=
  { name := [21], trig := .noTrigger, mods := ⟨true, false, false, false, false⟩,
    numArgs := 0, minArgs := 0, body? := some [], line := 2, file := "g" }

/-- Sample export procedure missing its (required) body. -/
def cExportNoBody : ProcDeclSrc :=
  { name := [22], trig := .noTrigger, mods := ⟨false, true, false, false, false⟩,
    numArgs := 0, minArgs := 0, body? := none, line := 3, file := "g" }

/-- Sample well-formed export procedure. -/
def cExportProc : ProcDeclSrc :=
  { name := [23], trig := .noTrigger, mods := ⟨false, true, false, false, false⟩,
    numArgs := 0, minArgs := 0, body? := some [.useIdent [20] 5 "g"],
    line := 4, file := "g" }

/-- Sample script exercising the scope rules. -/
def cItems : List TopItem :=
  [.varDecl cImportVar, .procDecl cImportProc, .procDecl cExportNoBody,
   .procDecl cExportProc]

/-- Witness for C6 at the sample script. -/
theorem claim_C6_witness :
    Diag.scopeViolationError cImportVar.name cImportVar.line ∈ (parseUnit cItems).2 ∧
    Diag.scopeViolationError cImportProc.name cImportProc.line ∈ (parseUnit cItems).2 ∧
    Diag.scopeViolationError cExportNoBody.name cExportNoBody.line ∈ (parseUnit cItems).2 ∧
    (∃ q ∈ (parseUnit cItems).1.procs,
      q.nameText = cExportProc.name ∧ q.defined = true ∧ q.mods = cExportProc.mods ∧
      q.nodes ≠ []) := by
  have h := claim_C6 cItems (by
    simp [cItems, topDeclNames, topDeclName?, cImportVar, cImportProc, cExportNoBody,
      cExportProc, List.nodup_cons])
  refine ⟨?_, ?_, ?_, ?_⟩
  · exact h.1 cImportVar (by simp [cItems]) rfl rfl
  · exact h.2.1 cImportProc (by simp [cItems]) rfl rfl
  · exact h.2.2.1 cExportNoBody (by simp [cItems]) rfl rfl
  · exact h.2.2.2.2.2 cExportProc (by simp [cItems]) rfl rfl _ rfl

/-! ### Reference counting (for C4) -/

/-- The stored `numRefs` agrees with the recorded reference sequence. -/
def RefOkVar (v : Variable) : Prop := v.numRefs = v.references.length

/-- The stored `numRefs` agrees with the recorded reference sequence. -/
def RefOkProc (q : Procedure) : Prop := q.numRefs = q.references.length

/-- All symbols of a state have consistent reference counts. -/
def RefOkState (st : ParseState) : Prop :=
  (∀ v ∈ st.globals, RefOkVar v) ∧
  (∀ q ∈ st.procs, RefOkProc q ∧ ∀ v ∈ q.locals, RefOkVar v)

theorem refOkVar_addRef (v : Variable) (r : Reference) (h : RefOkVar v) :
    RefOkVar (Variable.addRef v r) := by
  rw [RefOkVar] at *
  simp [Variable.addRef, h]

theorem refOkProc_addRef (p : Procedure) (r : Reference) (h : RefOkProc p) :
    RefOkProc (Procedure.addRef p r) := by
  rw [RefOkProc] at *
  simp [Procedure.addRef, h]

/-- A body context with consistent reference counts. -/
def RefOkCtx (c : BodyCtx) : Prop :=
  RefOkState c.st ∧ RefOkProc c.cur ∧ ∀ v ∈ c.cur.locals, RefOkVar v

theorem stepBodyItem_refOk (c : BodyCtx) (b : BodyItem) (h : RefOkCtx c) :
    RefOkCtx (stepBodyItem c b) := by
  obtain ⟨⟨hg, hp⟩, hcur, hloc⟩ := h
  cases b with
  | localDecl v =>
    rw [stepBodyItem, stepLocalDecl]
    split_ifs with hv
    · exact ⟨⟨hg, hp⟩, hcur, hloc⟩
    · refine ⟨⟨hg, hp⟩, hcur, ?_⟩
      intro w hw
      rcases List.mem_append.1 hw with hw | hw
      · exact hloc w hw
      · have : w = _ := List.mem_singleton.1 hw
        rw [this]
        simp [RefOkVar]
  | useIdent id line file =>
    rw [stepBodyItem, stepBodyUse]
    split_ifs with h1 h2 h3 h4
    · exact ⟨⟨hg, hp⟩, hcur, recordVarRef_forall RefOkVar refOkVar_addRef _ id _ hloc⟩
    · exact ⟨⟨hg, hp⟩, refOkProc_addRef _ _ hcur, hloc⟩
    · exact ⟨⟨recordVarRef_forall RefOkVar refOkVar_addRef _ id _ hg, hp⟩, hcur, hloc⟩
    · exact ⟨⟨hg, recordProcRef_forall _
        (fun q r hq => ⟨refOkProc_addRef q r hq.1, hq.2⟩) _ id _ hp⟩, hcur, hloc⟩
    · exact ⟨⟨hg, hp⟩, hcur, hloc⟩

theorem bodyFold_refOk (bs : List BodyItem) (c : BodyCtx) (h : RefOkCtx c) :
    RefOkCtx (bs.foldl stepBodyItem c) := by
  induction bs generalizing c with
  | nil => exact h
  | cons b rest ih =>
    rw [List.foldl_cons]
    exact ih (stepBodyItem c b) (stepBodyItem_refOk c b h)

theorem stepTopItem_refOk (st : ParseState) (t : TopItem) (h : RefOkState st) :
    RefOkState (stepTopItem st t) := by
  obtain ⟨hg, hp⟩ := h
  cases t with
  | varDecl v =>
    rw [stepTopItem, stepVarDecl]
    split_ifs with hd
    · exact ⟨hg, hp⟩
    · refine ⟨?_, hp⟩
      intro w hw
      rcases List.mem_append.1 hw with hw | hw
      · exact hg w hw
      · have hwe : w = varEntry st v := List.mem_singleton.1 hw
        subst hwe
        simp [RefOkVar, varEntry]
  | procDecl p =>
    rw [stepTopItem, stepProcDecl]
    split_ifs with hd
    · exact ⟨hg, hp⟩
    · have hc : RefOkCtx (bodyResult st p) := by
        rw [bodyResult]
        refine bodyFold_refOk (procBody p) ⟨procEntry st p, procStart st p⟩
          ⟨⟨hg, hp⟩, ?_, ?_⟩
        · simp [RefOkProc, procEntry]
        · intro w hw
          simp [procEntry] at hw
      obtain ⟨⟨cg, cp⟩, ccur, cloc⟩ := hc
      refine ⟨cg, ?_⟩
      intro q hq
      rw [finishProc] at hq
      rcases List.mem_append.1 hq with hq | hq
      · exact cp q hq
      · have : q = (bodyResult st p).cur := List.mem_singleton.1 hq
        subst this
        exact ⟨ccur, cloc⟩
  | useIdent id line file =>
    rw [stepTopItem, stepTopUse]
    split_ifs with h1 h2
    · exact ⟨recordVarRef_forall RefOkVar refOkVar_addRef _ id _ hg, hp⟩
    · exact ⟨hg, recordProcRef_forall _
        (fun q r hq => ⟨refOkProc_addRef q r hq.1, hq.2⟩) _ id _ hp⟩
    · exact ⟨hg, hp⟩

theorem topFold_refOk (items : List TopItem) (st : ParseState) (h : RefOkState st) :
    RefOkState (items.foldl stepTopItem st) := by
  induction items generalizing st with
  | nil => exact h
  | cons t rest ih =>
    rw [List.foldl_cons]
    exact ih (stepTopItem st t) (stepTopItem_refOk st t h)

/-! ### Occurrence traces (for C4): every recorded reference is an actual
textual occurrence of its identifier, in encounter order. -/

/-- The occurrence sites of `id` contributed by one body element. -/
def bodyItemSites (id : Str) : BodyItem → List Reference
  | .localDecl v => if v.name = id then [⟨v.line, v.file⟩] else []
  | .useIdent i l f => if i = id then [⟨l, f⟩] else []

/-- The occurrence sites of `id` in a body, in textual order. -/
def bodySites (id : Str) (bs : List BodyItem) : List Reference :=
  (bs.map (bodyItemSites id)).flatten

/-- The occurrence sites of `id` contributed by one top-level item. -/
def itemSites (id : Str) : TopItem → List Reference
  | .varDecl v => if v.name = id then [⟨v.line, v.file⟩] else []
  | .procDecl p =>
      (if p.name = id then [⟨p.line, p.file⟩] else []) ++ bodySites id (p.body?.getD [])
  | .useIdent i l f => if i = id then [⟨l, f⟩] else []

/-- All occurrence sites of `id` in the unit, in textual order. -/
def siteTrace (id : Str) (items : List TopItem) : List Reference :=
  (items.map (itemSites id)).flatten

/-- The reference list behind `getVarRefs` (parser.h line 205): the caller
reads `numRefs` entries for variable `i`. -/
def getVarRefs (u : CompilationUnit) (i : Nat) : Option (List Reference) :=
  (u.globals.get? i).map (fun v => v.references)

/-- The reference list behind `getProcRefs` (parser.h line 198). -/
def getProcRefs (u : CompilationUnit) (i : Nat) : Option (List Reference) :=
  (u.procs.get? i).map (fun q => q.references)

/-- The reference list behind `getProcVarRefs` (parser.h line 213). -/
def getProcVarRefs (u : CompilationUnit) (i j : Nat) : Option (List Reference) :=
  ((procVarsAt u i).get? j).map (fun v => v.references)

theorem recordVarRef_cases (vars : List Variable) (id : Str) (r : Reference) :
    ∀ w ∈ recordVarRef vars id r,
      w ∈ vars ∨ ∃ v, v ∈ vars ∧ v.nameText = id ∧ w = Variable.addRef v r := by
  induction vars with
  | nil => exact fun w hw => absurd hw (List.not_mem_nil _)
  | cons v rest ih =>
    intro w hw
    rw [recordVarRef] at hw
    by_cases hv : v.nameText = id
    · rw [if_pos hv] at hw
      rcases List.mem_cons.1 hw with hw | hw
      · exact Or.inr ⟨v, List.mem_cons_self _ _, hv, hw⟩
      · exact Or.inl (List.mem_cons_of_mem _ hw)
    · rw [if_neg hv] at hw
      rcases List.mem_cons.1 hw with hw | hw
      · exact Or.inl (hw ▸ List.mem_cons_self _ _)
      · rcases ih w hw with hc | ⟨v', hv', he, hw'⟩
        · exact Or.inl (List.mem_cons_of_mem _ hc)
        · exact Or.inr ⟨v', List.mem_cons_of_mem _ hv', he, hw'⟩

theorem recordProcRef_cases (procs : List Procedure) (id : Str) (r : Reference) :
    ∀ w ∈ recordProcRef procs id r,
      w ∈ procs ∨ ∃ q, q ∈ procs ∧ q.nameText = id ∧ w = Procedure.addRef q r := by
  induction procs with
  | nil => exact fun w hw => absurd hw (List.not_mem_nil _)
  | cons q rest ih =>
    intro w hw
    rw [recordProcRef] at hw
    by_cases hq : q.nameText = id
    · rw [if_pos hq] at hw
      rcases List.mem_cons.1 hw with hw | hw
      · exact Or.inr ⟨q, List.mem_cons_self _ _, hq, hw⟩
      · exact Or.inl (List.mem_cons_of_mem _ hw)
    · rw [if_neg hq] at hw
      rcases List.mem_cons.1 hw with hw | hw
      · exact Or.inl (hw ▸ List.mem_cons_self _ _)
      · rcases ih w hw with hc | ⟨q', hq', he, hw'⟩
        · exact Or.inl (List.mem_cons_of_mem _ hc)
        · exact Or.inr ⟨q', List.mem_cons_of_mem _ hq', he, hw'⟩

theorem addSite_cases (phs : List PlaceHolder) (id : Str) (r : Reference) :
    ∀ ph ∈ addSite phs id r,
      ph ∈ phs ∨
      (∃ ph0, ph0 ∈ phs ∧ ph0.id = id ∧ ph = ⟨ph0.id, ph0.sites ++ [r]⟩) ∨
      ph = ⟨id, [r]⟩ := by
  induction phs with
  | nil =>
    intro ph hph
    rw [addSite] at hph
    exact Or.inr (Or.inr (List.mem_singleton.1 hph))
  | cons p0 rest ih =>
    intro ph hph
    rw [addSite] at hph
    by_cases hp : p0.id = id
    · rw [if_pos hp] at hph
      rcases List.mem_cons.1 hph with hph | hph
      · exact Or.inr (Or.inl ⟨p0, List.mem_cons_self _ _, hp, hph⟩)
      · exact Or.inl (List.mem_cons_of_mem _ hph)
    · rw [if_neg hp] at hph
      rcases List.mem_cons.1 hph with hph | hph
      · exact Or.inl (hph ▸ List.mem_cons_self _ _)
      · rcases ih ph hph with hc | ⟨p1, hp1, he, hf⟩ | hc
        · exact Or.inl (List.mem_cons_of_mem _ hc)
        · exact Or.inr (Or.inl ⟨p1, List.mem_cons_of_mem _ hp1, he, hf⟩)
        · exact Or.inr (Or.inr hc)

theorem takePlaceholder_sub (phs : List PlaceHolder) (id : Str) :
    (∀ ph ∈ (takePlaceholder phs id).2, ph ∈ phs) ∧
    ((takePlaceholder phs id).1 = [] ∨
      ∃ ph, ph ∈ phs ∧ ph.id = id ∧ (takePlaceholder phs id).1 = ph.sites) := by
  induction phs with
  | nil => exact ⟨fun ph hph => absurd hph (List.not_mem_nil _), Or.inl rfl⟩
  | cons p0 rest ih =>
    rw [takePlaceholder]
    by_cases hp : p0.id = id
    · rw [if_pos hp]
      exact ⟨fun ph hph => List.mem_cons_of_mem _ hph,
        Or.inr ⟨p0, List.mem_cons_self _ _, hp, rfl⟩⟩
    · rw [if_neg hp]
      refine ⟨?_, ?_⟩
      · intro ph hph
        rcases List.mem_cons.1 hph with hph | hph
        · exact hph ▸ List.mem_cons_self _ _
        · exact List.mem_cons_of_mem _ (ih.1 ph hph)
      · rcases ih.2 with hc | ⟨ph, hph, he, hs⟩
        · exact Or.inl hc
        · exact Or.inr ⟨ph, List.mem_cons_of_mem _ hph, he, hs⟩

/-- All recorded reference sequences of a state are subsequences of the
occurrence trace `tr` of their identifier. -/
def TraceInv (st : ParseState) (tr : Str → List Reference) : Prop :=
  (∀ v ∈ st.globals, v.references.Sublist (tr v.nameText)) ∧
  (∀ q ∈ st.procs, q.references.Sublist (tr q.nameText) ∧
    ∀ v ∈ q.locals, v.references.Sublist (tr v.nameText)) ∧
  (∀ ph ∈ st.placeholders, ph.sites.Sublist (tr ph.id))

/-- The body-context analogue of `TraceInv`. -/
def TraceCtx (c : BodyCtx) (tr : Str → List Reference) : Prop :=
  TraceInv c.st tr ∧ c.cur.references.Sublist (tr c.cur.nameText) ∧
  ∀ v ∈ c.cur.locals, v.references.Sublist (tr v.nameText)

theorem traceInv_mono (st : ParseState) (tr tr' : Str → List Reference)
    (h : TraceInv st tr) (hm : ∀ id, (tr id).Sublist (tr' id)) : TraceInv st tr' := by
  obtain ⟨hg, hq, hph⟩ := h
  exact ⟨fun v hv => (hg v hv).trans (hm _),
    fun q hq' => ⟨((hq q hq').1).trans (hm _),
      fun v hv => ((hq q hq').2 v hv).trans (hm _)⟩,
    fun ph hp => (hph ph hp).trans (hm _)⟩

theorem traceCtx_mono (c : BodyCtx) (tr tr' : Str → List Reference)
    (h : TraceCtx c tr) (hm : ∀ id, (tr id).Sublist (tr' id)) : TraceCtx c tr' := by
  obtain ⟨hst, hcur, hloc⟩ := h
  exact ⟨traceInv_mono c.st tr tr' hst hm, hcur.trans (hm _),
    fun v hv => (hloc v hv).trans (hm _)⟩

theorem stepBodyItem_trace (c : BodyCtx) (b : BodyItem) (tr : Str → List Reference)
    (h : TraceCtx c tr) :
    TraceCtx (stepBodyItem c b) (fun id => tr id ++ bodyItemSites id b) := by
  have hext : ∀ id, (tr id).Sublist (tr id ++ bodyItemSites id b) :=
    fun id => List.sublist_append_left _ _
  obtain ⟨⟨hg, hq, hph⟩, hcur, hloc⟩ := h
  cases b with
  | localDecl v =>
    rw [stepBodyItem, stepLocalDecl]
    split_ifs with hv
    · exact traceCtx_mono c tr _ ⟨⟨hg, hq, hph⟩, hcur, hloc⟩ hext
    · refine ⟨⟨fun w hw => (hg w hw).trans (hext _),
        fun w hw => ⟨((hq w hw).1).trans (hext _),
          fun x hx => ((hq w hw).2 x hx).trans (hext _)⟩,
        fun ph hp => (hph ph hp).trans (hext _)⟩,
        hcur.trans (hext _), ?_⟩
      intro w hw
      rcases List.mem_append.1 hw with hw | hw
      · exact (hloc w hw).trans (hext _)
      · have hwe : w = _ := List.mem_singleton.1 hw
        subst hwe
        show [(⟨v.line, v.file⟩ : Reference)].Sublist
          (tr v.name ++ bodyItemSites v.name (.localDecl v))
        rw [bodyItemSites, if_pos rfl]
        exact List.Sublist.append (List.nil_sublist _) (List.Sublist.refl _)
  | useIdent id0 l f =>
    rw [stepBodyItem, stepBodyUse]
    have hsite : bodyItemSites id0 (.useIdent id0 l f) = [⟨l, f⟩] := by
      rw [bodyItemSites, if_pos rfl]
    split_ifs with h1 h2 h3 h4
    · refine ⟨⟨fun w hw => (hg w hw).trans (hext _),
        fun w hw => ⟨((hq w hw).1).trans (hext _),
          fun x hx => ((hq w hw).2 x hx).trans (hext _)⟩,
        fun ph hp => (hph ph hp).trans (hext _)⟩,
        hcur.trans (hext _), ?_⟩
      intro w hw
      rcases recordVarRef_cases _ id0 _ w hw with hw | ⟨v0, hv0, hn, hwe⟩
      · exact (hloc w hw).trans (hext _)
      · subst hwe
        show (v0.references ++ [(⟨l, f⟩ : Reference)]).Sublist
          (tr v0.nameText ++ bodyItemSites v0.nameText (.useIdent id0 l f))
        rw [hn, hsite]
        exact List.Sublist.append (hn ▸ hloc v0 hv0) (List.Sublist.refl _)
    · refine ⟨⟨fun w hw => (hg w hw).trans (hext _),
        fun w hw => ⟨((hq w hw).1).trans (hext _),
          fun x hx => ((hq w hw).2 x hx).trans (hext _)⟩,
        fun ph hp => (hph ph hp).trans (hext _)⟩, ?_, ?_⟩
      · show (c.cur.references ++ [(⟨l, f⟩ : Reference)]).Sublist
          (tr c.cur.nameText ++ bodyItemSites c.cur.nameText (.useIdent id0 l f))
        have h2' : c.cur.nameText = id0 := h2
        rw [h2', hsite]
        exact List.Sublist.append (h2' ▸ hcur) (List.Sublist.refl _)
      · intro w hw
        exact (hloc w hw).trans (hext _)
    · refine ⟨⟨?_,
        fun w hw => ⟨((hq w hw).1).trans (hext _),
          fun x hx => ((hq w hw).2 x hx).trans (hext _)⟩,
        fun ph hp => (hph ph hp).trans (hext _)⟩,
        hcur.trans (hext _), fun w hw => (hloc w hw).trans (hext _)⟩
      intro w hw
      rcases recordVarRef_cases _ id0 _ w hw with hw | ⟨v0, hv0, hn, hwe⟩
      · exact (hg w hw).trans (hext _)
      · subst hwe
        show (v0.references ++ [(⟨l, f⟩ : Reference)]).Sublist
          (tr v0.nameText ++ bodyItemSites v0.nameText (.useIdent id0 l f))
        rw [hn, hsite]
        exact List.Sublist.append (hn ▸ hg v0 hv0) (List.Sublist.refl _)
    · refine ⟨⟨fun w hw => (hg w hw).trans (hext _), ?_,
        fun ph hp => (hph ph hp).trans (hext _)⟩,
        hcur.trans (hext _), fun w hw => (hloc w hw).trans (hext _)⟩
      intro w hw
      rcases recordProcRef_cases _ id0 _ w hw with hw | ⟨q0, hq0, hn, hwe⟩
      · exact ⟨((hq w hw).1).trans (hext _),
          fun x hx => ((hq w hw).2 x hx).trans (hext _)⟩
      · subst hwe
        constructor
        · show (q0.references ++ [(⟨l, f⟩ : Reference)]).Sublist
            (tr q0.nameText ++ bodyItemSites q0.nameText (.useIdent id0 l f))
          rw [hn, hsite]
          exact List.Sublist.append (hn ▸ (hq q0 hq0).1) (List.Sublist.refl _)
        · intro x hx
          exact ((hq q0 hq0).2 x hx).trans (hext _)
    · refine ⟨⟨fun w hw => (hg w hw).trans (hext _),
        fun w hw => ⟨((hq w hw).1).trans (hext _),
          fun x hx => ((hq w hw).2 x hx).trans (hext _)⟩, ?_⟩,
        hcur.trans (hext _), fun w hw => (hloc w hw).trans (hext _)⟩
      intro ph hp
      rcases addSite_cases _ id0 _ ph hp with hp | ⟨p1, hp1, he, hf'⟩ | hf'
      · exact (hph ph hp).trans (hext _)
      · subst hf'
        show (p1.sites ++ [(⟨l, f⟩ : Reference)]).Sublist
          (tr p1.id ++ bodyItemSites p1.id (.useIdent id0 l f))
        rw [he, hsite]
        exact List.Sublist.append (he ▸ hph p1 hp1) (List.Sublist.refl _)
      · subst hf'
        show [(⟨l, f⟩ : Reference)].Sublist
          (tr id0 ++ bodyItemSites id0 (.useIdent id0 l f))
        rw [hsite]
        exact List.Sublist.append (List.nil_sublist _) (List.Sublist.refl _)

theorem bodySites_cons (id : Str) (b : BodyItem) (rest : List BodyItem) :
    bodySites id (b :: rest) = bodyItemSites id b ++ bodySites id rest := by
  simp [bodySites]

theorem bodyFold_trace (bs : List BodyItem) (c : BodyCtx) (tr : Str → List Reference)
    (h : TraceCtx c tr) :
    TraceCtx (bs.foldl stepBodyItem c) (fun id => tr id ++ bodySites id bs) := by
  induction bs generalizing c tr with
  | nil =>
    refine traceCtx_mono c tr _ h ?_
    intro id
    exact List.sublist_append_left _ _
  | cons b rest ih =>
    rw [List.foldl_cons]
    have h1 := stepBodyItem_trace c b tr h
    have h2 := ih (stepBodyItem c b) (fun id => tr id ++ bodyItemSites id b) h1
    refine traceCtx_mono _ _ _ h2 ?_
    intro id
    rw [bodySites_cons, ← List.append_assoc]

theorem procBody_sites_sublist (id : Str) (p : ProcDeclSrc) :
    (bodySites id (procBody p)).Sublist (bodySites id (p.body?.getD [])) := by
  rw [procBody]
  cases him : p.mods.isImport
  · rw [if_neg (by simp [him])]
  · rw [if_pos (by simp [him])]
    show (bodySites id []).Sublist _
    rw [show bodySites id [] = [] from rfl]
    exact List.nil_sublist _

theorem stepTopItem_trace (st : ParseState) (t : TopItem) (tr : Str → List Reference)
    (h : TraceInv st tr) :
    TraceInv (stepTopItem st t) (fun id => tr id ++ itemSites id t) := by
  have hext : ∀ id, (tr id).Sublist (tr id ++ itemSites id t) :=
    fun id => List.sublist_append_left _ _
  obtain ⟨hg, hq, hph⟩ := h
  cases t with
  | varDecl v =>
    rw [stepTopItem, stepVarDecl]
    split_ifs with hd
    · exact traceInv_mono st tr _ ⟨hg, hq, hph⟩ hext
    · refine ⟨?_, fun w hw => ⟨((hq w hw).1).trans (hext _),
        fun x hx => ((hq w hw).2 x hx).trans (hext _)⟩, ?_⟩
      · intro w hw
        rcases List.mem_append.1 hw with hw | hw
        · exact (hg w hw).trans (hext _)
        · have hwe : w = varEntry st v := List.mem_singleton.1 hw
          subst hwe
          show ((takePlaceholder st.placeholders v.name).1
              ++ [(⟨v.line, v.file⟩ : Reference)]).Sublist
            (tr v.name ++ itemSites v.name (.varDecl v))
          have hsite : itemSites v.name (.varDecl v) = [⟨v.line, v.file⟩] := by
            rw [itemSites, if_pos rfl]
          rw [hsite]
          apply List.Sublist.append ?_ (List.Sublist.refl _)
          rcases (takePlaceholder_sub st.placeholders v.name).2 with he | ⟨ph, hpm, hid, he⟩
          · rw [he]
            exact List.nil_sublist _
          · rw [he]
            exact hid ▸ hph ph hpm
      · intro ph hp
        exact (hph ph ((takePlaceholder_sub st.placeholders v.name).1 ph hp)).trans (hext _)
  | procDecl p =>
    rw [stepTopItem, stepProcDecl]
    split_ifs with hd
    · exact traceInv_mono st tr _ ⟨hg, hq, hph⟩ hext
    · have hctx0 : TraceCtx ⟨procEntry st p, procStart st p⟩
          (fun id => tr id ++ (if p.name = id then [(⟨p.line, p.file⟩ : Reference)] else [])) := by
        have hext1 : ∀ id, (tr id).Sublist
            (tr id ++ (if p.name = id then [(⟨p.line, p.file⟩ : Reference)] else [])) :=
          fun id => List.sublist_append_left _ _
        refine ⟨⟨?_, ?_, ?_⟩, ?_, ?_⟩
        · intro w hw
          exact (hg w hw).trans (hext1 _)
        · intro w hw
          exact ⟨((hq w hw).1).trans (hext1 _),
            fun x hx => ((hq w hw).2 x hx).trans (hext1 _)⟩
        · intro ph hp
          exact (hph ph ((takePlaceholder_sub st.placeholders p.name).1 ph hp)).trans (hext1 _)
        · show ((takePlaceholder st.placeholders p.name).1
              ++ [(⟨p.line, p.file⟩ : Reference)]).Sublist
            (tr p.name ++ (if p.name = p.name then [(⟨p.line, p.file⟩ : Reference)] else []))
          rw [if_pos rfl]
          apply List.Sublist.append ?_ (List.Sublist.refl _)
          rcases (takePlaceholder_sub st.placeholders p.name).2 with he | ⟨ph, hpm, hid, he⟩
          · rw [he]
            exact List.nil_sublist _
          · rw [he]
            exact hid ▸ hph ph hpm
        · intro w hw
          simp [procEntry] at hw
      have hctx1 := bodyFold_trace (procBody p) _ _ hctx0
      obtain ⟨⟨cg, cq, cph⟩, ccur, cloc⟩ := hctx1
      have hm : ∀ id,
          ((tr id ++ (if p.name = id then [(⟨p.line, p.file⟩ : Reference)] else []))
            ++ bodySites id (procBody p)).Sublist (tr id ++ itemSites id (.procDecl p)) := by
        intro id
        have : itemSites id (.procDecl p)
            = (if p.name = id then [(⟨p.line, p.file⟩ : Reference)] else [])
              ++ bodySites id (p.body?.getD []) := rfl
        rw [this, ← List.append_assoc]
        exact List.Sublist.append_left (procBody_sites_sublist id p) _
      refine ⟨?_, ?_, ?_⟩
      · intro w hw
        exact (cg w hw).trans (hm _)
      · intro w hw
        rcases List.mem_append.1 hw with hw | hw
        · exact ⟨((cq w hw).1).trans (hm _), fun x hx => ((cq w hw).2 x hx).trans (hm _)⟩
        · have hwe : w = (bodyResult st p).cur := List.mem_singleton.1 hw
          subst hwe
          exact ⟨ccur.trans (hm _), fun x hx => (cloc x hx).trans (hm _)⟩
      · intro ph hp
        exact (cph ph hp).trans (hm _)
  | useIdent id0 l f =>
    rw [stepTopItem, stepTopUse]
    have hsite : itemSites id0 (.useIdent id0 l f) = [⟨l, f⟩] := by
      rw [itemSites, if_pos rfl]
    split_ifs with h1 h2
    · refine ⟨?_, fun w hw => ⟨((hq w hw).1).trans (hext _),
        fun x hx => ((hq w hw).2 x hx).trans (hext _)⟩,
        fun ph hp => (hph ph hp).trans (hext _)⟩
      intro w hw
      rcases recordVarRef_cases _ id0 _ w hw with hw | ⟨v0, hv0, hn, hwe⟩
      · exact (hg w hw).trans (hext _)
      · subst hwe
        show (v0.references ++ [(⟨l, f⟩ : Reference)]).Sublist
          (tr v0.nameText ++ itemSites v0.nameText (.useIdent id0 l f))
        rw [hn, hsite]
        exact List.Sublist.append (hn ▸ hg v0 hv0) (List.Sublist.refl _)
    · refine ⟨fun w hw => (hg w hw).trans (hext _), ?_,
        fun ph hp => (hph ph hp).trans (hext _)⟩
      intro w hw
      rcases recordProcRef_cases _ id0 _ w hw with hw | ⟨q0, hq0, hn, hwe⟩
      · exact ⟨((hq w hw).1).trans (hext _),
          fun x hx => ((hq w hw).2 x hx).trans (hext _)⟩
      · subst hwe
        constructor
        · show (q0.references ++ [(⟨l, f⟩ : Reference)]).Sublist
            (tr q0.nameText ++ itemSites q0.nameText (.useIdent id0 l f))
          rw [hn, hsite]
          exact List.Sublist.append (hn ▸ (hq q0 hq0).1) (List.Sublist.refl _)
        · intro x hx
          exact ((hq q0 hq0).2 x hx).trans (hext _)
    · refine ⟨fun w hw => (hg w hw).trans (hext _),
        fun w hw => ⟨((hq w hw).1).trans (hext _),
          fun x hx => ((hq w hw).2 x hx).trans (hext _)⟩, ?_⟩
      intro ph hp
      rcases addSite_cases _ id0 _ ph hp with hp | ⟨p1, hp1, he, hf'⟩ | hf'
      · exact (hph ph hp).trans (hext _)
      · subst hf'
        show (p1.sites ++ [(⟨l, f⟩ : Reference)]).Sublist
          (tr p1.id ++ itemSites p1.id (.useIdent id0 l f))
        rw [he, hsite]
        exact List.Sublist.append (he ▸ hph p1 hp1) (List.Sublist.refl _)
      · subst hf'
        show [(⟨l, f⟩ : Reference)].Sublist
          (tr id0 ++ itemSites id0 (.useIdent id0 l f))
        rw [hsite]
        exact List.Sublist.append (List.nil_sublist _) (List.Sublist.refl _)

theorem siteTrace_cons (id : Str) (t : TopItem) (rest : List TopItem) :
    siteTrace id (t :: rest) = itemSites id t ++ siteTrace id rest := by
  simp [siteTrace]

theorem topFold_trace (items : List TopItem) (st : ParseState) (tr : Str → List Reference)
    (h : TraceInv st tr) :
    TraceInv (items.foldl stepTopItem st) (fun id => tr id ++ siteTrace id items) := by
  induction items generalizing st tr with
  | nil =>
    refine traceInv_mono st tr _ h ?_
    intro id
    exact List.sublist_append_left _ _
  | cons t rest ih =>
    rw [List.foldl_cons]
    have h1 := stepTopItem_trace st t tr h
    have h2 := ih (stepTopItem st t) (fun id => tr id ++ itemSites id t) h1
    refine traceInv_mono _ _ _ h2 ?_
    intro id
    rw [siteTrace_cons, ← List.append_assoc]

/-- C4: for every variable and procedure in a completed compilation unit,
the stored `numRefs` equals the length of its recorded reference sequence;
the corresponding accessor (`getVarRefs`, `getProcRefs`, `getProcVarRefs`)
returns exactly that sequence (hence fills exactly `numRefs` entries); and
the sequence is a subsequence of the identifier's actual textual occurrence
sites, so every entry is an actual occurrence, recorded in encounter
order. -/
theorem claim_C4 (items : List TopItem) :
    (∀ i v, (parseUnit items).1.globals.get? i = some v →
      v.numRefs = v.references.length ∧
      getVarRefs (parseUnit items).1 i = some v.references ∧
      v.references.Sublist (siteTrace v.nameText items)) ∧
    (∀ i q, (parseUnit items).1.procs.get? i = some q →
      q.numRefs = q.references.length ∧
      getProcRefs (parseUnit items).1 i = some q.references ∧
      q.references.Sublist (siteTrace q.nameText items)) ∧
    (∀ i j v, (procVarsAt (parseUnit items).1 i).get? j = some v →
      v.numRefs = v.references.length ∧
      getProcVarRefs (parseUnit items).1 i j = some v.references ∧
      v.references.Sublist (siteTrace v.nameText items)) := by
  have hrefok : RefOkState (items.foldl stepTopItem initState) :=
    topFold_refOk items initState
      ⟨fun v hv => absurd hv (List.not_mem_nil _), fun q hq => absurd hq (List.not_mem_nil _)⟩
  have htr0 : TraceInv initState (fun _ => ([] : List Reference)) :=
    ⟨fun v hv => absurd hv (List.not_mem_nil _), fun q hq => absurd hq (List.not_mem_nil _),
      fun ph hp => absurd hp (List.not_mem_nil _)⟩
  have htr := topFold_trace items initState _ htr0
  have htr' : TraceInv (items.foldl stepTopItem initState) (fun id => siteTrace id items) := by
    refine traceInv_mono _ _ _ htr ?_
    intro id
    rw [List.nil_append]
  obtain ⟨tg, tq, tph⟩ := htr'
  obtain ⟨rg, rq⟩ := hrefok
  refine ⟨?_, ?_, ?_⟩
  · intro i v hv
    have hmem : v ∈ (items.foldl stepTopItem initState).globals := List.get?_mem hv
    refine ⟨rg v hmem, ?_, tg v hmem⟩
    show ((parseUnit items).1.globals.get? i).map _ = _
    rw [hv]
    rfl
  · intro i q hq'
    have hmem : q ∈ (items.foldl stepTopItem initState).procs := List.get?_mem hq'
    refine ⟨(rq q hmem).1, ?_, (tq q hmem).1⟩
    show ((parseUnit items).1.procs.get? i).map _ = _
    rw [hq']
    rfl
  · intro i j v hv
    cases hq' : (parseUnit items).1.procs.get? i with
    | none =>
      rw [procVarsAt, hq'] at hv
      simp at hv
    | some q =>
      have hv' : q.locals.get? j = some v := by
        rw [procVarsAt, hq'] at hv
        simpa using hv
      have hqm : q ∈ (items.foldl stepTopItem initState).procs := List.get?_mem hq'
      have hvm : v ∈ q.locals := List.get?_mem hv'
      refine ⟨(rq q hqm).2 v hvm, ?_, (tq q hqm).2 v hvm⟩
      show ((procVarsAt (parseUnit items).1 i).get? j).map _ = _
      rw [hv]
      rfl

/-- Sample global for the reference-tracking witness. -/
def dGlobal : VarDeclSrc :=
  { name := [32], scope := V_GLOBAL, init? := none, arrayLen := 0, line := 0, file := "h" }

/-- Sample local declaration for the reference-tracking witness. -/
def dLocal : VarDeclSrc :=
  { name := [31], scope := V_LOCAL, init? := none, arrayLen := 0, line := 2, file := "h" }

/-- Sample procedure declaring and using a local. -/
def dProcSrc : ProcDeclSrc :=
  { name := [30], trig := .noTrigger, mods := ⟨false, false, false, false, false⟩,
    numArgs := 0, minArgs := 0,
    body? := some [.localDecl dLocal, .useIdent [31] 3 "h"], line := 1, file := "h" }

/-- Sample script for the reference-tracking witness. -/
def dItems : List TopItem :=
  [.varDecl dGlobal, .procDecl dProcSrc, .useIdent [30] 4 "h"]

/-- Witness for C4 at the sample script. -/
theorem claim_C4_witness :
    (∃ v, (parseUnit dItems).1.globals.get? 0 = some v ∧
      v.numRefs = v.references.length ∧
      getVarRefs (parseUnit dItems).1 0 = some v.references ∧
      v.references.Sublist (siteTrace v.nameText dItems)) ∧
    (∃ q, (parseUnit dItems).1.procs.get? 0 = some q ∧
      q.numRefs = q.references.length ∧
      getProcRefs (parseUnit dItems).1 0 = some q.references ∧
      q.references.Sublist (siteTrace q.nameText dItems)) ∧
    (∃ v, (procVarsAt (parseUnit dItems).1 0).get? 0 = some v ∧
      v.numRefs = v.references.length ∧
      getProcVarRefs (parseUnit dItems).1 0 0 = some v.references ∧
      v.references.Sublist (siteTrace v.nameText dItems)) := by
  have h := claim_C4 dItems
  refine ⟨?_, ?_, ?_⟩
  · cases hv : (parseUnit dItems).1.globals.get? 0 with
    | none =>
      have hlen : (parseUnit dItems).1.globals.length = 1 := rfl
      rw [List.get?_eq_none, hlen] at hv
      exact absurd hv (by decide)
    | some v =>
      obtain ⟨h1, h2, h3⟩ := h.1 0 v hv
      exact ⟨v, rfl, h1, h2, h3⟩
  · cases hq : (parseUnit dItems).1.procs.get? 0 with
    | none =>
      have hlen : (parseUnit dItems).1.procs.length = 1 := rfl
      rw [List.get?_eq_none, hlen] at hq
      exact absurd hq (by decide)
    | some q =>
      obtain ⟨h1, h2, h3⟩ := h.2.1 0 q hq
      exact ⟨q, rfl, h1, h2, h3⟩
  · cases hv : (procVarsAt (parseUnit dItems).1 0).get? 0 with
    | none =>
      have hlen : (procVarsAt (parseUnit dItems).1 0).length = 1 := rfl
      rw [List.get?_eq_none, hlen] at hv
      exact absurd hv (by decide)
    | some v =>
      obtain ⟨h1, h2, h3⟩ := h.2.2 0 0 v hv
      exact ⟨v, rfl, h1, h2, h3⟩

/-! ### Forward references (for C2) -/

/-- The sites recorded so far on the placeholder for `id` (empty when no
placeholder exists). -/
def phSites (phs : List PlaceHolder) (id : Str) : List Reference :=
  match phs.find? (fun ph => decide (ph.id = id)) with
  | some ph => ph.sites
  | none => []

/-- Names declared locally in a body. -/
def bodyLocalNames (bs : List BodyItem) : List Str :=
  bs.filterMap (fun b => match b with
    | .localDecl v => some v.name
    | _ => none)

/-- All local-declaration names of the unit. -/
def allLocalNames (items : List TopItem) : List Str :=
  (items.map (fun t => match t with
    | .procDecl p => bodyLocalNames (p.body?.getD [])
    | _ => [])).flatten

/-- The mention sites of `id` in a body, in textual order. -/
def bodyMentions (id : Str) (bs : List BodyItem) : List Reference :=
  (bs.map (fun b => match b with
    | .useIdent i l f => if i = id then [(⟨l, f⟩ : Reference)] else []
    | _ => [])).flatten

/-- The mention sites of `id` effectively parsed for one item (an Import
procedure's body is dropped, so its mentions are not parsed). -/
def effItemMentions (id : Str) : TopItem → List Reference
  | .varDecl _ => []
  | .procDecl p => bodyMentions id (procBody p)
  | .useIdent i l f => if i = id then [(⟨l, f⟩ : Reference)] else []

/-- All effectively parsed mention sites of `id`, in textual order. -/
def mentionSites (id : Str) (items : List TopItem) : List Reference :=
  (items.map (effItemMentions id)).flatten

theorem phSites_cons_pos (p0 : PlaceHolder) (rest : List PlaceHolder) (id : Str)
    (h : p0.id = id) : phSites (p0 :: rest) id = p0.sites := by
  rw [phSites, List.find?_cons]
  have hd : (decide (p0.id = id)) = true := by simp [h]
  rw [hd]

theorem phSites_cons_neg (p0 : PlaceHolder) (rest : List PlaceHolder) (id : Str)
    (h : p0.id ≠ id) : phSites (p0 :: rest) id = phSites rest id := by
  rw [phSites, List.find?_cons]
  have hd : (decide (p0.id = id)) = false := by simp [h]
  rw [hd]
  rfl

theorem phSites_addSite_same (phs : List PlaceHolder) (id : Str) (r : Reference) :
    phSites (addSite phs id r) id = phSites phs id ++ [r] := by
  induction phs with
  | nil =>
    rw [addSite, phSites_cons_pos _ _ _ rfl]
    rfl
  | cons p0 rest ih =>
    rw [addSite]
    by_cases hp : p0.id = id
    · rw [if_pos hp, phSites_cons_pos ⟨p0.id, p0.sites ++ [r]⟩ rest id hp,
        phSites_cons_pos _ _ _ hp]
    · rw [if_neg hp, phSites_cons_neg p0 (addSite rest id r) id hp,
        phSites_cons_neg p0 rest id hp]
      exact ih

theorem phSites_addSite_other (phs : List PlaceHolder) (id id' : Str) (r : Reference)
    (h : id' ≠ id) : phSites (addSite phs id r) id' = phSites phs id' := by
  induction phs with
  | nil =>
    rw [addSite, phSites_cons_neg _ _ _ (fun he => h he.symm)]
  | cons p0 rest ih =>
    rw [addSite]
    by_cases hp : p0.id = id
    · rw [if_pos hp]
      by_cases hq : p0.id = id'
      · exact absurd (hp.symm.trans hq).symm h
      · rw [phSites_cons_neg ⟨p0.id, p0.sites ++ [r]⟩ rest id' hq,
          phSites_cons_neg _ _ _ hq]
    · rw [if_neg hp]
      by_cases hq : p0.id = id'
      · rw [phSites_cons_pos _ _ _ hq, phSites_cons_pos _ _ _ hq]
      · rw [phSites_cons_neg _ _ _ hq, phSites_cons_neg _ _ _ hq]
        exact ih

theorem phSites_take_other (phs : List PlaceHolder) (nm id : Str) (h : nm ≠ id) :
    phSites (takePlaceholder phs nm).2 id = phSites phs id := by
  induction phs with
  | nil => rfl
  | cons p0 rest ih =>
    rw [takePlaceholder]
    by_cases hp : p0.id = nm
    · rw [if_pos hp, phSites_cons_neg _ _ _ (fun he => h ((hp.symm.trans he)))]
    · rw [if_neg hp]
      show phSites (p0 :: (takePlaceholder rest nm).2) id = _
      by_cases hq : p0.id = id
      · rw [phSites_cons_pos _ _ _ hq, phSites_cons_pos _ _ _ hq]
      · rw [phSites_cons_neg _ _ _ hq, phSites_cons_neg _ _ _ hq]
        exact ih

theorem takePlaceholder_fst_eq (phs : List PlaceHolder) (id : Str) :
    (takePlaceholder phs id).1 = phSites phs id := by
  induction phs with
  | nil => rfl
  | cons p0 rest ih =>
    rw [takePlaceholder]
    by_cases hp : p0.id = id
    · rw [if_pos hp, phSites_cons_pos _ _ _ hp]
    · rw [if_neg hp]
      show (takePlaceholder rest id).1 = _
      rw [phSites_cons_neg _ _ _ hp]
      exact ih

theorem phSites_mem (phs : List PlaceHolder) (id : Str) (r : Reference) (rest : List Reference)
    (h : phSites phs id = r :: rest) :
    ∃ ph ∈ phs, ph.id = id ∧ ph.sites = r :: rest := by
  rw [phSites] at h
  cases hf : phs.find? (fun ph => decide (ph.id = id)) with
  | none => rw [hf] at h; exact absurd h (by simp)
  | some ph =>
    rw [hf] at h
    refine ⟨ph, List.mem_of_find?_eq_some hf, ?_, h⟩
    have := List.find?_some hf
    simpa using this

theorem takePlaceholder_ids_sublist (phs : List PlaceHolder) (nm : Str) :
    (((takePlaceholder phs nm).2.map (fun ph => ph.id))).Sublist
      (phs.map (fun ph => ph.id)) := by
  induction phs with
  | nil => exact List.nil_sublist _
  | cons p0 rest ih =>
    rw [takePlaceholder]
    by_cases hp : p0.id = nm
    · rw [if_pos hp]
      exact List.sublist_cons_of_sublist _ (List.Sublist.refl _)
    · rw [if_neg hp]
      show ((p0 :: (takePlaceholder rest nm).2).map (fun ph => ph.id)).Sublist _
      rw [List.map_cons, List.map_cons]
      exact List.Sublist.cons₂ _ ih

theorem takePlaceholder_not_nm (phs : List PlaceHolder) (nm : Str)
    (hnd : (phs.map (fun ph => ph.id)).Nodup) :
    ∀ ph ∈ (takePlaceholder phs nm).2, ph.id ≠ nm := by
  induction phs with
  | nil => exact fun ph hph => absurd hph (List.not_mem_nil _)
  | cons p0 rest ih =>
    rw [List.map_cons, List.nodup_cons] at hnd
    rw [takePlaceholder]
    by_cases hp : p0.id = nm
    · rw [if_pos hp]
      intro ph hph hc
      apply hnd.1
      have hmm : ph.id ∈ rest.map (fun ph => ph.id) :=
        List.mem_map_of_mem (fun ph => ph.id) hph
      rw [hp, ← hc]
      exact hmm
    · rw [if_neg hp]
      intro ph hph
      rcases List.mem_cons.1 hph with hph | hph
      · exact hph ▸ hp
      · exact ih hnd.2 ph hph

theorem addSite_ids (phs : List PlaceHolder) (id : Str) (r : Reference) :
    (id ∈ phs.map (fun ph => ph.id) ∧
      (addSite phs id r).map (fun ph => ph.id) = phs.map (fun ph => ph.id)) ∨
    (id ∉ phs.map (fun ph => ph.id) ∧
      (addSite phs id r).map (fun ph => ph.id) = phs.map (fun ph => ph.id) ++ [id]) := by
  induction phs with
  | nil => exact Or.inr ⟨List.not_mem_nil _, rfl⟩
  | cons p0 rest ih =>
    rw [addSite]
    by_cases hp : p0.id = id
    · refine Or.inl ⟨?_, ?_⟩
      · rw [List.map_cons]
        exact hp ▸ List.mem_cons_self _ _
      · rw [if_pos hp]
        rfl
    · rw [if_neg hp]
      rcases ih with ⟨hm, he⟩ | ⟨hm, he⟩
      · refine Or.inl ⟨List.mem_cons_of_mem _ hm, ?_⟩
        rw [List.map_cons, List.map_cons, he]
      · refine Or.inr ⟨?_, ?_⟩
        · intro hc
          rcases List.mem_cons.1 (by rwa [List.map_cons] at hc) with hc | hc
          · exact hp hc.symm
          · exact hm hc
        · rw [List.map_cons, List.map_cons, he, List.cons_append]

theorem addSite_ids_nodup (phs : List PlaceHolder) (id : Str) (r : Reference)
    (hnd : (phs.map (fun ph => ph.id)).Nodup) :
    ((addSite phs id r).map (fun ph => ph.id)).Nodup := by
  rcases addSite_ids phs id r with ⟨_, he⟩ | ⟨hm, he⟩
  · rw [he]
    exact hnd
  · rw [he, List.nodup_append]
    exact ⟨hnd, List.nodup_singleton id,
      fun a ha hb => hm ((List.mem_singleton.1 hb) ▸ ha)⟩

theorem declNames_step_mono (st : ParseState) (t : TopItem) :
    ∀ n ∈ declNames st, n ∈ declNames (stepTopItem st t) := by
  intro n hn
  cases t with
  | varDecl v =>
    rw [stepTopItem, stepVarDecl]
    split_ifs with hd
    · exact hn
    · rw [declNames] at hn ⊢
      rcases List.mem_append.1 hn with hn | hn
      · exact List.mem_append.2 (Or.inl (by
          show n ∈ (st.globals ++ [varEntry st v]).map (fun x => x.nameText)
          rw [List.map_append]
          exact List.mem_append.2 (Or.inl hn)))
      · exact List.mem_append.2 (Or.inr hn)
  | procDecl p =>
    rw [stepTopItem, stepProcDecl]
    split_ifs with hd
    · exact hn
    · obtain ⟨g1, g2, g3, g4⟩ := bodyFold_state (procBody p) ⟨procEntry st p, procStart st p⟩
      rw [declNames] at hn ⊢
      rcases List.mem_append.1 hn with hn | hn
      · refine List.mem_append.2 (Or.inl ?_)
        show n ∈ (bodyResult st p).st.globals.map (fun x => x.nameText)
        rw [bodyResult] at *
        rw [g1]
        exact hn
      · refine List.mem_append.2 (Or.inr ?_)
        show n ∈ ((bodyResult st p).st.procs ++ [(bodyResult st p).cur]).map
          (fun x => x.nameText)
        rw [List.map_append, bodyResult] at *
        rw [g2]
        exact List.mem_append.2 (Or.inl hn)
  | useIdent id line file =>
    obtain ⟨g1, g2, g3⟩ := stepTopUse_state st id line file
    rw [declNames] at hn ⊢
    rw [show stepTopItem st (.useIdent id line file) = stepTopUse st id line file from rfl,
      g1, g2]
    exact hn

theorem declNames_step_add (st : ParseState) (t : TopItem) (nm : Str)
    (h : topDeclName? t = some nm) : nm ∈ declNames (stepTopItem st t) := by
  cases t with
  | varDecl v =>
    have hnm : v.name = nm := by simpa [topDeclName?] using h
    rw [stepTopItem, stepVarDecl]
    split_ifs with hd
    · exact hnm ▸ (declaredGlobal_iff st v.name).1 hd
    · rw [declNames]
      refine List.mem_append.2 (Or.inl ?_)
      show nm ∈ (st.globals ++ [varEntry st v]).map (fun x => x.nameText)
      rw [List.map_append]
      refine List.mem_append.2 (Or.inr ?_)
      rw [List.map_singleton]
      refine List.mem_singleton.2 ?_
      rw [← hnm]
      rfl
  | procDecl p =>
    have hnm : p.name = nm := by simpa [topDeclName?] using h
    rw [stepTopItem, stepProcDecl]
    split_ifs with hd
    · exact hnm ▸ (declaredGlobal_iff st p.name).1 hd
    · obtain ⟨g1, g2, g3, g4⟩ := bodyFold_state (procBody p) ⟨procEntry st p, procStart st p⟩
      rw [declNames]
      refine List.mem_append.2 (Or.inr ?_)
      show nm ∈ ((bodyResult st p).st.procs ++ [(bodyResult st p).cur]).map
        (fun x => x.nameText)
      rw [List.map_append]
      refine List.mem_append.2 (Or.inr ?_)
      rw [List.map_singleton]
      refine List.mem_singleton.2 ?_
      have hcn : (bodyResult st p).cur.nameText = p.name := by
        rw [bodyResult]
        exact g4
      rw [hcn]
      exact hnm.symm
  | useIdent id line file => simp [topDeclName?] at h

theorem declNames_fold_mono (items : List TopItem) (st : ParseState) :
    ∀ n ∈ declNames st, n ∈ declNames (items.foldl stepTopItem st) := by
  induction items generalizing st with
  | nil => exact fun n hn => hn
  | cons t rest ih =>
    intro n hn
    rw [List.foldl_cons]
    exact ih (stepTopItem st t) n (declNames_step_mono st t n hn)

theorem fold_decls_recorded (items : List TopItem) (st : ParseState) :
    ∀ nm ∈ topDeclNames items, nm ∈ declNames (items.foldl stepTopItem st) := by
  induction items generalizing st with
  | nil => exact fun nm hnm => absurd hnm (List.not_mem_nil _)
  | cons t rest ih =>
    intro nm hnm
    rw [List.foldl_cons]
    rw [topDeclNames, List.filterMap_cons] at hnm
    cases ht : topDeclName? t with
    | none =>
      rw [ht] at hnm
      exact ih (stepTopItem st t) nm hnm
    | some nm' =>
      rw [ht] at hnm
      rcases List.mem_cons.1 hnm with hnm | hnm
      · exact declNames_fold_mono rest (stepTopItem st t) nm
          (hnm ▸ declNames_step_add st t nm' ht)
      · exact ih (stepTopItem st t) nm hnm

/-- The forward-reference bookkeeping invariant: no placeholder names a
declared symbol, placeholder identifiers are distinct, and the
UndeclaredIdentifierError diagnostic is produced only by the final
resolution pass. -/
def ResolveInv (st : ParseState) : Prop :=
  (∀ ph ∈ st.placeholders, ph.id ∉ declNames st) ∧
  (st.placeholders.map (fun ph => ph.id)).Nodup ∧
  (∀ id l f, Diag.undeclaredIdentifierError id l f ∉ st.diags)

/-- The body-context analogue: additionally no placeholder names the
procedure under construction. -/
def ResolveCtx (c : BodyCtx) : Prop :=
  (∀ ph ∈ c.st.placeholders, ph.id ∉ declNames c.st ∧ ph.id ≠ c.cur.nameText) ∧
  (c.st.placeholders.map (fun ph => ph.id)).Nodup ∧
  (∀ id l f, Diag.undeclaredIdentifierError id l f ∉ c.st.diags)

theorem resolveCtx_of_eq (c c' : BodyCtx)
    (hphs : c'.st.placeholders = c.st.placeholders)
    (hg : c'.st.globals.map (fun v => v.nameText) = c.st.globals.map (fun v => v.nameText))
    (hq : c'.st.procs.map (fun q => q.nameText) = c.st.procs.map (fun q => q.nameText))
    (hn : c'.cur.nameText = c.cur.nameText)
    (hd : c'.st.diags = c.st.diags)
    (h : ResolveCtx c) : ResolveCtx c' := by
  obtain ⟨hph, hnd, hdg⟩ := h
  have hde : declNames c'.st = declNames c.st := by
    rw [declNames, declNames, hg, hq]
  refine ⟨?_, ?_, ?_⟩
  · intro ph hp
    rw [hphs] at hp
    rw [hde, hn]
    exact hph ph hp
  · rw [hphs]
    exact hnd
  · intro id l f
    rw [hd]
    exact hdg id l f

theorem stepBodyItem_resolve (c : BodyCtx) (b : BodyItem) (h : ResolveCtx c) :
    ResolveCtx (stepBodyItem c b) := by
  obtain ⟨hph, hnd, hdg⟩ := h
  cases b with
  | localDecl v =>
    rw [stepBodyItem, stepLocalDecl]
    split_ifs with hv
    · refine ⟨hph, hnd, ?_⟩
      intro id l f hc
      rcases List.mem_append.1 hc with hc | hc
      · exact hdg id l f hc
      · simp at hc
    · exact ⟨hph, hnd, hdg⟩
  | useIdent id0 l f =>
    rw [stepBodyItem, stepBodyUse]
    split_ifs with h1 h2 h3 h4
    · exact resolveCtx_of_eq c _ rfl rfl rfl rfl rfl ⟨hph, hnd, hdg⟩
    · exact resolveCtx_of_eq c _ rfl rfl rfl rfl rfl ⟨hph, hnd, hdg⟩
    · exact resolveCtx_of_eq c _ rfl (recordVarRef_names _ _ _) rfl rfl rfl ⟨hph, hnd, hdg⟩
    · exact resolveCtx_of_eq c _ rfl rfl (recordProcRef_names _ _ _) rfl rfl ⟨hph, hnd, hdg⟩
    · have hnotdecl : id0 ∉ declNames c.st := by
        intro hc
        rw [declNames] at hc
        rcases List.mem_append.1 hc with hc | hc
        · exact h3 ((hasVar_iff _ _).2 hc)
        · exact h4 ((hasProc_iff _ _).2 hc)
      have hnotcur : id0 ≠ c.cur.nameText := fun hc => h2 hc.symm
      refine ⟨?_, addSite_ids_nodup _ _ _ hnd, hdg⟩
      intro ph hp
      rcases addSite_cases _ id0 _ ph hp with hp | ⟨p1, hp1, he, hf2⟩ | hf2
      · exact hph ph hp
      · subst hf2
        exact ⟨(hph p1 hp1).1, (hph p1 hp1).2⟩
      · subst hf2
        exact ⟨hnotdecl, hnotcur⟩

theorem bodyFold_resolve (bs : List BodyItem) (c : BodyCtx) (h : ResolveCtx c) :
    ResolveCtx (bs.foldl stepBodyItem c) := by
  induction bs generalizing c with
  | nil => exact h
  | cons b rest ih =>
    rw [List.foldl_cons]
    exact ih (stepBodyItem c b) (stepBodyItem_resolve c b h)

theorem resolveInv_of_eq (st st' : ParseState)
    (hphs : st'.placeholders = st.placeholders)
    (hg : st'.globals.map (fun v => v.nameText) = st.globals.map (fun v => v.nameText))
    (hq : st'.procs.map (fun q => q.nameText) = st.procs.map (fun q => q.nameText))
    (hd : st'.diags = st.diags)
    (h : ResolveInv st) : ResolveInv st' := by
  obtain ⟨hph, hnd, hdg⟩ := h
  have hde : declNames st' = declNames st := by
    rw [declNames, declNames, hg, hq]
  refine ⟨?_, ?_, ?_⟩
  · intro ph hp
    rw [hphs] at hp
    rw [hde]
    exact hph ph hp
  · rw [hphs]
    exact hnd
  · intro id l f
    rw [hd]
    exact hdg id l f

theorem varScopeDiags_no_undecl (v : VarDeclSrc) (id : Str) (l : Int) (f : String) :
    Diag.undeclaredIdentifierError id l f ∉ varScopeDiags v := by
  rw [varScopeDiags]
  split_ifs <;> simp

theorem procScopeDiags_no_undecl (p : ProcDeclSrc) (id : Str) (l : Int) (f : String) :
    Diag.undeclaredIdentifierError id l f ∉ procScopeDiags p := by
  rw [procScopeDiags]
  intro hc
  rcases List.mem_append.1 hc with hc | hc
  · rcases List.mem_append.1 hc with hc | hc <;> revert hc <;> split_ifs <;> simp
  · revert hc
    split_ifs <;> simp

theorem stepTopItem_resolve (st : ParseState) (t : TopItem) (h : ResolveInv st) :
    ResolveInv (stepTopItem st t) := by
  obtain ⟨hph, hnd, hdg⟩ := h
  cases t with
  | varDecl v =>
    rw [stepTopItem, stepVarDecl]
    split_ifs with hd
    · refine ⟨fun ph hp => hph ph hp, hnd, ?_⟩
      intro id l f hc
      rcases List.mem_append.1 hc with hc | hc
      · exact hdg id l f hc
      · simp at hc
    · refine ⟨?_, ?_, ?_⟩
      · intro ph hp
        have hpm : ph ∈ st.placeholders :=
          (takePlaceholder_sub st.placeholders v.name).1 ph hp
        have hne : ph.id ≠ v.name := takePlaceholder_not_nm st.placeholders v.name hnd ph hp
        intro hc
        rw [declNames] at hc
        rcases List.mem_append.1 hc with hc | hc
        · rw [show ((st.globals ++ [varEntry st v]).map (fun x => x.nameText))
              = st.globals.map (fun x => x.nameText) ++ [v.name] by
            rw [List.map_append]; rfl] at hc
          rcases List.mem_append.1 hc with hc | hc
          · exact hph ph hpm (List.mem_append.2 (Or.inl hc))
          · exact hne (List.mem_singleton.1 hc)
        · exact hph ph hpm (List.mem_append.2 (Or.inr hc))
      · exact List.Nodup.sublist (takePlaceholder_ids_sublist st.placeholders v.name) hnd
      · intro id l f hc
        rcases List.mem_append.1 hc with hc | hc
        · exact hdg id l f hc
        · exact varScopeDiags_no_undecl v id l f hc
  | procDecl p =>
    rw [stepTopItem, stepProcDecl]
    split_ifs with hd
    · refine ⟨fun ph hp => hph ph hp, hnd, ?_⟩
      intro id l f hc
      rcases List.mem_append.1 hc with hc | hc
      · exact hdg id l f hc
      · simp at hc
    · have hctx0 : ResolveCtx ⟨procEntry st p, procStart st p⟩ := by
        refine ⟨?_, ?_, ?_⟩
        · intro ph hp
          have hpm : ph ∈ st.placeholders :=
            (takePlaceholder_sub st.placeholders p.name).1 ph hp
          exact ⟨hph ph hpm, takePlaceholder_not_nm st.placeholders p.name hnd ph hp⟩
        · exact List.Nodup.sublist (takePlaceholder_ids_sublist st.placeholders p.name) hnd
        · intro id l f hc
          rcases List.mem_append.1 hc with hc | hc
          · exact hdg id l f hc
          · exact procScopeDiags_no_undecl p id l f hc
      have hctx1 := bodyFold_resolve (procBody p) ⟨procEntry st p, procStart st p⟩ hctx0
      obtain ⟨cph, cnd, cdg⟩ := hctx1
      obtain ⟨g1, g2, g3, g4⟩ := bodyFold_state (procBody p) ⟨procEntry st p, procStart st p⟩
      refine ⟨?_, cnd, cdg⟩
      intro ph hp
      have hcomp := cph ph hp
      intro hc
      rw [declNames] at hc
      rcases List.mem_append.1 hc with hc | hc
      · exact hcomp.1 (by
          rw [declNames]
          exact List.mem_append.2 (Or.inl hc))
      · have hc2 : ph.id ∈ ((bodyResult st p).st.procs ++ [(bodyResult st p).cur]).map
            (fun x => x.nameText) := hc
        rw [List.map_append, List.map_singleton] at hc2
        rcases List.mem_append.1 hc2 with hc2 | hc2
        · exact hcomp.1 (by
            rw [declNames]
            exact List.mem_append.2 (Or.inr hc2))
        · exact hcomp.2 (List.mem_singleton.1 hc2)
  | useIdent id0 l f =>
    rw [stepTopItem, stepTopUse]
    split_ifs with h1 h2
    · exact resolveInv_of_eq st _ rfl (recordVarRef_names _ _ _) rfl rfl ⟨hph, hnd, hdg⟩
    · exact resolveInv_of_eq st _ rfl rfl (recordProcRef_names _ _ _) rfl ⟨hph, hnd, hdg⟩
    · have hnotdecl : id0 ∉ declNames st := by
        intro hc
        rw [declNames] at hc
        rcases List.mem_append.1 hc with hc | hc
        · exact h1 ((hasVar_iff _ _).2 hc)
        · exact h2 ((hasProc_iff _ _).2 hc)
      refine ⟨?_, addSite_ids_nodup _ _ _ hnd, hdg⟩
      intro ph hp
      rcases addSite_cases _ id0 _ ph hp with hp | ⟨p1, hp1, he, hf2⟩ | hf2
      · exact hph ph hp
      · subst hf2
        exact hph p1 hp1
      · subst hf2
        exact hnotdecl

theorem topFold_resolve (items : List TopItem) (st : ParseState) (h : ResolveInv st) :
    ResolveInv (items.foldl stepTopItem st) := by
  induction items generalizing st with
  | nil => exact h
  | cons t rest ih =>
    rw [List.foldl_cons]
    exact ih (stepTopItem st t) (stepTopItem_resolve st t h)

theorem phDiag_id (ph : PlaceHolder) :
    ∃ l f, phDiag ph = .undeclaredIdentifierError ph.id l f := by
  obtain ⟨pid, psites⟩ := ph
  cases psites with
  | nil => exact ⟨0, "", rfl⟩
  | cons r rest => exact ⟨r.line, r.file, rfl⟩

theorem undeclared_not_declared (items : List TopItem) (id : Str) (l : Int) (f : String)
    (h : Diag.undeclaredIdentifierError id l f ∈ (parseUnit items).2) :
    id ∉ topDeclNames items := by
  have hinv : ResolveInv (items.foldl stepTopItem initState) :=
    topFold_resolve items initState
      ⟨fun ph hp => absurd hp (List.not_mem_nil _), List.nodup_nil,
        fun id l f hc => absurd hc (List.not_mem_nil _)⟩
  obtain ⟨hph, hnd, hdg⟩ := hinv
  intro hdecl
  have hrec : id ∈ declNames (items.foldl stepTopItem initState) :=
    fold_decls_recorded items initState id hdecl
  rcases List.mem_append.1 h with hc | hc
  · exact hdg id l f hc
  · rcases List.mem_map.1 hc with ⟨ph, hpm, he⟩
    rcases phDiag_id ph with ⟨l', f', he2⟩
    rw [he2] at he
    have hid : ph.id = id := by
      injection he with e1 e2 e3
    exact hph ph hpm (hid ▸ hrec)

theorem phSites_bodyStep_extend (c : BodyCtx) (b : BodyItem) (id : Str) :
    ∃ ext, phSites (stepBodyItem c b).st.placeholders id
      = phSites c.st.placeholders id ++ ext := by
  cases b with
  | localDecl v =>
    rw [stepBodyItem, stepLocalDecl]
    split_ifs <;> exact ⟨[], by simp⟩
  | useIdent id0 l f =>
    rw [stepBodyItem, stepBodyUse]
    split_ifs
    · exact ⟨[], by simp⟩
    · exact ⟨[], by simp⟩
    · exact ⟨[], by simp⟩
    · exact ⟨[], by simp⟩
    · by_cases hid : id0 = id
      · subst hid
        exact ⟨[⟨l, f⟩], phSites_addSite_same _ _ _⟩
      · exact ⟨[], by
          rw [List.append_nil]
          exact phSites_addSite_other _ _ _ _ (fun he => hid he.symm)⟩

theorem phSites_bodyFold_extend (bs : List BodyItem) (c : BodyCtx) (id : Str) :
    ∃ ext, phSites (bs.foldl stepBodyItem c).st.placeholders id
      = phSites c.st.placeholders id ++ ext := by
  induction bs generalizing c with
  | nil => exact ⟨[], by simp⟩
  | cons b rest ih =>
    rw [List.foldl_cons]
    obtain ⟨e1, h1⟩ := phSites_bodyStep_extend c b id
    obtain ⟨e2, h2⟩ := ih (stepBodyItem c b)
    exact ⟨e1 ++ e2, by rw [h2, h1, List.append_assoc]⟩

theorem phSites_step_extend (st : ParseState) (t : TopItem) (id : Str)
    (h : topDeclName? t ≠ some id) :
    ∃ ext, phSites (stepTopItem st t).placeholders id
      = phSites st.placeholders id ++ ext := by
  cases t with
  | varDecl v =>
    have hne : v.name ≠ id := fun he => h (by simp [topDeclName?, he])
    rw [stepTopItem, stepVarDecl]
    split_ifs
    · exact ⟨[], by simp⟩
    · exact ⟨[], by
        rw [List.append_nil]
        exact phSites_take_other _ _ _ hne⟩
  | procDecl p =>
    have hne : p.name ≠ id := fun he => h (by simp [topDeclName?, he])
    rw [stepTopItem, stepProcDecl]
    split_ifs
    · exact ⟨[], by simp⟩
    · obtain ⟨ext, hext⟩ := phSites_bodyFold_extend (procBody p)
        ⟨procEntry st p, procStart st p⟩ id
      refine ⟨ext, ?_⟩
      show phSites (bodyResult st p).st.placeholders id = _
      rw [bodyResult] at *
      rw [hext]
      have : phSites (procStart st p).placeholders id = phSites st.placeholders id :=
        phSites_take_other _ _ _ hne
      rw [this]
  | useIdent id0 l f =>
    rw [stepTopItem, stepTopUse]
    split_ifs
    · exact ⟨[], by simp⟩
    · exact ⟨[], by simp⟩
    · by_cases hid : id0 = id
      · subst hid
        exact ⟨[⟨l, f⟩], phSites_addSite_same _ _ _⟩
      · exact ⟨[], by
          rw [List.append_nil]
          exact phSites_addSite_other _ _ _ _ (fun he => hid he.symm)⟩

theorem phSites_fold_extend (items : List TopItem) (st : ParseState) (id : Str)
    (h : ∀ t ∈ items, topDeclName? t ≠ some id) :
    ∃ ext, phSites (items.foldl stepTopItem st).placeholders id
      = phSites st.placeholders id ++ ext := by
  induction items generalizing st with
  | nil => exact ⟨[], by simp⟩
  | cons t rest ih =>
    rw [List.foldl_cons]
    obtain ⟨e1, h1⟩ := phSites_step_extend st t id (h t (List.mem_cons_self _ _))
    obtain ⟨e2, h2⟩ := ih (stepTopItem st t) (fun t' ht' => h t' (List.mem_cons_of_mem _ ht'))
    exact ⟨e1 ++ e2, by rw [h2, h1, List.append_assoc]⟩

theorem declNames_step_subset (st : ParseState) (t : TopItem) :
    ∀ n ∈ declNames (stepTopItem st t), n ∈ declNames st ∨ topDeclName? t = some n := by
  intro n hn
  cases t with
  | varDecl v =>
    rw [stepTopItem, stepVarDecl] at hn
    split_ifs at hn with hd
    · exact Or.inl hn
    · rw [declNames] at hn
      rcases List.mem_append.1 hn with hn | hn
      · rw [List.map_append] at hn
        rcases List.mem_append.1 hn with hn | hn
        · exact Or.inl (List.mem_append.2 (Or.inl hn))
        · refine Or.inr ?_
          rw [List.map_singleton] at hn
          have : n = v.name := (List.mem_singleton.1 hn)
          rw [topDeclName?, this]
      · exact Or.inl (List.mem_append.2 (Or.inr hn))
  | procDecl p =>
    rw [stepTopItem, stepProcDecl] at hn
    split_ifs at hn with hd
    · exact Or.inl hn
    · obtain ⟨g1, g2, g3, g4⟩ := bodyFold_state (procBody p) ⟨procEntry st p, procStart st p⟩
      rw [declNames] at hn
      rcases List.mem_append.1 hn with hn | hn
      · have hn' : n ∈ (bodyResult st p).st.globals.map (fun x => x.nameText) := hn
        rw [bodyResult] at hn'
        rw [g1] at hn'
        exact Or.inl (List.mem_append.2 (Or.inl hn'))
      · have hn' : n ∈ ((bodyResult st p).st.procs ++ [(bodyResult st p).cur]).map
            (fun x => x.nameText) := hn
        rw [List.map_append, List.map_singleton] at hn'
        rcases List.mem_append.1 hn' with hn' | hn'
        · rw [bodyResult] at hn'
          rw [g2] at hn'
          exact Or.inl (List.mem_append.2 (Or.inr hn'))
        · have hc : n = (bodyResult st p).cur.nameText := List.mem_singleton.1 hn'
          have hcn : (bodyResult st p).cur.nameText = p.name := by
            rw [bodyResult]
            exact g4
          refine Or.inr ?_
          rw [topDeclName?, hc, hcn]
  | useIdent id0 l f =>
    obtain ⟨g1, g2, g3⟩ := stepTopUse_state st id0 l f
    rw [show stepTopItem st (.useIdent id0 l f) = stepTopUse st id0 l f from rfl] at hn
    rw [declNames] at hn
    rw [g1, g2] at hn
    exact Or.inl hn

theorem declNames_fold_subset (items : List TopItem) (st : ParseState) :
    ∀ n ∈ declNames (items.foldl stepTopItem st),
      n ∈ declNames st ∨ n ∈ topDeclNames items := by
  induction items generalizing st with
  | nil => exact fun n hn => Or.inl hn
  | cons t rest ih =>
    intro n hn
    rw [List.foldl_cons] at hn
    rcases ih (stepTopItem st t) n hn with hn' | hn'
    · rcases declNames_step_subset st t n hn' with hn'' | hn''
      · exact Or.inl hn''
      · refine Or.inr ?_
        rw [topDeclNames, List.filterMap_cons, hn'']
        exact List.mem_cons_self _ _
    · refine Or.inr ?_
      rw [topDeclNames, List.filterMap_cons]
      cases topDeclName? t with
      | none => exact hn'
      | some nm => exact List.mem_cons_of_mem _ hn'

theorem recordProcRef_persist (procs : List Procedure) (id : Str) (r : Reference) :
    ∀ q ∈ procs, ∃ q' ∈ recordProcRef procs id r,
      q'.nameText = q.nameText ∧ ∃ ext, q'.references = q.references ++ ext := by
  induction procs with
  | nil => exact fun q hq => absurd hq (List.not_mem_nil _)
  | cons p0 rest ih =>
    intro q hq
    rw [recordProcRef]
    by_cases hp : p0.nameText = id
    · rw [if_pos hp]
      rcases List.mem_cons.1 hq with hq | hq
      · subst hq
        exact ⟨q.addRef r, List.mem_cons_self _ _, rfl, [r], rfl⟩
      · exact ⟨q, List.mem_cons_of_mem _ hq, rfl, [], by simp⟩
    · rw [if_neg hp]
      rcases List.mem_cons.1 hq with hq | hq
      · subst hq
        exact ⟨q, List.mem_cons_self _ _, rfl, [], by simp⟩
      · obtain ⟨q', hq', hn, ext, he⟩ := ih q hq
        exact ⟨q', List.mem_cons_of_mem _ hq', hn, ext, he⟩

theorem stepBody_procs_persist (c : BodyCtx) (b : BodyItem) :
    ∀ q ∈ c.st.procs, ∃ q' ∈ (stepBodyItem c b).st.procs,
      q'.nameText = q.nameText ∧ ∃ ext, q'.references = q.references ++ ext := by
  intro q hq
  cases b with
  | localDecl v =>
    rw [stepBodyItem, stepLocalDecl]
    split_ifs <;> exact ⟨q, hq, rfl, [], by simp⟩
  | useIdent id0 l f =>
    rw [stepBodyItem, stepBodyUse]
    split_ifs
    · exact ⟨q, hq, rfl, [], by simp⟩
    · exact ⟨q, hq, rfl, [], by simp⟩
    · exact ⟨q, hq, rfl, [], by simp⟩
    · exact recordProcRef_persist c.st.procs id0 ⟨l, f⟩ q hq
    · exact ⟨q, hq, rfl, [], by simp⟩

theorem bodyFold_procs_persist (bs : List BodyItem) (c : BodyCtx) :
    ∀ q ∈ c.st.procs, ∃ q' ∈ (bs.foldl stepBodyItem c).st.procs,
      q'.nameText = q.nameText ∧ ∃ ext, q'.references = q.references ++ ext := by
  induction bs generalizing c with
  | nil => exact fun q hq => ⟨q, hq, rfl, [], by simp⟩
  | cons b rest ih =>
    intro q hq
    rw [List.foldl_cons]
    obtain ⟨q1, hq1, hn1, e1, he1⟩ := stepBody_procs_persist c b q hq
    obtain ⟨q2, hq2, hn2, e2, he2⟩ := ih (stepBodyItem c b) q1 hq1
    exact ⟨q2, hq2, hn2.trans hn1, e1 ++ e2, by rw [he2, he1, List.append_assoc]⟩

theorem step_procs_persist (st : ParseState) (t : TopItem) :
    ∀ q ∈ st.procs, ∃ q' ∈ (stepTopItem st t).procs,
      q'.nameText = q.nameText ∧ ∃ ext, q'.references = q.references ++ ext := by
  intro q hq
  cases t with
  | varDecl v =>
    rw [stepTopItem, stepVarDecl]
    split_ifs <;> exact ⟨q, hq, rfl, [], by simp⟩
  | procDecl p =>
    rw [stepTopItem, stepProcDecl]
    split_ifs with hd
    · exact ⟨q, hq, rfl, [], by simp⟩
    · obtain ⟨q', hq', hn, ext, he⟩ :=
        bodyFold_procs_persist (procBody p) ⟨procEntry st p, procStart st p⟩ q hq
      refine ⟨q', ?_, hn, ext, he⟩
      show q' ∈ (bodyResult st p).st.procs ++ [(bodyResult st p).cur]
      rw [bodyResult]
      exact List.mem_append.2 (Or.inl hq')
  | useIdent id0 l f =>
    rw [stepTopItem, stepTopUse]
    split_ifs
    · exact ⟨q, hq, rfl, [], by simp⟩
    · exact recordProcRef_persist st.procs id0 ⟨l, f⟩ q hq
    · exact ⟨q, hq, rfl, [], by simp⟩

theorem fold_procs_persist (items : List TopItem) (st : ParseState) :
    ∀ q ∈ st.procs, ∃ q' ∈ (items.foldl stepTopItem st).procs,
      q'.nameText = q.nameText ∧ ∃ ext, q'.references = q.references ++ ext := by
  induction items generalizing st with
  | nil => exact fun q hq => ⟨q, hq, rfl, [], by simp⟩
  | cons t rest ih =>
    intro q hq
    rw [List.foldl_cons]
    obtain ⟨q1, hq1, hn1, e1, he1⟩ := step_procs_persist st t q hq
    obtain ⟨q2, hq2, hn2, e2, he2⟩ := ih (stepTopItem st t) q1 hq1
    exact ⟨q2, hq2, hn2.trans hn1, e1 ++ e2, by rw [he2, he1, List.append_assoc]⟩

theorem bodyFold_cur_refs (bs : List BodyItem) (c : BodyCtx) :
    ∃ ext, (bs.foldl stepBodyItem c).cur.references = c.cur.references ++ ext := by
  induction bs generalizing c with
  | nil => exact ⟨[], by simp⟩
  | cons b rest ih =>
    rw [List.foldl_cons]
    have hstep : ∃ ext, (stepBodyItem c b).cur.references = c.cur.references ++ ext := by
      cases b with
      | localDecl v =>
        rw [stepBodyItem, stepLocalDecl]
        split_ifs <;> exact ⟨[], by simp⟩
      | useIdent id0 l f =>
        rw [stepBodyItem, stepBodyUse]
        split_ifs
        · exact ⟨[], by simp⟩
        · exact ⟨[⟨l, f⟩], rfl⟩
        · exact ⟨[], by simp⟩
        · exact ⟨[], by simp⟩
        · exact ⟨[], by simp⟩
    obtain ⟨e1, h1⟩ := hstep
    obtain ⟨e2, h2⟩ := ih (stepBodyItem c b)
    exact ⟨e1 ++ e2, by rw [h2, h1, List.append_assoc]⟩

theorem stepTopUse_placeholder (st : ParseState) (id : Str) (l : Int) (f : String)
    (h : id ∉ declNames st) :
    (stepTopUse st id l f).placeholders = addSite st.placeholders id ⟨l, f⟩ := by
  have h1 : ¬ (hasVar st.globals id = true) := by
    intro hc
    exact h (List.mem_append.2 (Or.inl ((hasVar_iff _ _).1 hc)))
  have h2 : ¬ (hasProc st.procs id = true) := by
    intro hc
    exact h (List.mem_append.2 (Or.inr ((hasProc_iff _ _).1 hc)))
  rw [stepTopUse, if_neg h1, if_neg h2]

theorem forward_call_resolved (pre mid post : List TopItem) (id : Str) (l : Int) (f : String)
    (p : ProcDeclSrc) (hname : p.name = id)
    (hpre : id ∉ topDeclNames pre) (hmid : id ∉ topDeclNames mid) :
    ∃ q ∈ (parseUnit (pre ++ (TopItem.useIdent id l f :: mid)
        ++ (TopItem.procDecl p :: post))).1.procs,
      q.nameText = id ∧ (⟨l, f⟩ : Reference) ∈ q.references := by
  have hsplit : ((pre ++ (TopItem.useIdent id l f :: mid)
        ++ (TopItem.procDecl p :: post)).foldl stepTopItem initState)
      = post.foldl stepTopItem
          (stepTopItem
            (mid.foldl stepTopItem
              (stepTopItem (pre.foldl stepTopItem initState) (.useIdent id l f)))
            (.procDecl p)) := by
    rw [List.foldl_append, List.foldl_append, List.foldl_cons, List.foldl_cons]
  have hid1 : id ∉ declNames (pre.foldl stepTopItem initState) := by
    intro hc
    rcases declNames_fold_subset pre initState id hc with hc | hc
    · simp [declNames, initState] at hc
    · exact hpre hc
  have huse : stepTopItem (pre.foldl stepTopItem initState) (.useIdent id l f)
      = stepTopUse (pre.foldl stepTopItem initState) id l f := rfl
  have hph2 : phSites (stepTopItem (pre.foldl stepTopItem initState)
        (.useIdent id l f)).placeholders id
      = phSites (pre.foldl stepTopItem initState).placeholders id ++ [⟨l, f⟩] := by
    rw [huse, stepTopUse_placeholder _ _ _ _ hid1]
    exact phSites_addSite_same _ _ _
  have hdecl2 : declNames (stepTopItem (pre.foldl stepTopItem initState)
      (.useIdent id l f)) = declNames (pre.foldl stepTopItem initState) := by
    obtain ⟨g1, g2, g3⟩ := stepTopUse_state (pre.foldl stepTopItem initState) id l f
    rw [huse, declNames, declNames, g1, g2]
  have hmidt : ∀ t ∈ mid, topDeclName? t ≠ some id := by
    intro t ht hc
    exact hmid (List.mem_filterMap.2 ⟨t, ht, hc⟩)
  obtain ⟨ext3, hph3⟩ := phSites_fold_extend mid
    (stepTopItem (pre.foldl stepTopItem initState) (.useIdent id l f)) id hmidt
  have hsite3 : (⟨l, f⟩ : Reference) ∈ phSites
      (mid.foldl stepTopItem (stepTopItem (pre.foldl stepTopItem initState)
        (.useIdent id l f))).placeholders id := by
    rw [hph3, hph2]
    exact List.mem_append.2 (Or.inl (List.mem_append.2 (Or.inr (List.mem_singleton.2 rfl))))
  have hid3 : id ∉ declNames (mid.foldl stepTopItem
      (stepTopItem (pre.foldl stepTopItem initState) (.useIdent id l f))) := by
    intro hc
    rcases declNames_fold_subset mid _ id hc with hc | hc
    · rw [hdecl2] at hc
      exact hid1 hc
    · exact hmid hc
  have hfresh : declaredGlobal (mid.foldl stepTopItem
      (stepTopItem (pre.foldl stepTopItem initState) (.useIdent id l f))) p.name = false := by
    rcases Bool.eq_false_or_eq_true (declaredGlobal (mid.foldl stepTopItem
        (stepTopItem (pre.foldl stepTopItem initState) (.useIdent id l f))) p.name)
        with h | h
    · refine absurd ((declaredGlobal_iff _ _).1 h) ?_
      rw [hname]
      exact hid3
    · exact h
  set st3 := mid.foldl stepTopItem
    (stepTopItem (pre.foldl stepTopItem initState) (.useIdent id l f)) with hst3
  have hstep4 : stepTopItem st3 (.procDecl p) = finishProc (bodyResult st3 p) := by
    rw [show stepTopItem st3 (.procDecl p) = stepProcDecl st3 p from rfl,
      stepProcDecl, if_neg (by simp [hfresh])]
  have hq0mem : (bodyResult st3 p).cur ∈ (stepTopItem st3 (.procDecl p)).procs := by
    rw [hstep4, finishProc]
    exact List.mem_append.2 (Or.inr (List.mem_singleton.2 rfl))
  have hq0name : (bodyResult st3 p).cur.nameText = id := by
    have := (bodyFold_state (procBody p) ⟨procEntry st3 p, procStart st3 p⟩).2.2.2
    rw [bodyResult]
    exact this.trans hname
  have hq0refs : (⟨l, f⟩ : Reference) ∈ (bodyResult st3 p).cur.references := by
    obtain ⟨ext4, hext4⟩ := bodyFold_cur_refs (procBody p) ⟨procEntry st3 p, procStart st3 p⟩
    rw [bodyResult, hext4]
    have hentry : (⟨procEntry st3 p, procStart st3 p⟩ : BodyCtx).cur.references
        = (takePlaceholder st3.placeholders p.name).1 ++ [(⟨p.line, p.file⟩ : Reference)] := rfl
    rw [hentry, takePlaceholder_fst_eq, hname]
    exact List.mem_append.2 (Or.inl (List.mem_append.2 (Or.inl hsite3)))
  obtain ⟨q', hq', hn', ext5, he5⟩ :=
    fold_procs_persist post (stepTopItem st3 (.procDecl p)) (bodyResult st3 p).cur hq0mem
  refine ⟨q', ?_, hn'.trans hq0name, ?_⟩
  · show q' ∈ ((pre ++ (TopItem.useIdent id l f :: mid)
      ++ (TopItem.procDecl p :: post)).foldl stepTopItem initState).procs
    rw [hsplit]
    exact hq'
  · rw [he5]
    exact List.mem_append.2 (Or.inl hq0refs)

theorem mem_map_nameText_append (ls : List Variable) (w : Variable) (id : Str)
    (h1 : id ∉ ls.map (fun v => v.nameText)) (h2 : w.nameText ≠ id) :
    id ∉ (ls ++ [w]).map (fun v => v.nameText) := by
  rw [List.map_append, List.map_singleton]
  intro hc
  rcases List.mem_append.1 hc with hc | hc
  · exact h1 hc
  · exact h2 (List.mem_singleton.1 hc).symm

theorem stepBodyUse_placeholder (c : BodyCtx) (id : Str) (l : Int) (f : String)
    (h1 : id ∉ c.cur.locals.map (fun v => v.nameText))
    (h2 : c.cur.nameText ≠ id)
    (h3 : id ∉ declNames c.st) :
    (stepBodyUse c id l f).st.placeholders = addSite c.st.placeholders id ⟨l, f⟩ ∧
    (stepBodyUse c id l f).st.globals = c.st.globals ∧
    (stepBodyUse c id l f).st.procs = c.st.procs ∧
    (stepBodyUse c id l f).cur.locals = c.cur.locals ∧
    (stepBodyUse c id l f).cur.nameText = c.cur.nameText := by
  have hv1 : ¬ (hasVar c.cur.locals id = true) := by
    intro hc
    exact h1 ((hasVar_iff _ _).1 hc)
  have hv2 : ¬ (c.cur.nameText = id) := h2
  have hv3 : ¬ (hasVar c.st.globals id = true) := by
    intro hc
    exact h3 (List.mem_append.2 (Or.inl ((hasVar_iff _ _).1 hc)))
  have hv4 : ¬ (hasProc c.st.procs id = true) := by
    intro hc
    exact h3 (List.mem_append.2 (Or.inr ((hasProc_iff _ _).1 hc)))
  rw [stepBodyUse, if_neg hv1, if_neg hv2, if_neg hv3, if_neg hv4]
  exact ⟨rfl, rfl, rfl, rfl, rfl⟩

theorem stepBodyUse_other (c : BodyCtx) (id0 id : Str) (l : Int) (f : String)
    (h : id0 ≠ id) :
    phSites (stepBodyUse c id0 l f).st.placeholders id = phSites c.st.placeholders id ∧
    (stepBodyUse c id0 l f).st.globals.map (fun v => v.nameText)
      = c.st.globals.map (fun v => v.nameText) ∧
    (stepBodyUse c id0 l f).st.procs.map (fun q => q.nameText)
      = c.st.procs.map (fun q => q.nameText) ∧
    (stepBodyUse c id0 l f).cur.locals.map (fun v => v.nameText)
      = c.cur.locals.map (fun v => v.nameText) ∧
    (stepBodyUse c id0 l f).cur.nameText = c.cur.nameText := by
  rw [stepBodyUse]
  split_ifs
  · exact ⟨rfl, rfl, rfl, recordVarRef_names _ _ _, rfl⟩
  · exact ⟨rfl, rfl, rfl, rfl, rfl⟩
  · exact ⟨rfl, recordVarRef_names _ _ _, rfl, rfl, rfl⟩
  · exact ⟨rfl, rfl, recordProcRef_names _ _ _, rfl, rfl⟩
  · exact ⟨phSites_addSite_other _ _ _ _ (fun he => h he.symm), rfl, rfl, rfl, rfl⟩

theorem stepTopUse_phSites_other (st : ParseState) (id0 id : Str) (l : Int) (f : String)
    (h : id0 ≠ id) :
    phSites (stepTopUse st id0 l f).placeholders id = phSites st.placeholders id := by
  rw [stepTopUse]
  split_ifs
  · rfl
  · rfl
  · exact phSites_addSite_other _ _ _ _ (fun he => h he.symm)

theorem bodyFold_mentions (bs : List BodyItem) (c : BodyCtx) (id : Str)
    (hlocal : id ∉ bodyLocalNames bs)
    (hlocals0 : id ∉ c.cur.locals.map (fun v => v.nameText))
    (hself : c.cur.nameText ≠ id)
    (hdecl : id ∉ declNames c.st) :
    phSites (bs.foldl stepBodyItem c).st.placeholders id
      = phSites c.st.placeholders id ++ bodyMentions id bs := by
  induction bs generalizing c with
  | nil =>
    rw [show bodyMentions id [] = [] from rfl, List.append_nil]
    rfl
  | cons b rest ih =>
    rw [List.foldl_cons]
    cases b with
    | localDecl v =>
      have hvname : v.name ≠ id := by
        intro he
        exact hlocal (by
          rw [bodyLocalNames, List.filterMap_cons]
          exact he ▸ List.mem_cons_self _ _)
      have hlocal' : id ∉ bodyLocalNames rest := by
        intro hc
        exact hlocal (by
          rw [bodyLocalNames, List.filterMap_cons]
          exact List.mem_cons_of_mem _ hc)
      have hment : bodyMentions id (BodyItem.localDecl v :: rest) = bodyMentions id rest := by
        rw [bodyMentions]
        simp [bodyMentions]
      rw [hment]
      rw [show stepBodyItem c (.localDecl v) = stepLocalDecl c v from rfl, stepLocalDecl]
      split_ifs with hv
      · exact ih _ hlocal' hlocals0 hself hdecl
      · exact ih _ hlocal'
          (mem_map_nameText_append c.cur.locals _ id hlocals0 hvname) hself hdecl
    | useIdent id0 l f =>
      by_cases hid : id0 = id
      · subst hid
        obtain ⟨e1, e2, e3, e4, e5⟩ := stepBodyUse_placeholder c id0 l f hlocals0 hself hdecl
        have hment : bodyMentions id0 (BodyItem.useIdent id0 l f :: rest)
            = [(⟨l, f⟩ : Reference)] ++ bodyMentions id0 rest := by
          rw [bodyMentions]
          simp [bodyMentions]
        rw [hment]
        have ihr := ih (stepBodyUse c id0 l f)
          (by
            intro hc
            exact hlocal (by
              rw [bodyLocalNames, List.filterMap_cons]
              exact hc))
          (by rw [e4]; exact hlocals0)
          (by rw [e5]; exact hself)
          (by
            rw [declNames, e2, e3]
            exact hdecl)
        rw [show stepBodyItem c (.useIdent id0 l f) = stepBodyUse c id0 l f from rfl]
        rw [ihr, e1, phSites_addSite_same, List.append_assoc]
      · obtain ⟨e1, e2, e3, e4, e5⟩ := stepBodyUse_other c id0 id l f hid
        have hment : bodyMentions id (BodyItem.useIdent id0 l f :: rest)
            = bodyMentions id rest := by
          rw [bodyMentions]
          simp [bodyMentions, hid]
        rw [hment]
        have ihr := ih (stepBodyUse c id0 l f)
          (by
            intro hc
            exact hlocal (by
              rw [bodyLocalNames, List.filterMap_cons]
              exact hc))
          (by rw [e4]; exact hlocals0)
          (by rw [e5]; exact hself)
          (by
            rw [declNames, e2, e3]
            exact hdecl)
        rw [show stepBodyItem c (.useIdent id0 l f) = stepBodyUse c id0 l f from rfl]
        rw [ihr, e1]

theorem fold_mentions (items : List TopItem) (st : ParseState) (id : Str)
    (hnd : (topDeclNames items).Nodup)
    (hdisj : ∀ n ∈ topDeclNames items, n ∉ declNames st)
    (hid1 : id ∉ topDeclNames items)
    (hid2 : id ∉ allLocalNames items)
    (hid3 : id ∉ declNames st) :
    phSites (items.foldl stepTopItem st).placeholders id
      = phSites st.placeholders id ++ mentionSites id items := by
  induction items generalizing st with
  | nil =>
    rw [show mentionSites id [] = [] from rfl, List.append_nil]
    rfl
  | cons t rest ih =>
    rw [List.foldl_cons]
    obtain ⟨hnd', hdisj', hfreshname⟩ := fold_fresh_propagate t rest st hnd hdisj
    have hid1' : id ∉ topDeclNames rest := by
      intro hc
      apply hid1
      rw [topDeclNames, List.filterMap_cons]
      cases topDeclName? t with
      | none => exact hc
      | some nm => exact List.mem_cons_of_mem _ hc
    have hid3' : id ∉ declNames (stepTopItem st t) := by
      intro hc
      rcases declNames_step_subset st t id hc with hc | hc
      · exact hid3 hc
      · exact hid1 (by
          rw [topDeclNames, List.filterMap_cons, hc]
          exact List.mem_cons_self _ _)
    cases t with
    | varDecl v =>
      have hvname : v.name ≠ id := by
        intro he
        exact hid1 (by
          rw [topDeclNames, List.filterMap_cons]
          exact he ▸ List.mem_cons_self _ _)
      have hid2' : id ∉ allLocalNames rest := by
        intro hc
        exact hid2 (by
          rw [allLocalNames, List.map_cons, List.flatten_cons]
          exact List.mem_append.2 (Or.inr (by rwa [allLocalNames] at hc)))
      have hment : mentionSites id (TopItem.varDecl v :: rest) = mentionSites id rest := by
        rw [mentionSites]
        simp [mentionSites, effItemMentions]
      rw [hment]
      have hfresh : declaredGlobal st v.name = false :=
        hfreshname v.name (by simp [topDeclName?])
      have hstep : stepTopItem st (.varDecl v) = stepVarDecl st v := rfl
      have hphpres : phSites (stepTopItem st (.varDecl v)).placeholders id
          = phSites st.placeholders id := by
        rw [hstep, stepVarDecl, if_neg (by simp [hfresh])]
        exact phSites_take_other _ _ _ hvname
      rw [ih (stepTopItem st (.varDecl v)) hnd' hdisj' hid1' hid2' hid3', hphpres]
    | procDecl p =>
      have hpname : p.name ≠ id := by
        intro he
        exact hid1 (by
          rw [topDeclNames, List.filterMap_cons]
          exact he ▸ List.mem_cons_self _ _)
      have hid2' : id ∉ allLocalNames rest := by
        intro hc
        exact hid2 (by
          rw [allLocalNames, List.map_cons, List.flatten_cons]
          exact List.mem_append.2 (Or.inr (by rwa [allLocalNames] at hc)))
      have hidbody : id ∉ bodyLocalNames (procBody p) := by
        intro hc
        apply hid2
        rw [allLocalNames, List.map_cons, List.flatten_cons]
        refine List.mem_append.2 (Or.inl ?_)
        rw [procBody] at hc
        cases him : p.mods.isImport
        · rw [if_neg (by simp [him])] at hc
          exact hc
        · rw [if_pos (by simp [him])] at hc
          simp [bodyLocalNames] at hc
      have hment : mentionSites id (TopItem.procDecl p :: rest)
          = bodyMentions id (procBody p) ++ mentionSites id rest := by
        rw [mentionSites]
        simp [mentionSites, effItemMentions]
      rw [hment]
      have hfresh : declaredGlobal st p.name = false :=
        hfreshname p.name (by simp [topDeclName?])
      have hstep : stepTopItem st (.procDecl p) = finishProc (bodyResult st p) := by
        rw [show stepTopItem st (.procDecl p) = stepProcDecl st p from rfl,
          stepProcDecl, if_neg (by simp [hfresh])]
      have hbody := bodyFold_mentions (procBody p) ⟨procEntry st p, procStart st p⟩ id
        hidbody
        (by
          intro hc
          simp [procEntry] at hc)
        (fun he => hpname he)
        (by
          show id ∉ declNames (procStart st p)
          rw [declNames]
          exact hid3)
      have hphstep : phSites (stepTopItem st (.procDecl p)).placeholders id
          = phSites st.placeholders id ++ bodyMentions id (procBody p) := by
        rw [hstep]
        show phSites (bodyResult st p).st.placeholders id = _
        rw [bodyResult]
        rw [hbody]
        have : phSites (procStart st p).placeholders id = phSites st.placeholders id :=
          phSites_take_other _ _ _ hpname
        rw [this]
      rw [ih (stepTopItem st (.procDecl p)) hnd' hdisj' hid1' hid2' hid3', hphstep,
        List.append_assoc]
    | useIdent id0 l f =>
      have hid2' : id ∉ allLocalNames rest := by
        intro hc
        exact hid2 (by
          rw [allLocalNames, List.map_cons, List.flatten_cons]
          exact List.mem_append.2 (Or.inr (by rwa [allLocalNames] at hc)))
      by_cases hid0 : id0 = id
      · subst hid0
        have hment : mentionSites id0 (TopItem.useIdent id0 l f :: rest)
            = [(⟨l, f⟩ : Reference)] ++ mentionSites id0 rest := by
          rw [mentionSites]
          simp [mentionSites, effItemMentions]
        rw [hment]
        have hph : phSites (stepTopItem st (.useIdent id0 l f)).placeholders id0
            = phSites st.placeholders id0 ++ [⟨l, f⟩] := by
          rw [show stepTopItem st (.useIdent id0 l f) = stepTopUse st id0 l f from rfl,
            stepTopUse_placeholder _ _ _ _ hid3]
          exact phSites_addSite_same _ _ _
        rw [ih (stepTopItem st (.useIdent id0 l f)) hnd' hdisj' hid1' hid2' hid3', hph,
          List.append_assoc]
      · have hment : mentionSites id (TopItem.useIdent id0 l f :: rest)
            = mentionSites id rest := by
          rw [mentionSites]
          simp [mentionSites, effItemMentions, hid0]
        rw [hment]
        have hph : phSites (stepTopItem st (.useIdent id0 l f)).placeholders id
            = phSites st.placeholders id :=
          stepTopUse_phSites_other st id0 id l f hid0
        rw [ih (stepTopItem st (.useIdent id0 l f)) hnd' hdisj' hid1' hid2' hid3', hph]

theorem phDiag_cons (ph : PlaceHolder) (r : Reference) (rest : List Reference)
    (h : ph.sites = r :: rest) :
    phDiag ph = .undeclaredIdentifierError ph.id r.line r.file := by
  obtain ⟨pid, ps⟩ := ph
  subst h
  rfl

theorem undeclared_reported (items : List TopItem) (id : Str)
    (hnd : (topDeclNames items).Nodup)
    (hid1 : id ∉ topDeclNames items) (hid2 : id ∉ allLocalNames items)
    (r : Reference) (rest' : List Reference)
    (hm : mentionSites id items = r :: rest') :
    Diag.undeclaredIdentifierError id r.line r.file ∈ (parseUnit items).2 := by
  have h := fold_mentions items initState id hnd
    (by
      intro n _
      simp [declNames, initState])
    hid1 hid2
    (by simp [declNames, initState])
  rw [hm] at h
  have h' : phSites (items.foldl stepTopItem initState).placeholders id = r :: rest' := by
    rw [h]
    rfl
  obtain ⟨ph, hpm, hpid, hpsites⟩ := phSites_mem _ id r rest' h'
  have hd : phDiag ph = .undeclaredIdentifierError id r.line r.file := by
    rw [phDiag_cons ph r rest' hpsites, hpid]
  show Diag.undeclaredIdentifierError id r.line r.file
    ∈ (items.foldl stepTopItem initState).diags
      ++ (items.foldl stepTopItem initState).placeholders.map phDiag
  refine List.mem_append.2 (Or.inr ?_)
  rw [← hd]
  exact List.mem_map_of_mem phDiag hpm

/-- C2: a reference to a not-yet-declared identifier is recorded as an
unresolved placeholder site; after the whole unit is parsed every
placeholder with a matching (later) declaration has been resolved — an
UndeclaredIdentifierError can only name an identifier with no top-level
declaration anywhere in the unit; a call to a procedure textually before
that procedure's declaration parses without error and contributes a
reference entry at the call site on the procedure's record; and an
identifier never declared anywhere yields an UndeclaredIdentifierError
attributed to its earliest reference site. -/
theorem claim_C2 (st : ParseState) (aid : Str) (al : Int) (af : String)
    (items : List TopItem) (uid : Str) (ul : Int) (uf : String)
    (pre mid post : List TopItem) (cid : Str) (cl : Int) (cf : String) (p : ProcDeclSrc)
    (ditems : List TopItem) (did : Str) (dr : Reference) (drest : List Reference) :
    (aid ∉ declNames st →
      phSites (stepTopUse st aid al af).placeholders aid
        = phSites st.placeholders aid ++ [⟨al, af⟩]) ∧
    (Diag.undeclaredIdentifierError uid ul uf ∈ (parseUnit items).2 →
      uid ∉ topDeclNames items) ∧
    (p.name = cid → cid ∉ topDeclNames pre → cid ∉ topDeclNames mid →
      ∃ q ∈ (parseUnit (pre ++ (TopItem.useIdent cid cl cf :: mid)
          ++ (TopItem.procDecl p :: post))).1.procs,
        q.nameText = cid ∧ (⟨cl, cf⟩ : Reference) ∈ q.references) ∧
    ((topDeclNames ditems).Nodup → did ∉ topDeclNames ditems →
      did ∉ allLocalNames ditems → mentionSites did ditems = dr :: drest →
      Diag.undeclaredIdentifierError did dr.line dr.file ∈ (parseUnit ditems).2) := by
  refine ⟨?_, ?_, ?_, ?_⟩
  · intro h
    rw [stepTopUse_placeholder st aid al af h]
    exact phSites_addSite_same _ _ _
  · exact fun h => undeclared_not_declared items uid ul uf h
  · exact fun h1 h2 h3 => forward_call_resolved pre mid post cid cl cf p h1 h2 h3
  · exact fun h1 h2 h3 h4 => undeclared_reported ditems did h1 h2 h3 dr drest h4

/-- Sample procedure declared after its first (forward) call. -/
def cProcFwd : ProcDeclSrc :=
  { name := [42], trig := .noTrigger, mods := ⟨false, false, false, false, false⟩,
    numArgs := 0, minArgs := 0, body? := none, line := 2, file := "w" }

/-- Witness for C2 at concrete inputs: an unresolved top-level mention, an
undeclared identifier diagnostic, a forward call, and a never-declared
identifier. -/
theorem claim_C2_witness :
    (phSites (stepTopUse initState [40] 1 "w").placeholders [40]
        = phSites initState.placeholders [40] ++ [⟨1, "w"⟩]) ∧
    ([41] ∉ topDeclNames [TopItem.useIdent [41] 1 "w"]) ∧
    (∃ q ∈ (parseUnit ([] ++ (TopItem.useIdent [42] 1 "w" :: [])
        ++ (TopItem.procDecl cProcFwd :: []))).1.procs,
      q.nameText = [42] ∧ (⟨1, "w"⟩ : Reference) ∈ q.references) ∧
    Diag.undeclaredIdentifierError [43] (2 : Int) "w"
      ∈ (parseUnit [TopItem.useIdent [43] 2 "w"]).2 := by
  have h := claim_C2 initState [40] 1 "w"
    [TopItem.useIdent [41] 1 "w"] [41] 1 "w"
    [] [] [] [42] 1 "w" cProcFwd
    [TopItem.useIdent [43] 2 "w"] [43] ⟨2, "w"⟩ []
  refine ⟨?_, ?_, ?_, ?_⟩
  · exact h.1 (by simp [declNames, initState])
  · exact h.2.1 (List.mem_singleton.2 rfl)
  · exact h.2.2.1 rfl (List.not_mem_nil _) (List.not_mem_nil _)
  · exact h.2.2.2 (by decide) (by decide) (by decide) rfl
